import Mathlib

/-!
Verification of the cephfs data-scan recovery-injection engine
(`src/tools/cephfs/DataScan.h`).  The repository material only declares the
driver interfaces (`RecoveryDriver`, `MetadataDriver`, `LocalFileDriver`);
the algorithmic bodies live outside the supplied sources, so each operation
below is modelled from the specification text and marked as such in its doc
comment.  Machine integers are modelled as `Nat`/`Int`; status codes follow
the C convention (0 = success, negative errno on failure).
-/

/-! ## Association lists (finite maps used by the metadata-store model) -/

/-- Lookup in an association list, first matching key wins. -/
def alistGet {α β : Type} [DecidableEq α] : List (α × β) → α → Option β
  | [], _ => none
  | (k, v) :: rest, key => if k = key then some v else alistGet rest key

/-- Insert-or-replace in an association list: replaces the first binding of
the key, appends a fresh binding when the key is absent. -/
def alistSet {α β : Type} [DecidableEq α] : List (α × β) → α → β → List (α × β)
  | [], key, v => [(key, v)]
  | (k, w) :: rest, key, v =>
    if k = key then (key, v) :: rest else (k, w) :: alistSet rest key v

/-- Number of bindings of a key in an association list. -/
def countKey {α β : Type} [DecidableEq α] (l : List (α × β)) (k : α) : Nat :=
  (l.filter (fun e => e.1 = k)).length

/-- Boolean membership in a list. -/
def memB {α : Type} [DecidableEq α] : List α → α → Bool
  | [], _ => false
  | x :: xs, a => if x = a then true else memB xs a

theorem memB_iff {α : Type} [DecidableEq α] (l : List α) (a : α) :
    memB l a = true ↔ a ∈ l := by
  induction l with
  | nil => simp [memB]
  | cons x xs ih =>
    by_cases h : x = a <;> simp [memB, h, ih]
    exact fun h2 => (h h2.symm).elim

@[simp] theorem alistGet_nil {α β : Type} [DecidableEq α] (k : α) :
    alistGet ([] : List (α × β)) k = none := rfl

theorem alistGet_set_self {α β : Type} [DecidableEq α]
    (l : List (α × β)) (k : α) (v : β) :
    alistGet (alistSet l k v) k = some v := by
  induction l with
  | nil => simp [alistGet, alistSet]
  | cons e rest ih =>
    by_cases h : e.1 = k <;> simp [alistSet, alistGet, h, ih]

theorem alistGet_set_ne {α β : Type} [DecidableEq α]
    (l : List (α × β)) (k k' : α) (v : β) (h : k' ≠ k) :
    alistGet (alistSet l k v) k' = alistGet l k' := by
  induction l with
  | nil => simp [alistGet, alistSet, Ne.symm h]
  | cons e rest ih =>
    by_cases he : e.1 = k
    · obtain ⟨k0, v0⟩ := e
      simp only at he
      subst he
      simp [alistSet, alistGet, Ne.symm h]
    · obtain ⟨k0, v0⟩ := e
      simp only at he
      by_cases he' : k0 = k' <;> simp [alistSet, alistGet, he, he', ih, h]

theorem alistSet_of_get_eq {α β : Type} [DecidableEq α]
    (l : List (α × β)) (k : α) (v : β) (h : alistGet l k = some v) :
    alistSet l k v = l := by
  induction l with
  | nil => simp [alistGet] at h
  | cons e rest ih =>
    obtain ⟨k0, v0⟩ := e
    by_cases he : k0 = k
    · subst he
      simp [alistGet] at h
      simp [alistSet, h]
    · simp [alistGet, he] at h
      simp [alistSet, he, ih h]

theorem countKey_cons {α β : Type} [DecidableEq α]
    (e : α × β) (rest : List (α × β)) (k : α) :
    countKey (e :: rest) k =
      (if e.1 = k then 1 else 0) + countKey rest k := by
  by_cases he : e.1 = k <;>
    simp [countKey, List.filter_cons, he, Nat.add_comm]

theorem countKey_eq_zero_of_get_none {α β : Type} [DecidableEq α]
    (l : List (α × β)) (k : α) (h : alistGet l k = none) :
    countKey l k = 0 := by
  induction l with
  | nil => simp [countKey]
  | cons e rest ih =>
    by_cases he : e.1 = k
    · simp [alistGet, he] at h
    · simp [alistGet, he] at h
      simp [countKey_cons, he, ih h]

theorem countKey_set {α β : Type} [DecidableEq α]
    (l : List (α × β)) (k : α) (v : β) :
    countKey (alistSet l k v) k =
      if countKey l k = 0 then 1 else countKey l k := by
  induction l with
  | nil => simp [countKey, alistSet, List.filter]
  | cons e rest ih =>
    obtain ⟨k0, v0⟩ := e
    by_cases he : k0 = k
    · subst he
      simp [alistSet, countKey_cons]
    · simp [alistSet, he, countKey_cons, ih]

theorem countKey_set_ne {α β : Type} [DecidableEq α]
    (l : List (α × β)) (k k' : α) (v : β) (h : k' ≠ k) :
    countKey (alistSet l k v) k' = countKey l k' := by
  induction l with
  | nil => simp [countKey, alistSet, List.filter, Ne.symm h]
  | cons e rest ih =>
    obtain ⟨k0, v0⟩ := e
    by_cases he : k0 = k
    · subst he
      simp [alistSet, countKey_cons, Ne.symm h]
    · simp [alistSet, he, countKey_cons, ih]

/-! ## Data model (spec section 3, header `DataScan.h` declarations) -/

/-- File layout descriptor: chunking parameter and owning data pool
(`chunk_size`, `data_pool_id` in the header signatures). -/
structure Layout where
  chunk : Nat
  pool : Int
deriving DecidableEq, Repr

/-- Durable representation of a filesystem inode (spec `InodeRecord`):
identity, type/mode, size, modification time and layout. -/
structure InodeRecord where
  ino : Nat
  mode : Nat
  size : Nat
  mtime : Int
  layout : Layout
deriving DecidableEq, Repr

/-- A directory fragment (spec `DirFragment`): fragment-level metadata
(fnode version) plus a name-to-dentry map.  A dentry embeds the child's
inode summary, so the map value is an `InodeRecord`. -/
structure DirFrag where
  fnodeVersion : Nat
  dentries : List (String × InodeRecord)
deriving DecidableEq, Repr

/-- The metadata store: `.inode` objects keyed by inode number, and
dirfrag objects keyed by `(owning inode id, fragment selector)`
(spec section 6, persisted layout). -/
structure Store where
  inodes : List (Nat × InodeRecord)
  frags : List ((Nat × Nat) × DirFrag)
deriving DecidableEq, Repr

/-- Failure model for the shared object store: a per-object failure switch
for `.inode` objects and for dirfrag objects.  An operation touching a
failed object reports a transient store error (spec section 7). -/
structure FailSpec where
  failIno : Nat → Bool
  failFrag : Nat → Bool

/-- The failure-free store. -/
def noFail : FailSpec := ⟨fun _ => false, fun _ => false⟩

/-- One backtrace ancestor record (`inode_backpointer_t`): the ancestor
directory's inode id and the child's name within that ancestor. -/
structure Backpointer where
  dirino : Nat
  dname : String
deriving DecidableEq, Repr

/-- A recovered backtrace (`inode_backtrace_t`): the leaf inode number and
the ancestor records ordered from the immediate parent up toward the
root (spec section 3). -/
structure Backtrace where
  ino : Nat
  ancestors : List Backpointer
deriving DecidableEq, Repr

/-- The default fragment selector (`frag_t()` in the header). -/
def defaultFrag : Nat := 0

/-- Well-known root-set inode ids (spec section 3: the filesystem root,
the per-recovery-run system directory, and lost+found). -/
def rootIno : Nat := 1

/-- The per-recovery-run system directory (mydir) inode id. -/
def mydirIno : Nat := 256

/-- The lost+found directory inode id. -/
def lostFoundIno : Nat := 4

/-- Name of the lost+found directory in the hierarchy. -/
def lfName : String := "lost+found"

/-- The root set as a list. -/
def rootIds : List Nat := [rootIno, mydirIno, lostFoundIno]

/-- Directory mode bits for created directory inodes. -/
def dirMode : Nat := 16384

/-- Regular-file mode bits for injected leaf inodes. -/
def fileMode : Nat := 32768

/-- Default chunking for minimal bootstrap inodes. -/
def defaultChunk : Nat := 4194304

/-- Errno-style status codes: success. -/
def retOK : Int := 0

/-- Errno-style status codes: transient store I/O failure. -/
def retEIO : Int := -5

/-- Errno-style status codes: invalid argument (empty backtrace). -/
def retEINVAL : Int := -22

/-- A minimal "unlinked" inode record used when bootstrapping roots and
intermediate ancestor directories (spec section 3, flavor (b)). -/
def unlinkedRecord (ino : Nat) (mode : Nat) (pool : Int) : InodeRecord :=
  ⟨ino, mode, 0, 0, ⟨defaultChunk, pool⟩⟩

/-- A fully-populated leaf-file inode record built from one recovered
fact (spec section 3, flavor (a)). -/
def leafRecord (ino size : Nat) (mtime : Int) (chunk : Nat)
    (pool : Int) : InodeRecord :=
  ⟨ino, fileMode, size, mtime, ⟨chunk, pool⟩⟩

/-- A freshly created dirfrag with default fragment metadata. -/
def emptyFrag : DirFrag := ⟨0, []⟩

/-- Pure state update: write an inode record object. -/
def setInode (s : Store) (r : InodeRecord) : Store :=
  { s with inodes := alistSet s.inodes r.ino r }

/-- Pure state update: create the default dirfrag object for a directory. -/
def createFrag (s : Store) (dir : Nat) : Store :=
  { s with frags := alistSet s.frags (dir, defaultFrag) emptyFrag }

/-- Pure lookup: the dentry stored under `name` in the selected fragment
of directory `dir`. -/
def dentAt (s : Store) (dir frag : Nat) (name : String) :
    Option InodeRecord :=
  match alistGet s.frags (dir, frag) with
  | some fr => alistGet fr.dentries name
  | none => none

/-- Pure state update: write the dentry `name ↦ child` in the default
fragment of `dir`, creating the fragment object if it is absent. -/
def setDent (s : Store) (dir : Nat) (name : String)
    (child : InodeRecord) : Store :=
  match alistGet s.frags (dir, defaultFrag) with
  | some fr =>
      let fr2 : DirFrag := ⟨fr.fnodeVersion, alistSet fr.dentries name child⟩
      { s with frags := alistSet s.frags (dir, defaultFrag) fr2 }
  | none =>
      let fr2 : DirFrag := ⟨emptyFrag.fnodeVersion, [(name, child)]⟩
      { s with frags := alistSet s.frags (dir, defaultFrag) fr2 }

/-! ## MetadataDriver primitives

The header declares these operations; their bodies are not part of the
supplied sources, so each is modelled from the specification text
(spec sections 4.2 and 7). -/

/-- Modelled from the spec: `MetadataDriver::root_exists` (body missing
from the sources) — "existence probe with no side effects; used by
`check_roots` and internally before any create-root step".  Returns a
status and the probe result; absence is a result, not an error. -/
def root_exists (fs : FailSpec) (s : Store) (ino : Nat) : Int × Bool :=
  if fs.failIno ino then ( retEIO, false)
  else (retOK, (alistGet s.inodes ino).isSome)

/-- Modelled from the spec: `MetadataDriver::read_fnode` (body missing
from the sources) — "read-only fetch; returns a not-found signal (not an
error) when the fragment is absent".  Takes an arbitrary fragment
selector, per the header signature. -/
def read_fnode (fs : FailSpec) (s : Store) (ino frag : Nat) :
    Int × Option Nat :=
  if fs.failFrag ino then ( retEIO, none)
  else (retOK, (alistGet s.frags (ino, frag)).map DirFrag.fnodeVersion)

/-- Modelled from the spec: `MetadataDriver::read_dentry` (body missing
from the sources) — "read-only fetch; returns a not-found signal (not an
error) when the fragment or dentry is absent".  Takes an arbitrary
fragment selector, per the header signature. -/
def read_dentry (fs : FailSpec) (s : Store) (parent frag : Nat)
    (dname : String) : Int × Option InodeRecord :=
  if fs.failFrag parent then ( retEIO, none)
  else (retOK, dentAt s parent frag dname)

/-- Modelled from the spec: `MetadataDriver::inject_unlinked_inode` (body
missing from the sources) — "Create a .inode object, i.e. root or mydir";
also used for minimal intermediate directory inodes.  Last writer wins. -/
def inject_unlinked_inode (fs : FailSpec) (s : Store) (ino mode : Nat)
    (pool : Int) : Int × Store :=
  if fs.failIno ino then ( retEIO, s)
  else (retOK, setInode s (unlinkedRecord ino mode pool))

/-- Modelled from the spec: `MetadataDriver::find_or_create_dirfrag` (body
missing from the sources) — "returns the existing fragment or atomically
creates a default one; the created flag lets callers avoid redundant
linkage work".  Addressed by the owning inode id alone: only the default
fragment selector is ever used (header line 134). -/
def find_or_create_dirfrag (fs : FailSpec) (s : Store) (ino : Nat) :
    Int × Bool × Store :=
  if fs.failFrag ino then ( retEIO, false, s)
  else
    match alistGet s.frags (ino, defaultFrag) with
    | some _ => (retOK, false, s)
    | none => (retOK, true, createFrag s ino)

/-- Modelled from the spec: `MetadataDriver::inject_linkage` (body missing
from the sources) — "writes the dentry; overwrite semantics — replaces
any stale entry for the same name".  Addressed by the owning inode id
alone (default fragment). -/
def inject_linkage (fs : FailSpec) (s : Store) (dir : Nat)
    (dname : String) (inode : InodeRecord) : Int × Store :=
  if fs.failFrag dir then ( retEIO, s)
  else (retOK, setDent s dir dname inode)

/-! ## MetadataDriver injection algorithm (spec section 4.2) -/

/-- Outermost-first ancestor walk order: given the reversed ancestor list
(outermost record first), pair each record with the inode id of the next
record inward, which is the directory inode that the record's dentry must
reference.  The innermost record is left for the leaf step. -/
def pairify : List Backpointer → List (Backpointer × Nat)
  | [] => []
  | [_] => []
  | a :: b :: more => (a, b.dirino) :: pairify (b :: more)

/-- The ancestor-walk work list of a backtrace: records from the
outermost (closest-to-root) ancestor down to the grandparent, each with
the child directory inode to link (spec section 4.2, step 2). -/
def mkChain (ancestors : List Backpointer) : List (Backpointer × Nat) :=
  pairify ancestors.reverse

/-- Modelled from the spec: one step of the ancestor walk of
`MetadataDriver::inject_with_backtrace` (body missing from the sources) —
"determine whether a DirFragment already exists ... if not, create it;
read the fragment's dentry for the name; if absent, create a minimal
directory inode for that ancestor and link it into the fragment".
Any store error aborts the step. -/
def processAncestor (fs : FailSpec) (s : Store) (dir : Nat)
    (dname : String) (child : Nat) (pool : Int) : Int × Store :=
  match find_or_create_dirfrag fs s dir with
  | (r1, _created, s1) =>
    if r1 ≠ 0 then (r1, s1)
    else
      match read_dentry fs s1 dir defaultFrag dname with
      | (r2, existing) =>
        if r2 ≠ 0 then (r2, s1)
        else
          match existing with
          | some _ => (0, s1)
          | none =>
            match inject_unlinked_inode fs s1 child dirMode pool with
            | (r3, s2) =>
              if r3 ≠ 0 then (r3, s2)
              else
                match inject_linkage fs s2 dir dname
                    (unlinkedRecord child dirMode pool) with
                | (r4, s3) => if r4 ≠ 0 then (r4, s3) else (0, s3)

/-- Modelled from the spec: the iterative ancestor walk (spec section
4.2, step 2, and section 9: implemented iteratively over the ordered
ancestor list).  Stops at the first unresolved store error. -/
def injectChain (fs : FailSpec) (pool : Int) :
    Store → List (Backpointer × Nat) → Int × Store
  | s, [] => (0, s)
  | s, (a, child) :: more =>
    match processAncestor fs s a.dirino a.dname child pool with
    | (r, s1) => if r ≠ 0 then (r, s1) else injectChain fs pool s1 more

/-- Modelled from the spec: step 3 of the injection algorithm (body
missing from the sources) — "the final current ancestor is the immediate
parent directory.  Create or refresh the leaf InodeRecord ... call
`inject_linkage` to write/overwrite the dentry for the leaf's own name
in the parent's fragment". -/
def injectLeaf (fs : FailSpec) (s : Store) (parent : Nat)
    (dname : String) (leaf : InodeRecord) : Int × Store :=
  match find_or_create_dirfrag fs s parent with
  | (r1, _created, s1) =>
    if r1 ≠ 0 then (r1, s1)
    else
      if fs.failIno leaf.ino then ( retEIO, s1)
      else
        let s2 := setInode s1 leaf
        match inject_linkage fs s2 parent dname leaf with
        | (r3, s3) => if r3 ≠ 0 then (r3, s3) else (0, s3)

/-- Modelled from the spec: `MetadataDriver::inject_with_backtrace` (body
missing from the sources) — walk the backtrace from the outermost
ancestor record to the innermost, creating missing dirfrags, directory
inodes and dentries, then create/refresh the leaf inode and link it into
its immediate parent (spec section 4.2).  An empty backtrace names no
parent and is rejected. -/
def inject_with_backtrace (fs : FailSpec) (s : Store) (bt : Backtrace)
    (size : Nat) (mtime : Int) (chunk : Nat) (pool : Int) : Int × Store :=
  match bt.ancestors with
  | [] => (retEINVAL, s)
  | a0 :: _ =>
    match injectChain fs pool s (mkChain bt.ancestors) with
    | (r, s1) =>
      if r ≠ 0 then (r, s1)
      else injectLeaf fs s1 a0.dirino a0.dname
        (leafRecord bt.ino size mtime chunk pool)

/-- Modelled from the spec: `MetadataDriver::inject_lost_and_found` (body
missing from the sources) — "ensure the lost+found root exists (bootstrap
on demand, guarded by the same existence-check discipline), then link a
leaf named by the stringified inode number directly under it". -/
def inject_lost_and_found (fs : FailSpec) (s : Store) (ino size : Nat)
    (mtime : Int) (chunk : Nat) (pool : Int) : Int × Store :=
  match root_exists fs s lostFoundIno with
  | (r0, ex) =>
    if r0 ≠ 0 then (r0, s)
    else
      match (if ex then (0, s)
             else inject_unlinked_inode fs s lostFoundIno dirMode pool) with
      | (r1, s1) =>
        if r1 ≠ 0 then (r1, s1)
        else injectLeaf fs s1 lostFoundIno (Nat.repr ino)
          (leafRecord ino size mtime chunk pool)

/-- Modelled from the spec: ensure one root-set member exists, guarded by
the existence check (spec section 4.1 `init_metadata`: "unconditionally
ensure the root set exists, creating any missing member"). -/
def ensureRoot (fs : FailSpec) (s : Store) (ino : Nat) (pool : Int) :
    Int × Store :=
  match root_exists fs s ino with
  | (r, ex) =>
    if r ≠ 0 then (r, s)
    else if ex then (0, s)
    else inject_unlinked_inode fs s ino dirMode pool

/-- Iterate `ensureRoot` over a list of root ids, stopping at the first
unexpected error. -/
def initRoots (fs : FailSpec) (pool : Int) :
    Store → List Nat → Int × Store
  | s, [] => (0, s)
  | s, i :: more =>
    match ensureRoot fs s i pool with
    | (r, s1) => if r ≠ 0 then (r, s1) else initRoots fs pool s1 more

/-- Modelled from the spec: `MetadataDriver::init_metadata` (body missing
from the sources) — "Create any missing roots"; idempotent, succeeds
whether or not roots already existed. -/
def init_metadata (fs : FailSpec) (s : Store) (pool : Int) : Int × Store :=
  initRoots fs pool s rootIds

/-- Fold `check_roots` over a list of root ids: conjunction of existence
probes, first unexpected error wins. -/
def checkRootsGo (fs : FailSpec) (s : Store) : List Nat → Int × Bool
  | [] => (0, true)
  | i :: more =>
    match root_exists fs s i with
    | (r, ex) =>
      if r ≠ 0 then (r, false)
      else
        match checkRootsGo fs s more with
        | (r2, rest) => (r2, ex && rest)

/-- Modelled from the spec: `MetadataDriver::check_roots` (body missing
from the sources) — "read-only probe: sets result = true iff all
root-set members already exist, false otherwise; never creates anything;
missing objects are not an unexpected error" (header lines 53-64). -/
def check_roots (fs : FailSpec) (s : Store) : Int × Bool :=
  checkRootsGo fs s rootIds

/-! ## Basic state lemmas -/

/-- A directory's default dirfrag object is present. -/
def fragExists (s : Store) (d : Nat) : Prop :=
  alistGet s.frags (d, defaultFrag) ≠ none

/-- A dentry is present in a directory's default fragment. -/
def dentExists (s : Store) (d : Nat) (n : String) : Prop :=
  dentAt s d defaultFrag n ≠ none

theorem dentAt_setInode (s : Store) (r : InodeRecord) (d f : Nat)
    (n : String) : dentAt (setInode s r) d f n = dentAt s d f n := rfl

theorem frags_setInode (s : Store) (r : InodeRecord) :
    (setInode s r).frags = s.frags := rfl

theorem inodes_createFrag (s : Store) (d : Nat) :
    (createFrag s d).inodes = s.inodes := rfl

theorem inodes_setDent (s : Store) (d : Nat) (n : String)
    (c : InodeRecord) : (setDent s d n c).inodes = s.inodes := by
  unfold setDent
  cases alistGet s.frags (d, defaultFrag) <;> rfl

theorem dentAt_createFrag_self (s : Store) (d : Nat) (n : String) :
    dentAt (createFrag s d) d defaultFrag n = none := by
  simp [dentAt, createFrag, alistGet_set_self, emptyFrag, alistGet]

theorem dentAt_createFrag_ne (s : Store) (d d' : Nat) (n : String)
    (h : d' ≠ d) :
    dentAt (createFrag s d) d' defaultFrag n = dentAt s d' defaultFrag n := by
  have hkey : ((d', defaultFrag) : Nat × Nat) ≠ (d, defaultFrag) := by
    simp [h]
  simp [dentAt, createFrag, alistGet_set_ne _ _ _ _ hkey]

theorem dentAt_setDent_self (s : Store) (d : Nat) (n : String)
    (c : InodeRecord) : dentAt (setDent s d n c) d defaultFrag n = some c := by
  unfold setDent
  cases hf : alistGet s.frags (d, defaultFrag) <;>
    simp [dentAt, alistGet_set_self, alistGet]

theorem dentAt_setDent_ne (s : Store) (d d' : Nat) (n n' : String)
    (c : InodeRecord) (h : d' ≠ d ∨ n' ≠ n) :
    dentAt (setDent s d n c) d' defaultFrag n' = dentAt s d' defaultFrag n' := by
  by_cases hd : d' = d
  · subst hd
    have hn : n' ≠ n := h.resolve_left (by simp)
    unfold setDent
    cases hf : alistGet s.frags (d', defaultFrag) <;>
      simp [dentAt, alistGet_set_self, alistGet_set_ne _ _ _ _ hn, hf,
        alistGet, Ne.symm hn]
  · have hkey : ((d', defaultFrag) : Nat × Nat) ≠ (d, defaultFrag) := by
      simp [hd]
    unfold setDent
    cases hf : alistGet s.frags (d, defaultFrag) <;>
      simp [dentAt, alistGet_set_ne _ _ _ _ hkey]

theorem fragExists_setInode (s : Store) (r : InodeRecord) (d : Nat) :
    fragExists (setInode s r) d ↔ fragExists s d := Iff.rfl

theorem fragExists_createFrag_self (s : Store) (d : Nat) :
    fragExists (createFrag s d) d := by
  simp [fragExists, createFrag, alistGet_set_self]

theorem fragExists_createFrag (s : Store) (d d' : Nat)
    (h : fragExists s d') : fragExists (createFrag s d) d' := by
  by_cases hd : d' = d
  · subst hd
    exact fragExists_createFrag_self s d'
  · have hkey : ((d', defaultFrag) : Nat × Nat) ≠ (d, defaultFrag) := by
      simp [hd]
    simpa [fragExists, createFrag, alistGet_set_ne _ _ _ _ hkey] using h

theorem fragExists_setDent_self (s : Store) (d : Nat) (n : String)
    (c : InodeRecord) : fragExists (setDent s d n c) d := by
  unfold setDent
  cases hf : alistGet s.frags (d, defaultFrag) <;>
    simp [fragExists, alistGet_set_self]

theorem fragExists_setDent (s : Store) (d d' : Nat) (n : String)
    (c : InodeRecord) (h : fragExists s d') :
    fragExists (setDent s d n c) d' := by
  by_cases hd : d' = d
  · subst hd
    exact fragExists_setDent_self s d' n c
  · have hkey : ((d', defaultFrag) : Nat × Nat) ≠ (d, defaultFrag) := by
      simp [hd]
    unfold setDent
    cases hf : alistGet s.frags (d, defaultFrag) <;>
      simpa [fragExists, alistGet_set_ne _ _ _ _ hkey] using h

theorem dentExists_setDent (s : Store) (d d' : Nat) (n n' : String)
    (c : InodeRecord) (h : dentExists s d' n') :
    dentExists (setDent s d n c) d' n' := by
  by_cases hp : d' = d ∧ n' = n
  · obtain ⟨rfl, rfl⟩ := hp
    simp [dentExists, dentAt_setDent_self]
  · rw [Decidable.not_and_iff_or_not] at hp
    simpa [dentExists, dentAt_setDent_ne s d d' n n' c hp] using h

/-! ## Normal forms of the injection steps -/

theorem processAncestor_eq (fs : FailSpec) (s : Store) (d : Nat)
    (n : String) (c : Nat) (pool : Int) :
    processAncestor fs s d n c pool =
      if fs.failFrag d then ( retEIO, s)
      else
        let s1 := if alistGet s.frags (d, defaultFrag) = none
          then createFrag s d else s
        match dentAt s1 d defaultFrag n with
        | some _ => (0, s1)
        | none =>
          if fs.failIno c then ( retEIO, s1)
          else
            let s2 := setInode s1 (unlinkedRecord c dirMode pool)
            (0, setDent s2 d n (unlinkedRecord c dirMode pool)) := by
  by_cases hfrag : fs.failFrag d
  · simp [processAncestor, find_or_create_dirfrag, hfrag, retEIO]
  · cases hget : alistGet s.frags (d, defaultFrag) with
    | some fr =>
      cases hdent : dentAt s d defaultFrag n with
      | some r =>
        simp [processAncestor, find_or_create_dirfrag, hfrag, hget,
          read_dentry, hdent, retOK]
      | none =>
        by_cases hino : fs.failIno c
        · simp [processAncestor, find_or_create_dirfrag, hfrag, hget,
            read_dentry, hdent, inject_unlinked_inode, hino, retOK, retEIO]
        · simp [processAncestor, find_or_create_dirfrag, hfrag, hget,
            read_dentry, hdent, inject_unlinked_inode, hino,
            inject_linkage, retOK, retEIO]
    | none =>
      have hdent : dentAt (createFrag s d) d defaultFrag n = none :=
        dentAt_createFrag_self s d n
      by_cases hino : fs.failIno c
      · simp [processAncestor, find_or_create_dirfrag, hfrag, hget,
          read_dentry, hdent, inject_unlinked_inode, hino, retOK, retEIO]
      · simp [processAncestor, find_or_create_dirfrag, hfrag, hget,
          read_dentry, hdent, inject_unlinked_inode, hino,
          inject_linkage, retOK, retEIO]

theorem injectLeaf_eq (fs : FailSpec) (s : Store) (p : Nat) (n : String)
    (leaf : InodeRecord) :
    injectLeaf fs s p n leaf =
      if fs.failFrag p then ( retEIO, s)
      else
        let s1 := if alistGet s.frags (p, defaultFrag) = none
          then createFrag s p else s
        if fs.failIno leaf.ino then ( retEIO, s1)
        else (0, setDent (setInode s1 leaf) p n leaf) := by
  by_cases hfrag : fs.failFrag p
  · simp [injectLeaf, find_or_create_dirfrag, hfrag, retEIO]
  · cases hget : alistGet s.frags (p, defaultFrag) with
    | some fr =>
      by_cases hino : fs.failIno leaf.ino
      · simp [injectLeaf, find_or_create_dirfrag, hfrag, hget, hino,
          retOK, retEIO]
      · simp [injectLeaf, find_or_create_dirfrag, hfrag, hget, hino,
          inject_linkage, retOK, retEIO]
    | none =>
      by_cases hino : fs.failIno leaf.ino
      · simp [injectLeaf, find_or_create_dirfrag, hfrag, hget, hino,
          retOK, retEIO]
      · simp [injectLeaf, find_or_create_dirfrag, hfrag, hget, hino,
          inject_linkage, retOK, retEIO]

/-! ## Preservation and establishment lemmas for the ancestor walk -/

/-- The conditional fragment creation inside a walk step never changes
any dentry value. -/
theorem dentAt_condCreate (s : Store) (d x : Nat) (m : String) :
    dentAt (if alistGet s.frags (d, defaultFrag) = none
      then createFrag s d else s) x defaultFrag m = dentAt s x defaultFrag m := by
  by_cases habs : alistGet s.frags (d, defaultFrag) = none
  · by_cases hx : x = d
    · subst hx
      rw [if_pos habs, dentAt_createFrag_self]
      simp [dentAt, habs]
    · simp [habs, dentAt_createFrag_ne s d x m hx]
  · simp [habs]

theorem fragExists_condCreate (s : Store) (d x : Nat)
    (h : fragExists s x) :
    fragExists (if alistGet s.frags (d, defaultFrag) = none
      then createFrag s d else s) x := by
  by_cases habs : alistGet s.frags (d, defaultFrag) = none <;>
    simp [habs, fragExists_createFrag s d x h, h]

theorem fragExists_condCreate_self (s : Store) (d : Nat) :
    fragExists (if alistGet s.frags (d, defaultFrag) = none
      then createFrag s d else s) d := by
  by_cases habs : alistGet s.frags (d, defaultFrag) = none
  · rw [if_pos habs]
    exact fragExists_createFrag_self s d
  · rw [if_neg habs]
    exact habs

/-- A walk step never changes a dentry other than the one for its own
(directory, name) pair. -/
theorem processAncestor_preserves_dent (fs : FailSpec) (s : Store)
    (d : Nat) (n : String) (c : Nat) (pool : Int) (x : Nat) (m : String)
    (h : x ≠ d ∨ m ≠ n) :
    dentAt (processAncestor fs s d n c pool).2 x defaultFrag m =
      dentAt s x defaultFrag m := by
  rw [processAncestor_eq]
  by_cases hfrag : fs.failFrag d
  · simp [hfrag]
  · simp only [hfrag, if_false]
    cases hdent : dentAt (if alistGet s.frags (d, defaultFrag) = none
        then createFrag s d else s) d defaultFrag n with
    | some r => simp [hdent, dentAt_condCreate]
    | none =>
      by_cases hino : fs.failIno c
      · simp [hdent, hino, dentAt_condCreate]
      · simp [hdent, hino, dentAt_setDent_ne _ _ _ _ _ _ h,
          dentAt_setInode, dentAt_condCreate]

/-- A walk step preserves fragment existence. -/
theorem processAncestor_fragExists (fs : FailSpec) (s : Store) (d : Nat)
    (n : String) (c : Nat) (pool : Int) (x : Nat) (h : fragExists s x) :
    fragExists (processAncestor fs s d n c pool).2 x := by
  rw [processAncestor_eq]
  by_cases hfrag : fs.failFrag d
  · simpa [hfrag] using h
  · simp only [hfrag, if_false]
    cases hdent : dentAt (if alistGet s.frags (d, defaultFrag) = none
        then createFrag s d else s) d defaultFrag n with
    | some r => simpa [hdent] using fragExists_condCreate s d x h
    | none =>
      by_cases hino : fs.failIno c
      · simpa [hdent, hino] using fragExists_condCreate s d x h
      · simp only [hdent, hino, if_false]
        exact fragExists_setDent _ _ _ _ _
          ((fragExists_setInode _ _ _).mpr (fragExists_condCreate s d x h))

/-- A walk step preserves dentry existence. -/
theorem processAncestor_dentExists (fs : FailSpec) (s : Store) (d : Nat)
    (n : String) (c : Nat) (pool : Int) (x : Nat) (m : String)
    (h : dentExists s x m) :
    dentExists (processAncestor fs s d n c pool).2 x m := by
  by_cases hp : x = d ∧ m = n
  · obtain ⟨rfl, rfl⟩ := hp
    rw [processAncestor_eq]
    by_cases hfrag : fs.failFrag x
    · simpa [hfrag] using h
    · simp only [hfrag, if_false]
      cases hdent : dentAt (if alistGet s.frags (x, defaultFrag) = none
          then createFrag s x else s) x defaultFrag m with
      | some r =>
        simp [hdent, dentExists]
      | none =>
        rw [dentAt_condCreate] at hdent
        exact absurd hdent h
  · rw [Decidable.not_and_iff_or_not] at hp
    unfold dentExists
    rw [processAncestor_preserves_dent fs s d n c pool x m hp]
    exact h

/-- With no store failures a walk step always succeeds. -/
theorem processAncestor_ret (s : Store) (d : Nat) (n : String) (c : Nat)
    (pool : Int) : (processAncestor noFail s d n c pool).1 = 0 := by
  rw [processAncestor_eq]
  cases hdent : dentAt (if alistGet s.frags (d, defaultFrag) = none
      then createFrag s d else s) d defaultFrag n <;>
    simp [noFail, hdent]

/-- With no store failures a walk step establishes its fragment and its
dentry. -/
theorem processAncestor_establishes (s : Store) (d : Nat) (n : String)
    (c : Nat) (pool : Int) :
    fragExists (processAncestor noFail s d n c pool).2 d ∧
      dentExists (processAncestor noFail s d n c pool).2 d n := by
  rw [processAncestor_eq]
  cases hdent : dentAt (if alistGet s.frags (d, defaultFrag) = none
      then createFrag s d else s) d defaultFrag n with
  | some r =>
    refine ⟨?_, ?_⟩
    · simpa [noFail, hdent] using fragExists_condCreate_self s d
    · simp [noFail, hdent, dentExists]
  | none =>
    refine ⟨?_, ?_⟩
    · simp only [noFail, hdent, if_false, Bool.false_eq_true]
      exact fragExists_setDent_self _ _ _ _
    · simp only [noFail, hdent, if_false, Bool.false_eq_true]
      simp [dentExists, dentAt_setDent_self]

/-- A walk step whose fragment and dentry already exist is a no-op
success. -/
theorem processAncestor_noop (s : Store) (d : Nat) (n : String) (c : Nat)
    (pool : Int) (hf : fragExists s d) (hd : dentExists s d n) :
    processAncestor noFail s d n c pool = (0, s) := by
  rw [processAncestor_eq]
  have habs : ¬ alistGet s.frags (d, defaultFrag) = none := hf
  cases hdent : dentAt s d defaultFrag n with
  | some r => simp [noFail, habs, hdent]
  | none => exact absurd hdent hd

/-! ## Chain-level lemmas -/

/-- The (directory, name) pairs a chain writes. -/
def chainPairs (ch : List (Backpointer × Nat)) : List (Nat × String) :=
  ch.map (fun e => (e.1.dirino, e.1.dname))

theorem injectChain_ret (pool : Int) (ch : List (Backpointer × Nat)) :
    ∀ s : Store, (injectChain noFail pool s ch).1 = 0 := by
  induction ch with
  | nil => intro s; simp [injectChain]
  | cons e more ih =>
    intro s
    obtain ⟨a, c⟩ := e
    have hr := processAncestor_ret s a.dirino a.dname c pool
    simp [injectChain, hr, ih]

theorem injectChain_preserves_dent (fs : FailSpec) (pool : Int)
    (ch : List (Backpointer × Nat)) :
    ∀ (s : Store) (x : Nat) (m : String), (x, m) ∉ chainPairs ch →
      dentAt (injectChain fs pool s ch).2 x defaultFrag m =
        dentAt s x defaultFrag m := by
  induction ch with
  | nil => intro s x m _; simp [injectChain]
  | cons e more ih =>
    intro s x m hmem
    obtain ⟨a, c⟩ := e
    simp only [chainPairs, List.map_cons, List.mem_cons] at hmem
    push_neg at hmem
    obtain ⟨hhead, htail⟩ := hmem
    have hne : x ≠ a.dirino ∨ m ≠ a.dname := by
      by_cases hx : x = a.dirino
      · right
        intro hm
        exact hhead (by rw [hx, hm])
      · left; exact hx
    have hpres := processAncestor_preserves_dent fs s a.dirino a.dname
      c pool x m hne
    cases hpc : processAncestor fs s a.dirino a.dname c pool with
    | mk r s1 =>
      rw [hpc] at hpres
      by_cases hr : r = 0
      · subst hr
        simp only [injectChain, hpc, ne_eq, not_true_eq_false, if_false,
          reduceIte]
        rw [ih s1 x m (by simpa [chainPairs] using htail), hpres]
      · simp only [injectChain, hpc, ne_eq, hr, not_false_eq_true,
          if_true, reduceIte]
        exact hpres

theorem injectChain_fragExists (fs : FailSpec) (pool : Int)
    (ch : List (Backpointer × Nat)) :
    ∀ (s : Store) (x : Nat), fragExists s x →
      fragExists (injectChain fs pool s ch).2 x := by
  induction ch with
  | nil => intro s x h; simpa [injectChain] using h
  | cons e more ih =>
    intro s x h
    obtain ⟨a, c⟩ := e
    have h1 := processAncestor_fragExists fs s a.dirino a.dname c pool x h
    cases hpc : processAncestor fs s a.dirino a.dname c pool with
    | mk r s1 =>
      rw [hpc] at h1
      by_cases hr : r = 0
      · subst hr
        simp only [injectChain, hpc, ne_eq, not_true_eq_false, reduceIte]
        exact ih s1 x h1
      · simp only [injectChain, hpc, ne_eq, hr, not_false_eq_true, reduceIte]
        exact h1

theorem injectChain_dentExists (fs : FailSpec) (pool : Int)
    (ch : List (Backpointer × Nat)) :
    ∀ (s : Store) (x : Nat) (m : String), dentExists s x m →
      dentExists (injectChain fs pool s ch).2 x m := by
  induction ch with
  | nil => intro s x m h; simpa [injectChain] using h
  | cons e more ih =>
    intro s x m h
    obtain ⟨a, c⟩ := e
    have h1 := processAncestor_dentExists fs s a.dirino a.dname c pool x m h
    cases hpc : processAncestor fs s a.dirino a.dname c pool with
    | mk r s1 =>
      rw [hpc] at h1
      by_cases hr : r = 0
      · subst hr
        simp only [injectChain, hpc, ne_eq, not_true_eq_false, reduceIte]
        exact ih s1 x m h1
      · simp only [injectChain, hpc, ne_eq, hr, not_false_eq_true, reduceIte]
        exact h1

/-- A failure-free walk establishes every fragment and dentry its chain
names. -/
theorem injectChain_establishes (pool : Int)
    (ch : List (Backpointer × Nat)) :
    ∀ (s : Store) (a : Backpointer) (c : Nat), (a, c) ∈ ch →
      fragExists (injectChain noFail pool s ch).2 a.dirino ∧
        dentExists (injectChain noFail pool s ch).2 a.dirino a.dname := by
  induction ch with
  | nil => intro s a c h; simp at h
  | cons e more ih =>
    intro s a c h
    obtain ⟨a0, c0⟩ := e
    have hr := processAncestor_ret s a0.dirino a0.dname c0 pool
    cases hpc : processAncestor noFail s a0.dirino a0.dname c0 pool with
    | mk r s1 =>
      rw [hpc] at hr
      simp only at hr
      subst hr
      simp only [injectChain, hpc, ne_eq, not_true_eq_false, reduceIte]
      rcases List.mem_cons.mp h with heq | hmore
      · have ha : a = a0 := congrArg Prod.fst heq
        have hest := processAncestor_establishes s a0.dirino a0.dname c0 pool
        rw [hpc] at hest
        simp only at hest
        subst ha
        exact ⟨injectChain_fragExists noFail pool more s1 a.dirino hest.1,
          injectChain_dentExists noFail pool more s1 a.dirino a.dname hest.2⟩
      · exact ih s1 a c hmore

/-- A failure-free walk over a fully-established chain is a no-op. -/
theorem injectChain_noop (pool : Int) (ch : List (Backpointer × Nat)) :
    ∀ s : Store,
      (∀ (a : Backpointer) (c : Nat), (a, c) ∈ ch →
        fragExists s a.dirino ∧ dentExists s a.dirino a.dname) →
      injectChain noFail pool s ch = (0, s) := by
  induction ch with
  | nil => intro s _; simp [injectChain]
  | cons e more ih =>
    intro s h
    obtain ⟨a0, c0⟩ := e
    have h0 := h a0 c0 (List.mem_cons_self _ _)
    have hnoop := processAncestor_noop s a0.dirino a0.dname c0 pool h0.1 h0.2
    simp only [injectChain, hnoop, ne_eq, not_true_eq_false, reduceIte]
    exact ih s (fun a c hm => h a c (List.mem_cons_of_mem _ hm))

/-! ## Leaf-step lemmas -/

theorem setInode_id (s : Store) (r : InodeRecord)
    (h : alistGet s.inodes r.ino = some r) : setInode s r = s := by
  unfold setInode
  rw [alistSet_of_get_eq _ _ _ h]

theorem setDent_id (s : Store) (p : Nat) (n : String) (c : InodeRecord)
    (h : dentAt s p defaultFrag n = some c) : setDent s p n c = s := by
  unfold setDent
  unfold dentAt at h
  cases hf : alistGet s.frags (p, defaultFrag) with
  | none => rw [hf] at h; cases h
  | some fr =>
    rw [hf] at h
    simp only
    rw [alistSet_of_get_eq _ _ _ h]
    have : (⟨fr.fnodeVersion, fr.dentries⟩ : DirFrag) = fr := rfl
    rw [this, alistSet_of_get_eq _ _ _ hf]

theorem injectLeaf_ret (s : Store) (p : Nat) (n : String)
    (leaf : InodeRecord) : (injectLeaf noFail s p n leaf).1 = 0 := by
  rw [injectLeaf_eq]
  simp [noFail]

theorem injectLeaf_fragExists (fs : FailSpec) (s : Store) (p : Nat)
    (n : String) (leaf : InodeRecord) (x : Nat) (h : fragExists s x) :
    fragExists (injectLeaf fs s p n leaf).2 x := by
  rw [injectLeaf_eq]
  by_cases hfrag : fs.failFrag p
  · simpa [hfrag] using h
  · by_cases hino : fs.failIno leaf.ino
    · simpa [hfrag, hino] using fragExists_condCreate s p x h
    · simp only [hfrag, hino, if_false]
      exact fragExists_setDent _ _ _ _ _
        ((fragExists_setInode _ _ _).mpr (fragExists_condCreate s p x h))

theorem injectLeaf_dentExists (fs : FailSpec) (s : Store) (p : Nat)
    (n : String) (leaf : InodeRecord) (x : Nat) (m : String)
    (h : dentExists s x m) :
    dentExists (injectLeaf fs s p n leaf).2 x m := by
  rw [injectLeaf_eq]
  by_cases hfrag : fs.failFrag p
  · simpa [hfrag] using h
  · have h1 : dentExists (if alistGet s.frags (p, defaultFrag) = none
        then createFrag s p else s) x m := by
      unfold dentExists
      rw [dentAt_condCreate]
      exact h
    by_cases hino : fs.failIno leaf.ino
    · simpa [hfrag, hino] using h1
    · simp only [hfrag, hino, if_false]
      exact dentExists_setDent _ _ _ _ _ _
        (by unfold dentExists at h1 ⊢; rwa [dentAt_setInode])

/-- Value of the leaf dentry after a failure-free leaf step. -/
theorem injectLeaf_writes (s : Store) (p : Nat) (n : String)
    (leaf : InodeRecord) :
    dentAt (injectLeaf noFail s p n leaf).2 p defaultFrag n = some leaf := by
  rw [injectLeaf_eq]
  simp only [noFail, Bool.false_eq_true, if_false]
  exact dentAt_setDent_self _ _ _ _

/-- A repeated failure-free leaf step is a no-op on the store produced
by the first. -/
theorem injectLeaf_idem (s : Store) (p : Nat) (n : String)
    (leaf : InodeRecord) :
    injectLeaf noFail (injectLeaf noFail s p n leaf).2 p n leaf =
      (0, (injectLeaf noFail s p n leaf).2) := by
  rw [injectLeaf_eq noFail s p n leaf]
  simp only [noFail, Bool.false_eq_true, if_false]
  set s1 := if alistGet s.frags (p, defaultFrag) = none
    then createFrag s p else s with hs1
  set s2 := setDent (setInode s1 leaf) p n leaf with hs2
  have hfrag2 : fragExists s2 p := fragExists_setDent_self _ _ _ _
  have hino2 : alistGet s2.inodes leaf.ino = some leaf := by
    rw [hs2]
    rw [inodes_setDent]
    unfold setInode
    simp only
    exact alistGet_set_self _ _ _
  have hdent2 : dentAt s2 p defaultFrag n = some leaf := by
    rw [hs2]
    exact dentAt_setDent_self _ _ _ _
  rw [injectLeaf_eq]
  simp only [noFail, Bool.false_eq_true, if_false]
  have habs : ¬ alistGet s2.frags (p, defaultFrag) = none := hfrag2
  rw [if_neg habs]
  rw [setInode_id s2 leaf hino2, setDent_id s2 p n leaf hdent2]

/-- C1: `inject_with_backtrace` is idempotent — for every initial store,
backtrace, size, mtime, chunk size and data pool id, calling it twice
with identical arguments yields the same final metadata-store state as
calling it once: replayed ancestor records find their dirfrags and
dentries already present and are skipped, and the leaf refresh rewrites
identical data, so nothing is duplicated or corrupted. -/
theorem inject_with_backtrace_idem (s : Store) (bt : Backtrace)
    (size : Nat) (mtime : Int) (chunk : Nat) (pool : Int) :
    (inject_with_backtrace noFail
        (inject_with_backtrace noFail s bt size mtime chunk pool).2
        bt size mtime chunk pool).2 =
      (inject_with_backtrace noFail s bt size mtime chunk pool).2 := by
  cases hanc : bt.ancestors with
  | nil => simp [inject_with_backtrace, hanc]
  | cons a0 rest =>
    cases hc1 : injectChain noFail pool s (mkChain (a0 :: rest)) with
    | mk r1 s1 =>
      have hr1 : r1 = 0 := by
        have h0 := injectChain_ret pool (mkChain (a0 :: rest)) s
        rw [hc1] at h0
        exact h0
      subst hr1
      cases hl1 : injectLeaf noFail s1 a0.dirino a0.dname
          (leafRecord bt.ino size mtime chunk pool) with
      | mk r2 s2 =>
        have hr2 : r2 = 0 := by
          have h0 := injectLeaf_ret s1 a0.dirino a0.dname
            (leafRecord bt.ino size mtime chunk pool)
          rw [hl1] at h0
          exact h0
        subst hr2
        have hfirst : inject_with_backtrace noFail s bt size mtime chunk
            pool = (0, s2) := by
          simp [inject_with_backtrace, hanc, hc1, hl1]
        rw [hfirst]
        have hest : ∀ (a : Backpointer) (c : Nat),
            (a, c) ∈ mkChain (a0 :: rest) →
            fragExists s2 a.dirino ∧ dentExists s2 a.dirino a.dname := by
          intro a c hm
          have h1 := injectChain_establishes pool (mkChain (a0 :: rest))
            s a c hm
          rw [hc1] at h1
          simp only at h1
          have h2 : s2 = (injectLeaf noFail s1 a0.dirino a0.dname
              (leafRecord bt.ino size mtime chunk pool)).2 := by rw [hl1]
          rw [h2]
          exact ⟨injectLeaf_fragExists _ _ _ _ _ _ h1.1,
            injectLeaf_dentExists _ _ _ _ _ _ _ h1.2⟩
        have hnoop := injectChain_noop pool (mkChain (a0 :: rest)) s2 hest
        have hidem := injectLeaf_idem s1 a0.dirino a0.dname
          (leafRecord bt.ino size mtime chunk pool)
        rw [hl1] at hidem
        simp only at hidem
        simp [inject_with_backtrace, hanc, hnoop, hidem]

/-! ## Root bootstrapping lemmas -/

theorem countKey_pos_get_ne_none {α β : Type} [DecidableEq α]
    (l : List (α × β)) (k : α) (h : countKey l k ≠ 0) :
    alistGet l k ≠ none := by
  intro hn
  exact h (countKey_eq_zero_of_get_none l k hn)

theorem ensureRoot_eq (fs : FailSpec) (s : Store) (i : Nat) (pool : Int) :
    ensureRoot fs s i pool =
      if fs.failIno i then ( retEIO, s)
      else if (alistGet s.inodes i).isSome then (0, s)
      else (0, setInode s (unlinkedRecord i dirMode pool)) := by
  by_cases hfail : fs.failIno i
  · simp [ensureRoot, root_exists, hfail, retEIO]
  · cases hget : alistGet s.inodes i <;>
      simp [ensureRoot, root_exists, hfail, hget, retOK,
        inject_unlinked_inode]

theorem ensureRoot_inodes_mono (fs : FailSpec) (s : Store) (i j : Nat)
    (pool : Int) (h : (alistGet s.inodes j).isSome = true) :
    (alistGet (ensureRoot fs s i pool).2.inodes j).isSome = true := by
  rw [ensureRoot_eq]
  by_cases hfail : fs.failIno i
  · simpa [hfail] using h
  · by_cases hget : (alistGet s.inodes i).isSome
    · simpa [hfail, hget] using h
    · simp only [hfail, hget, if_false, Bool.false_eq_true]
      by_cases hij : j = i
      · subst hij
        simp [setInode, unlinkedRecord, alistGet_set_self]
      · have : (unlinkedRecord i dirMode pool).ino = i := rfl
        simpa [setInode, this, alistGet_set_ne _ _ _ _ hij] using h

theorem ensureRoot_establishes (fs : FailSpec) (s : Store) (i : Nat)
    (pool : Int) (hfail : fs.failIno i = false) :
    (alistGet (ensureRoot fs s i pool).2.inodes i).isSome = true := by
  rw [ensureRoot_eq]
  by_cases hget : (alistGet s.inodes i).isSome
  · simp [hfail, hget]
  · simp [hfail, hget, setInode, unlinkedRecord, alistGet_set_self]

theorem ensureRoot_count_le (fs : FailSpec) (s : Store) (i j : Nat)
    (pool : Int) (h : countKey s.inodes j ≤ 1) :
    countKey (ensureRoot fs s i pool).2.inodes j ≤ 1 := by
  rw [ensureRoot_eq]
  by_cases hfail : fs.failIno i
  · simpa [hfail] using h
  · by_cases hget : (alistGet s.inodes i).isSome
    · simpa [hfail, hget] using h
    · simp only [hfail, hget, if_false, Bool.false_eq_true]
      by_cases hij : j = i
      · subst hij
        have : (unlinkedRecord j dirMode pool).ino = j := rfl
        simp only [setInode, this]
        rw [countKey_set]
        split <;> omega
      · have : (unlinkedRecord i dirMode pool).ino = i := rfl
        simpa [setInode, this, countKey_set_ne _ _ _ _ hij] using h

theorem get_none_of_countKey_eq_zero {α β : Type} [DecidableEq α]
    (l : List (α × β)) (k : α) (h : countKey l k = 0) :
    alistGet l k = none := by
  induction l with
  | nil => rfl
  | cons e rest ih =>
    by_cases he : e.1 = k
    · simp [countKey_cons, he] at h
    · obtain ⟨k0, v0⟩ := e
      simp only at he
      simp [countKey_cons, he] at h
      simp [alistGet, he, ih h]

theorem ensureRoot_count_one (fs : FailSpec) (s : Store) (i j : Nat)
    (pool : Int) (h : countKey s.inodes j = 1) :
    countKey (ensureRoot fs s i pool).2.inodes j = 1 := by
  rw [ensureRoot_eq]
  by_cases hfail : fs.failIno i
  · simpa [hfail] using h
  · by_cases hget : (alistGet s.inodes i).isSome
    · simpa [hfail, hget] using h
    · simp only [hfail, hget, if_false, Bool.false_eq_true]
      by_cases hij : j = i
      · exfalso
        subst hij
        have hnone : alistGet s.inodes j = none := by
          cases hgx : alistGet s.inodes j with
          | none => rfl
          | some r => simp [hgx] at hget
        rw [countKey_eq_zero_of_get_none s.inodes j hnone] at h
        exact absurd h (by decide)
      · have hu : (unlinkedRecord i dirMode pool).ino = i := rfl
        simpa [setInode, hu, countKey_set_ne _ _ _ _ hij] using h

theorem ensureRoot_count_self (fs : FailSpec) (s : Store) (i : Nat)
    (pool : Int) (hfail : fs.failIno i = false)
    (h : countKey s.inodes i ≤ 1) :
    countKey (ensureRoot fs s i pool).2.inodes i = 1 := by
  rw [ensureRoot_eq]
  by_cases hget : (alistGet s.inodes i).isSome
  · have hpos : countKey s.inodes i ≠ 0 := by
      intro h0
      rw [get_none_of_countKey_eq_zero s.inodes i h0] at hget
      simp at hget
    simp only [hfail, hget, Bool.false_eq_true, if_false, if_true]
    omega
  · simp only [hfail, hget, if_false, Bool.false_eq_true]
    have hnone : alistGet s.inodes i = none := by
      cases hgx : alistGet s.inodes i with
      | none => rfl
      | some r => simp [hgx] at hget
    have hz := countKey_eq_zero_of_get_none s.inodes i hnone
    have hu : (unlinkedRecord i dirMode pool).ino = i := rfl
    simp only [setInode, hu]
    rw [countKey_set, hz]
    simp

theorem ensureRoot_noop (fs : FailSpec) (s : Store) (i : Nat) (pool : Int)
    (hfail : fs.failIno i = false)
    (h : (alistGet s.inodes i).isSome = true) :
    ensureRoot fs s i pool = (0, s) := by
  rw [ensureRoot_eq]
  simp [hfail, h]

theorem initRoots_ret (fs : FailSpec) (pool : Int) (ids : List Nat) :
    ∀ s : Store, (∀ i ∈ ids, fs.failIno i = false) →
      (initRoots fs pool s ids).1 = 0 := by
  induction ids with
  | nil => intro s _; simp [initRoots]
  | cons i more ih =>
    intro s h
    have hfail := h i (List.mem_cons_self _ _)
    cases he : ensureRoot fs s i pool with
    | mk r s1 =>
      have hr : r = 0 := by
        rw [ensureRoot_eq] at he
        by_cases hget : (alistGet s.inodes i).isSome <;>
          simp [hfail, hget] at he <;> exact he.1.symm
      subst hr
      simp only [initRoots, he, ne_eq, not_true_eq_false, reduceIte]
      exact ih s1 (fun j hj => h j (List.mem_cons_of_mem _ hj))

theorem initRoots_inodes_mono (fs : FailSpec) (pool : Int)
    (ids : List Nat) :
    ∀ (s : Store) (j : Nat), (alistGet s.inodes j).isSome = true →
      (alistGet (initRoots fs pool s ids).2.inodes j).isSome = true := by
  induction ids with
  | nil => intro s j h; simpa [initRoots] using h
  | cons i more ih =>
    intro s j h
    have h1 := ensureRoot_inodes_mono fs s i j pool h
    cases he : ensureRoot fs s i pool with
    | mk r s1 =>
      rw [he] at h1
      by_cases hr : r = 0
      · subst hr
        simp only [initRoots, he, ne_eq, not_true_eq_false, reduceIte]
        exact ih s1 j h1
      · simp only [initRoots, he, ne_eq, hr, not_false_eq_true, reduceIte]
        exact h1

theorem initRoots_count_one (fs : FailSpec) (pool : Int)
    (ids : List Nat) :
    ∀ (s : Store) (j : Nat), countKey s.inodes j = 1 →
      countKey (initRoots fs pool s ids).2.inodes j = 1 := by
  induction ids with
  | nil => intro s j h; simpa [initRoots] using h
  | cons i more ih =>
    intro s j h
    have h1 := ensureRoot_count_one fs s i j pool h
    cases he : ensureRoot fs s i pool with
    | mk r s1 =>
      rw [he] at h1
      by_cases hr : r = 0
      · subst hr
        simp only [initRoots, he, ne_eq, not_true_eq_false, reduceIte]
        exact ih s1 j h1
      · simp only [initRoots, he, ne_eq, hr, not_false_eq_true, reduceIte]
        exact h1

theorem initRoots_count_le (fs : FailSpec) (pool : Int)
    (ids : List Nat) :
    ∀ (s : Store) (j : Nat), countKey s.inodes j ≤ 1 →
      countKey (initRoots fs pool s ids).2.inodes j ≤ 1 := by
  induction ids with
  | nil => intro s j h; simpa [initRoots] using h
  | cons i more ih =>
    intro s j h
    have h1 := ensureRoot_count_le fs s i j pool h
    cases he : ensureRoot fs s i pool with
    | mk r s1 =>
      rw [he] at h1
      by_cases hr : r = 0
      · subst hr
        simp only [initRoots, he, ne_eq, not_true_eq_false, reduceIte]
        exact ih s1 j h1
      · simp only [initRoots, he, ne_eq, hr, not_false_eq_true, reduceIte]
        exact h1

theorem initRoots_establishes (fs : FailSpec) (pool : Int)
    (ids : List Nat) :
    ∀ s : Store, (∀ i ∈ ids, fs.failIno i = false) →
      (∀ i ∈ ids, countKey s.inodes i ≤ 1) →
      ∀ i ∈ ids, countKey (initRoots fs pool s ids).2.inodes i = 1 := by
  induction ids with
  | nil => intro s _ _ i h; simp at h
  | cons i0 more ih =>
    intro s hfail hcnt i hi
    have hfail0 := hfail i0 (List.mem_cons_self _ _)
    cases he : ensureRoot fs s i0 pool with
    | mk r s1 =>
      have hr : r = 0 := by
        rw [ensureRoot_eq] at he
        by_cases hget : (alistGet s.inodes i0).isSome <;>
          simp [hfail0, hget] at he <;> exact he.1.symm
      subst hr
      simp only [initRoots, he, ne_eq, not_true_eq_false, reduceIte]
      rcases List.mem_cons.mp hi with rfl | hmore
      · have h1 : countKey s1.inodes i = 1 := by
          have h2 := ensureRoot_count_self fs s i pool hfail0
            (hcnt i (List.mem_cons_self _ _))
          rw [he] at h2
          exact h2
        exact initRoots_count_one fs pool more s1 i h1
      · have hcnt1 : ∀ j ∈ more, countKey s1.inodes j ≤ 1 := by
          intro j hj
          have h2 := ensureRoot_count_le fs s i0 j pool
            (hcnt j (List.mem_cons_of_mem _ hj))
          rw [he] at h2
          exact h2
        exact ih s1 (fun j hj => hfail j (List.mem_cons_of_mem _ hj))
          hcnt1 i hmore

theorem initRoots_noop (fs : FailSpec) (pool : Int) (ids : List Nat) :
    ∀ s : Store,
      (∀ i ∈ ids, fs.failIno i = false ∧
        (alistGet s.inodes i).isSome = true) →
      initRoots fs pool s ids = (0, s) := by
  induction ids with
  | nil => intro s _; simp [initRoots]
  | cons i more ih =>
    intro s h
    have h0 := h i (List.mem_cons_self _ _)
    have hnoop := ensureRoot_noop fs s i pool h0.1 h0.2
    simp only [initRoots, hnoop, ne_eq, not_true_eq_false, reduceIte]
    exact ih s (fun j hj => h j (List.mem_cons_of_mem _ hj))

/-- Iterated `init_metadata` (keeping only the store). -/
def iterInit (fs : FailSpec) (pool : Int) : Nat → Store → Store
  | 0, s => s
  | n + 1, s => iterInit fs pool n (init_metadata fs s pool).2

theorem iterInit_noop (fs : FailSpec) (pool : Int)
    (hfail : ∀ i ∈ rootIds, fs.failIno i = false) :
    ∀ (M : Nat) (s : Store),
      (∀ i ∈ rootIds, (alistGet s.inodes i).isSome = true) →
      iterInit fs pool M s = s := by
  intro M
  induction M with
  | zero => intro s _; rfl
  | succ M ih =>
    intro s hex
    have hnoop : init_metadata fs s pool = (0, s) :=
      initRoots_noop fs pool rootIds s (fun i hi => ⟨hfail i hi, hex i hi⟩)
    simp only [iterInit, hnoop]
    exact ih s hex

/-- C3: root idempotence — with a well-formed initial store (at most one
binding per root id) and root objects reachable, calling `init_metadata`
N ≥ 1 times leaves exactly one root `InodeRecord` per well-known root id,
the N-fold iteration equals a single call, and re-running on a store
whose roots all exist is a no-op success rather than an error. -/
theorem init_metadata_root_idem (fs : FailSpec) (s : Store) (pool : Int)
    (N : Nat) (hN : 1 ≤ N)
    (hfail : ∀ i ∈ rootIds, fs.failIno i = false)
    (hcnt : ∀ i ∈ rootIds, countKey s.inodes i ≤ 1) :
    (∀ i ∈ rootIds, countKey (iterInit fs pool N s).inodes i = 1) ∧
      iterInit fs pool N s = iterInit fs pool 1 s ∧
      ((∀ i ∈ rootIds, (alistGet s.inodes i).isSome = true) →
        init_metadata fs s pool = (0, s)) := by
  have hone : ∀ i ∈ rootIds,
      countKey (init_metadata fs s pool).2.inodes i = 1 :=
    initRoots_establishes fs pool rootIds s hfail hcnt
  have hex : ∀ i ∈ rootIds,
      (alistGet (init_metadata fs s pool).2.inodes i).isSome = true := by
    intro i hi
    have hpos := countKey_pos_get_ne_none
      (init_metadata fs s pool).2.inodes i (by rw [hone i hi]; omega)
    cases hgx : alistGet (init_metadata fs s pool).2.inodes i with
    | none => exact absurd hgx hpos
    | some r => rfl
  obtain ⟨K, rfl⟩ : ∃ K, N = K + 1 := ⟨N - 1, by omega⟩
  have hiterN : iterInit fs pool (K + 1) s =
      (init_metadata fs s pool).2 := by
    simp only [iterInit]
    exact iterInit_noop fs pool hfail K _ hex
  have hiter1 : iterInit fs pool 1 s = (init_metadata fs s pool).2 := rfl
  refine ⟨?_, by rw [hiterN, hiter1], ?_⟩
  · intro i hi
    rw [hiterN]
    exact hone i hi
  · intro hex0
    exact initRoots_noop fs pool rootIds s
      (fun i hi => ⟨hfail i hi, hex0 i hi⟩)

/-- Witness for C3 at concrete inputs: three iterations of
`init_metadata` from the empty store, failure-free. -/
theorem init_metadata_root_idem_witness :
    (1 ≤ 3) ∧ (∀ i ∈ rootIds, noFail.failIno i = false) ∧
      (∀ i ∈ rootIds, countKey (⟨[], []⟩ : Store).inodes i ≤ 1) ∧
      ((∀ i ∈ rootIds,
          countKey (iterInit noFail 2 3 ⟨[], []⟩).inodes i = 1) ∧
        iterInit noFail 2 3 ⟨[], []⟩ = iterInit noFail 2 1 ⟨[], []⟩ ∧
        ((∀ i ∈ rootIds,
            (alistGet (⟨[], []⟩ : Store).inodes i).isSome = true) →
          init_metadata noFail (⟨[], []⟩ : Store) 2 = (0, ⟨[], []⟩))) :=
  ⟨by decide, by decide, by decide,
    init_metadata_root_idem noFail ⟨[], []⟩ 2 3 (by decide) (by decide)
      (by decide)⟩

/-! ## check_roots lemmas -/

theorem checkRootsGo_ok (fs : FailSpec) (s : Store) (ids : List Nat)
    (h : ∀ i ∈ ids, fs.failIno i = false) :
    (checkRootsGo fs s ids).1 = 0 ∧
      ((checkRootsGo fs s ids).2 = true ↔
        ∀ i ∈ ids, (alistGet s.inodes i).isSome = true) := by
  induction ids with
  | nil => simp [checkRootsGo]
  | cons i more ih =>
    have hfail := h i (List.mem_cons_self _ _)
    have ih2 := ih (fun j hj => h j (List.mem_cons_of_mem _ hj))
    cases hgo : checkRootsGo fs s more with
    | mk r2 rest =>
      rw [hgo] at ih2
      simp only at ih2
      obtain ⟨hr2, hrest⟩ := ih2
      subst hr2
      have hstep : checkRootsGo fs s (i :: more) =
          (0, (alistGet s.inodes i).isSome && rest) := by
        simp [checkRootsGo, root_exists, hfail, hgo, retOK]
      rw [hstep]
      refine ⟨rfl, ?_⟩
      simp only [Bool.and_eq_true, List.mem_cons]
      constructor
      · rintro ⟨hex, hr⟩ j hj
        rcases hj with rfl | hj
        · exact hex
        · exact hrest.mp hr j hj
      · intro hall
        exact ⟨hall i (Or.inl rfl),
          hrest.mpr (fun j hj => hall j (Or.inr hj))⟩

theorem checkRootsGo_err (fs : FailSpec) (s : Store) (ids : List Nat)
    (h : (checkRootsGo fs s ids).1 ≠ 0) :
    ∃ i ∈ ids, fs.failIno i = true := by
  induction ids with
  | nil => simp [checkRootsGo] at h
  | cons i more ih =>
    by_cases hfail : fs.failIno i
    · exact ⟨i, List.mem_cons_self _ _, hfail⟩
    · simp only [Bool.not_eq_true] at hfail
      cases hgo : checkRootsGo fs s more with
      | mk r2 rest =>
        simp only [checkRootsGo, root_exists, hfail, Bool.false_eq_true,
          if_false, ne_eq, not_true_eq_false, reduceIte, hgo] at h
        rw [hgo] at ih
        obtain ⟨j, hj, hjf⟩ := ih h
        exact ⟨j, List.mem_cons_of_mem _ hj, hjf⟩

/-- C4: `check_roots` is a read-only probe (it takes the store and
returns only a status and a boolean, never a new store): it reports a
non-success status only when some root object probe suffers an
unexpected store failure; with no such failure it returns status 0 even
when roots are missing, and its boolean result is true exactly when all
root-set members exist — for every store, hence regardless of the call
order relative to `init_metadata`. -/
theorem check_roots_spec (fs : FailSpec) (s : Store) :
    ((check_roots fs s).1 ≠ 0 → ∃ i ∈ rootIds, fs.failIno i = true) ∧
      ((∀ i ∈ rootIds, fs.failIno i = false) →
        (check_roots fs s).1 = 0 ∧
          ((check_roots fs s).2 = true ↔
            ∀ i ∈ rootIds, (alistGet s.inodes i).isSome = true)) := by
  constructor
  · exact checkRootsGo_err fs s rootIds
  · intro hfail
    exact checkRootsGo_ok fs s rootIds hfail

/-- Witness for C4 at concrete inputs: failure-free probe of a store
holding only the root inode — status 0, result false (roots missing is
a signal, not an error). -/
theorem check_roots_spec_witness :
    (((check_roots noFail
        ⟨[(1, unlinkedRecord 1 dirMode 2)], []⟩).1 ≠ 0 →
      ∃ i ∈ rootIds, noFail.failIno i = true) ∧
    ((∀ i ∈ rootIds, noFail.failIno i = false) →
      (check_roots noFail ⟨[(1, unlinkedRecord 1 dirMode 2)], []⟩).1 = 0 ∧
        ((check_roots noFail
            ⟨[(1, unlinkedRecord 1 dirMode 2)], []⟩).2 = true ↔
          ∀ i ∈ rootIds,
            (alistGet (⟨[(1, unlinkedRecord 1 dirMode 2)], []⟩ :
              Store).inodes i).isSome = true))) ∧
    (check_roots noFail ⟨[(1, unlinkedRecord 1 dirMode 2)], []⟩).2 =
      false :=
  ⟨check_roots_spec noFail ⟨[(1, unlinkedRecord 1 dirMode 2)], []⟩,
    by decide⟩

/-! ## Lost+found and linkage lemmas -/

theorem inodes_isSome_setInode (s : Store) (r : InodeRecord) (j : Nat)
    (h : (alistGet s.inodes j).isSome = true) :
    (alistGet (setInode s r).inodes j).isSome = true := by
  by_cases hj : j = r.ino
  · subst hj
    simp [setInode, alistGet_set_self]
  · simpa [setInode, alistGet_set_ne _ _ _ _ hj] using h

theorem inodes_isSome_setInode_self (s : Store) (r : InodeRecord) :
    (alistGet (setInode s r).inodes r.ino).isSome = true := by
  simp [setInode, alistGet_set_self]

theorem injectLeaf_ok (fs : FailSpec) (s : Store) (p : Nat) (n : String)
    (leaf : InodeRecord) (hfrag : fs.failFrag p = false)
    (hino : fs.failIno leaf.ino = false) :
    injectLeaf fs s p n leaf =
      (0, setDent (setInode (if alistGet s.frags (p, defaultFrag) = none
        then createFrag s p else s) leaf) p n leaf) := by
  rw [injectLeaf_eq]
  simp [hfrag, hino]

theorem inodes_condCreate (s : Store) (p : Nat) :
    (if alistGet s.frags (p, defaultFrag) = none
      then createFrag s p else s).inodes = s.inodes := by
  by_cases habs : alistGet s.frags (p, defaultFrag) = none <;>
    simp [habs, inodes_createFrag]

/-- C5: orphan handling — a successful `inject_lost_and_found` links a
dentry named by the stringified inode number directly under lost+found,
embedding an inode record with the given size and mtime; lost+found
itself is bootstrapped on demand, and no other ancestor is required (the
theorem holds for every initial store, including the empty one). -/
theorem inject_lost_and_found_spec (fs : FailSpec) (s : Store)
    (ino size : Nat) (mtime : Int) (chunk : Nat) (pool : Int)
    (hfrag : fs.failFrag lostFoundIno = false)
    (hlf : fs.failIno lostFoundIno = false)
    (hino : fs.failIno ino = false) :
    (inject_lost_and_found fs s ino size mtime chunk pool).1 = 0 ∧
      dentAt (inject_lost_and_found fs s ino size mtime chunk pool).2
          lostFoundIno defaultFrag (Nat.repr ino) =
        some (leafRecord ino size mtime chunk pool) ∧
      (alistGet (inject_lost_and_found fs s ino size mtime chunk
          pool).2.inodes lostFoundIno).isSome = true := by
  have hleafino : (leafRecord ino size mtime chunk pool).ino = ino := rfl
  by_cases hex : (alistGet s.inodes lostFoundIno).isSome = true
  · have hstep : inject_lost_and_found fs s ino size mtime chunk pool =
        injectLeaf fs s lostFoundIno (Nat.repr ino)
          (leafRecord ino size mtime chunk pool) := by
      simp [inject_lost_and_found, root_exists, hlf, hex, retOK]
    rw [hstep, injectLeaf_ok fs s lostFoundIno (Nat.repr ino) _ hfrag
      (by rw [hleafino]; exact hino)]
    refine ⟨rfl, dentAt_setDent_self _ _ _ _, ?_⟩
    rw [inodes_setDent]
    apply inodes_isSome_setInode
    rw [inodes_condCreate]
    exact hex
  · have hstep : inject_lost_and_found fs s ino size mtime chunk pool =
        injectLeaf fs (setInode s (unlinkedRecord lostFoundIno dirMode
          pool)) lostFoundIno (Nat.repr ino)
          (leafRecord ino size mtime chunk pool) := by
      simp [inject_lost_and_found, root_exists, hlf, hex, retOK,
        inject_unlinked_inode]
    rw [hstep, injectLeaf_ok fs _ lostFoundIno (Nat.repr ino) _ hfrag
      (by rw [hleafino]; exact hino)]
    refine ⟨rfl, dentAt_setDent_self _ _ _ _, ?_⟩
    rw [inodes_setDent]
    apply inodes_isSome_setInode
    rw [inodes_condCreate]
    exact inodes_isSome_setInode_self s _

/-- Witness for C5 at concrete inputs: injecting orphan inode 42 of size
100 into the empty store creates the dentry "42" under lost+found. -/
theorem inject_lost_and_found_spec_witness :
    (noFail.failFrag lostFoundIno = false) ∧
      (noFail.failIno lostFoundIno = false) ∧
      (noFail.failIno 42 = false) ∧
      ((inject_lost_and_found noFail ⟨[], []⟩ 42 100 7 4 2).1 = 0 ∧
        dentAt (inject_lost_and_found noFail ⟨[], []⟩ 42 100 7 4 2).2
            lostFoundIno defaultFrag (Nat.repr 42) =
          some (leafRecord 42 100 7 4 2) ∧
        (alistGet (inject_lost_and_found noFail ⟨[], []⟩ 42 100 7 4
            2).2.inodes lostFoundIno).isSome = true) :=
  ⟨by decide, by decide, by decide,
    inject_lost_and_found_spec noFail ⟨[], []⟩ 42 100 7 4 2 (by decide)
      (by decide) (by decide)⟩

/-- C7: `inject_linkage` has overwrite semantics — for every store,
parent inode id, name and child inode summary (absent a store failure on
the parent object) it succeeds and afterwards the dentry for that name
is exactly the given summary, regardless of any stale entry that was
there before (including one pointing to a different inode), while every
other name in the fragment is untouched. -/
theorem inject_linkage_overwrite (fs : FailSpec) (s : Store) (d : Nat)
    (n n' : String) (inode : InodeRecord)
    (hfrag : fs.failFrag d = false) (hne : n' ≠ n) :
    (inject_linkage fs s d n inode).1 = 0 ∧
      dentAt (inject_linkage fs s d n inode).2 d defaultFrag n =
        some inode ∧
      dentAt (inject_linkage fs s d n inode).2 d defaultFrag n' =
        dentAt s d defaultFrag n' := by
  simp only [inject_linkage, hfrag, Bool.false_eq_true, if_false, retOK]
  refine ⟨by simp, dentAt_setDent_self _ _ _ _,
    dentAt_setDent_ne _ _ _ _ _ _ (Or.inr hne)⟩

/-- Witness for C7 at concrete inputs: a stale dentry "x" pointing to
inode 99 is replaced by the new summary for inode 10; the unrelated
dentry "y" is untouched. -/
theorem inject_linkage_overwrite_witness :
    (noFail.failFrag 7 = false) ∧ ("y" ≠ "x") ∧
      ((inject_linkage noFail
          ⟨[], [((7, 0), ⟨0, [("x", unlinkedRecord 99 dirMode 2),
            ("y", unlinkedRecord 98 dirMode 2)]⟩)]⟩
          7 "x" (leafRecord 10 100 7 4 2)).1 = 0 ∧
        dentAt (inject_linkage noFail
            ⟨[], [((7, 0), ⟨0, [("x", unlinkedRecord 99 dirMode 2),
              ("y", unlinkedRecord 98 dirMode 2)]⟩)]⟩
            7 "x" (leafRecord 10 100 7 4 2)).2 7 defaultFrag "x" =
          some (leafRecord 10 100 7 4 2) ∧
        dentAt (inject_linkage noFail
            ⟨[], [((7, 0), ⟨0, [("x", unlinkedRecord 99 dirMode 2),
              ("y", unlinkedRecord 98 dirMode 2)]⟩)]⟩
            7 "x" (leafRecord 10 100 7 4 2)).2 7 defaultFrag "y" =
          dentAt ⟨[], [((7, 0), ⟨0, [("x", unlinkedRecord 99 dirMode 2),
            ("y", unlinkedRecord 98 dirMode 2)]⟩)]⟩ 7 defaultFrag "y") :=
  ⟨by decide, by decide,
    inject_linkage_overwrite noFail
      ⟨[], [((7, 0), ⟨0, [("x", unlinkedRecord 99 dirMode 2),
        ("y", unlinkedRecord 98 dirMode 2)]⟩)]⟩
      7 "x" "y" (leafRecord 10 100 7 4 2) (by decide) (by decide)⟩

/-! ## Error transparency -/

theorem pairify_mem (l : List Backpointer) (x : Backpointer) :
    ∀ (a : Backpointer) (c : Nat), (a, c) ∈ pairify (l ++ [x]) → a ∈ l := by
  induction l with
  | nil => intro a c h; simp [pairify] at h
  | cons y l2 ih =>
    intro a c h
    cases hl2 : l2 with
    | nil =>
      subst hl2
      simp only [List.nil_append, List.cons_append] at h
      simp [pairify] at h
      simp [h.1]
    | cons z zs =>
      subst hl2
      simp only [List.cons_append] at h
      simp only [pairify, List.mem_cons] at h
      rcases h with heq | hmore
      · have hay : a = y := congrArg Prod.fst heq
        rw [hay]
        exact List.mem_cons_self _ _
      · exact List.mem_cons_of_mem _ (ih a c (by simpa using hmore))

theorem injectLeaf_err_preserves (fs : FailSpec) (s : Store) (p : Nat)
    (n : String) (leaf : InodeRecord) (x : Nat) (m : String)
    (h : (injectLeaf fs s p n leaf).1 ≠ 0) :
    dentAt (injectLeaf fs s p n leaf).2 x defaultFrag m =
      dentAt s x defaultFrag m := by
  rw [injectLeaf_eq] at h ⊢
  by_cases hfrag : fs.failFrag p
  · simp [hfrag]
  · by_cases hino : fs.failIno leaf.ino
    · simp only [hfrag, hino, if_false, if_true]
      exact dentAt_condCreate s p x m
    · simp [hfrag, hino] at h

/-- C6: error transparency / atomicity of the leaf link — when a store
failure makes `inject_with_backtrace` return a non-success status, the
dentry for the leaf's own (parent, name) slot is exactly what it was in
the initial store: the leaf was not linked, because no step proceeds
past an unresolved store error and the leaf link is the final step.
(The backtrace is assumed not to repeat the leaf's (parent, name) pair
among the interior ancestor records, as no genuine ancestry chain does.) -/
theorem inject_with_backtrace_error_no_leaf (fs : FailSpec) (s : Store)
    (bt : Backtrace) (size : Nat) (mtime : Int) (chunk : Nat) (pool : Int)
    (a0 : Backpointer) (rest : List Backpointer)
    (hanc : bt.ancestors = a0 :: rest)
    (hdistinct : ∀ a ∈ rest, (a.dirino, a.dname) ≠ (a0.dirino, a0.dname))
    (herr : (inject_with_backtrace fs s bt size mtime chunk pool).1 ≠ 0) :
    dentAt (inject_with_backtrace fs s bt size mtime chunk pool).2
        a0.dirino defaultFrag a0.dname =
      dentAt s a0.dirino defaultFrag a0.dname := by
  have hnotin : (a0.dirino, a0.dname) ∉ chainPairs (mkChain (a0 :: rest)) := by
    intro hmem
    unfold chainPairs at hmem
    rw [List.mem_map] at hmem
    obtain ⟨⟨a, c⟩, hm, hpair⟩ := hmem
    have hrev : pairify ((a0 :: rest).reverse) =
        pairify (rest.reverse ++ [a0]) := by
      rw [List.reverse_cons]
    rw [mkChain, hrev] at hm
    have ha := pairify_mem rest.reverse a0 a c hm
    rw [List.mem_reverse] at ha
    exact hdistinct a ha hpair
  cases hc : injectChain fs pool s (mkChain (a0 :: rest)) with
  | mk r s1 =>
    have hpres : dentAt s1 a0.dirino defaultFrag a0.dname =
        dentAt s a0.dirino defaultFrag a0.dname := by
      have h0 := injectChain_preserves_dent fs pool (mkChain (a0 :: rest))
        s a0.dirino a0.dname hnotin
      rw [hc] at h0
      exact h0
    by_cases hr : r = 0
    · subst hr
      have hstep : inject_with_backtrace fs s bt size mtime chunk pool =
          injectLeaf fs s1 a0.dirino a0.dname
            (leafRecord bt.ino size mtime chunk pool) := by
        simp [inject_with_backtrace, hanc, hc]
      rw [hstep] at herr ⊢
      rw [injectLeaf_err_preserves fs s1 a0.dirino a0.dname _ _ _ herr]
      exact hpres
    · have hstep : inject_with_backtrace fs s bt size mtime chunk pool =
          (r, s1) := by
        simp [inject_with_backtrace, hanc, hc, hr]
      rw [hstep]
      exact hpres

/-- Witness for C6 at concrete inputs: the root dirfrag object fails, so
injection of a two-level backtrace reports an error and the leaf dentry
slot (5, "f") is untouched (absent before and after). -/
theorem inject_with_backtrace_error_no_leaf_witness :
    ((⟨10, [⟨5, "f"⟩, ⟨1, "d"⟩]⟩ : Backtrace).ancestors =
        ⟨5, "f"⟩ :: [⟨1, "d"⟩]) ∧
      (∀ a ∈ [(⟨1, "d"⟩ : Backpointer)],
        (a.dirino, a.dname) ≠ (5, "f")) ∧
      ((inject_with_backtrace ⟨fun _ => false, fun i => i = 1⟩ ⟨[], []⟩
          ⟨10, [⟨5, "f"⟩, ⟨1, "d"⟩]⟩ 100 7 4 2).1 ≠ 0) ∧
      dentAt (inject_with_backtrace ⟨fun _ => false, fun i => i = 1⟩
          ⟨[], []⟩ ⟨10, [⟨5, "f"⟩, ⟨1, "d"⟩]⟩ 100 7 4 2).2
          5 defaultFrag "f" =
        dentAt ⟨[], []⟩ 5 defaultFrag "f" :=
  ⟨by decide, by decide, by decide,
    inject_with_backtrace_error_no_leaf
      ⟨fun _ => false, fun i => i = 1⟩ ⟨[], []⟩
      ⟨10, [⟨5, "f"⟩, ⟨1, "d"⟩]⟩ 100 7 4 2 ⟨5, "f"⟩ [⟨1, "d"⟩]
      (by decide) (by decide) (by decide)⟩

/-! ## Single-fragment discipline of the injection path -/

/-- Every dirfrag key of `t` is an old key of `s` or carries the default
fragment selector. -/
def fragKeyOK (s t : Store) : Prop :=
  ∀ k : Nat × Nat, k ∈ t.frags.map Prod.fst →
    k ∈ s.frags.map Prod.fst ∨ k.2 = defaultFrag

theorem fragKeyOK_refl (s : Store) : fragKeyOK s s := fun _ h => Or.inl h

theorem fragKeyOK_trans (s t u : Store) (h1 : fragKeyOK s t)
    (h2 : fragKeyOK t u) : fragKeyOK s u := by
  intro k hk
  rcases h2 k hk with hk2 | hk2
  · exact h1 k hk2
  · exact Or.inr hk2

theorem alistSet_keys {α β : Type} [DecidableEq α]
    (l : List (α × β)) (k : α) (v : β) :
    ∀ k' : α, k' ∈ (alistSet l k v).map Prod.fst →
      k' ∈ l.map Prod.fst ∨ k' = k := by
  induction l with
  | nil =>
    intro k' h
    simp [alistSet] at h
    exact Or.inr h
  | cons e rest ih =>
    intro k' h
    obtain ⟨k0, v0⟩ := e
    by_cases he : k0 = k
    · subst he
      simp [alistSet] at h
      rcases h with h | h
      · exact Or.inr h
      · exact Or.inl (by simp [h])
    · simp [alistSet, he] at h
      rcases h with h | h
      · exact Or.inl (by simp [h])
      · rcases ih k' (by simpa using h) with h2 | h2
        · exact Or.inl (by simp; right; simpa using h2)
        · exact Or.inr h2

theorem fragKeyOK_createFrag (s : Store) (d : Nat) :
    fragKeyOK s (createFrag s d) := by
  intro k hk
  rcases alistSet_keys s.frags (d, defaultFrag) emptyFrag k hk with h | h
  · exact Or.inl h
  · exact Or.inr (by rw [h])

theorem fragKeyOK_setDent (s : Store) (d : Nat) (n : String)
    (c : InodeRecord) : fragKeyOK s (setDent s d n c) := by
  intro k hk
  unfold setDent at hk
  cases hf : alistGet s.frags (d, defaultFrag) with
  | some fr =>
    rw [hf] at hk
    simp only at hk
    rcases alistSet_keys s.frags (d, defaultFrag) _ k hk with h | h
    · exact Or.inl h
    · exact Or.inr (by rw [h])
  | none =>
    rw [hf] at hk
    simp only at hk
    rcases alistSet_keys s.frags (d, defaultFrag) _ k hk with h | h
    · exact Or.inl h
    · exact Or.inr (by rw [h])

theorem fragKeyOK_condCreate (s : Store) (d : Nat) :
    fragKeyOK s (if alistGet s.frags (d, defaultFrag) = none
      then createFrag s d else s) := by
  by_cases habs : alistGet s.frags (d, defaultFrag) = none
  · rw [if_pos habs]
    exact fragKeyOK_createFrag s d
  · rw [if_neg habs]
    exact fragKeyOK_refl s

theorem fragKeyOK_processAncestor (fs : FailSpec) (s : Store) (d : Nat)
    (n : String) (c : Nat) (pool : Int) :
    fragKeyOK s (processAncestor fs s d n c pool).2 := by
  rw [processAncestor_eq]
  by_cases hfrag : fs.failFrag d
  · simp only [hfrag, if_true]
    exact fragKeyOK_refl s
  · simp only [hfrag, if_false]
    cases hdent : dentAt (if alistGet s.frags (d, defaultFrag) = none
        then createFrag s d else s) d defaultFrag n with
    | some r =>
      simp only [hdent]
      exact fragKeyOK_condCreate s d
    | none =>
      by_cases hino : fs.failIno c
      · simp only [hdent, hino, if_true]
        exact fragKeyOK_condCreate s d
      · simp only [hdent, hino, if_false]
        refine fragKeyOK_trans _ _ _ (fragKeyOK_condCreate s d) ?_
        refine fragKeyOK_trans _ _ _ (fragKeyOK_refl _) ?_
        exact fragKeyOK_setDent _ _ _ _

theorem fragKeyOK_injectChain (fs : FailSpec) (pool : Int)
    (ch : List (Backpointer × Nat)) :
    ∀ s : Store, fragKeyOK s (injectChain fs pool s ch).2 := by
  induction ch with
  | nil => intro s; simp only [injectChain]; exact fragKeyOK_refl s
  | cons e more ih =>
    intro s
    obtain ⟨a, c⟩ := e
    cases hpc : processAncestor fs s a.dirino a.dname c pool with
    | mk r s1 =>
      have h1 : fragKeyOK s s1 := by
        have h0 := fragKeyOK_processAncestor fs s a.dirino a.dname c pool
        rw [hpc] at h0
        exact h0
      by_cases hr : r = 0
      · subst hr
        simp only [injectChain, hpc, ne_eq, not_true_eq_false, reduceIte]
        exact fragKeyOK_trans _ _ _ h1 (ih s1)
      · simp only [injectChain, hpc, ne_eq, hr, not_false_eq_true,
          reduceIte]
        exact h1

theorem fragKeyOK_injectLeaf (fs : FailSpec) (s : Store) (p : Nat)
    (n : String) (leaf : InodeRecord) :
    fragKeyOK s (injectLeaf fs s p n leaf).2 := by
  rw [injectLeaf_eq]
  by_cases hfrag : fs.failFrag p
  · simp only [hfrag, if_true]
    exact fragKeyOK_refl s
  · by_cases hino : fs.failIno leaf.ino
    · simp only [hfrag, hino, if_false, if_true]
      exact fragKeyOK_condCreate s p
    · simp only [hfrag, hino, if_false]
      refine fragKeyOK_trans _ _ _ (fragKeyOK_condCreate s p) ?_
      exact fragKeyOK_setDent _ _ _ _

theorem fragKeyOK_inject_with_backtrace (fs : FailSpec) (s : Store)
    (bt : Backtrace) (size : Nat) (mtime : Int) (chunk : Nat)
    (pool : Int) :
    fragKeyOK s (inject_with_backtrace fs s bt size mtime chunk pool).2 := by
  cases hanc : bt.ancestors with
  | nil =>
    simp only [inject_with_backtrace, hanc]
    exact fragKeyOK_refl s
  | cons a0 rest =>
    cases hc : injectChain fs pool s (mkChain (a0 :: rest)) with
    | mk r s1 =>
      have h1 : fragKeyOK s s1 := by
        have h0 := fragKeyOK_injectChain fs pool (mkChain (a0 :: rest)) s
        rw [hc] at h0
        exact h0
      by_cases hr : r = 0
      · subst hr
        have hstep : inject_with_backtrace fs s bt size mtime chunk pool =
            injectLeaf fs s1 a0.dirino a0.dname
              (leafRecord bt.ino size mtime chunk pool) := by
          simp [inject_with_backtrace, hanc, hc]
        rw [hstep]
        exact fragKeyOK_trans _ _ _ h1 (fragKeyOK_injectLeaf fs s1 _ _ _)
      · have hstep : inject_with_backtrace fs s bt size mtime chunk pool =
            (r, s1) := by
          simp [inject_with_backtrace, hanc, hc, hr]
        rw [hstep]
        exact h1

theorem fragKeyOK_inject_lost_and_found (fs : FailSpec) (s : Store)
    (ino size : Nat) (mtime : Int) (chunk : Nat) (pool : Int) :
    fragKeyOK s
      (inject_lost_and_found fs s ino size mtime chunk pool).2 := by
  by_cases hlf : fs.failIno lostFoundIno
  · have hstep : inject_lost_and_found fs s ino size mtime chunk pool =
        ( retEIO, s) := by
      simp [inject_lost_and_found, root_exists, hlf, retEIO]
    rw [hstep]
    exact fragKeyOK_refl s
  · simp only [Bool.not_eq_true] at hlf
    by_cases hex : (alistGet s.inodes lostFoundIno).isSome = true
    · have hstep : inject_lost_and_found fs s ino size mtime chunk pool =
          injectLeaf fs s lostFoundIno (Nat.repr ino)
            (leafRecord ino size mtime chunk pool) := by
        simp [inject_lost_and_found, root_exists, hlf, hex, retOK]
      rw [hstep]
      exact fragKeyOK_injectLeaf fs s _ _ _
    · have hstep : inject_lost_and_found fs s ino size mtime chunk pool =
          injectLeaf fs (setInode s (unlinkedRecord lostFoundIno dirMode
            pool)) lostFoundIno (Nat.repr ino)
            (leafRecord ino size mtime chunk pool) := by
        simp [inject_lost_and_found, root_exists, hlf, hex, retOK,
          inject_unlinked_inode]
      rw [hstep]
      have h2 := fragKeyOK_injectLeaf fs
        (setInode s (unlinkedRecord lostFoundIno dirMode pool))
        lostFoundIno (Nat.repr ino) (leafRecord ino size mtime chunk pool)
      intro k hk
      rcases h2 k hk with h | h
      · rw [frags_setInode] at h
        exact Or.inl h
      · exact Or.inr h

/-- C10: single-fragment injection — `find_or_create_dirfrag` and
`inject_linkage` address a directory by owning inode id alone, so every
dirfrag key that the injection path (`inject_with_backtrace` or
`inject_lost_and_found`) adds to the store carries the default fragment
selector, even though `read_fnode`/`read_dentry` accept an arbitrary
selector. -/
theorem injection_uses_default_frag_only (fs : FailSpec) (s : Store)
    (bt : Backtrace) (size : Nat) (mtime : Int) (chunk : Nat) (pool : Int)
    (ino2 size2 : Nat) (mtime2 : Int) (chunk2 : Nat) (pool2 : Int)
    (k k2 : Nat × Nat)
    (hmem : k ∈ (inject_with_backtrace fs s bt size mtime chunk
      pool).2.frags.map Prod.fst)
    (hmem2 : k2 ∈ (inject_lost_and_found fs s ino2 size2 mtime2 chunk2
      pool2).2.frags.map Prod.fst) :
    (k ∈ s.frags.map Prod.fst ∨ k.2 = defaultFrag) ∧
      (k2 ∈ s.frags.map Prod.fst ∨ k2.2 = defaultFrag) :=
  ⟨fragKeyOK_inject_with_backtrace fs s bt size mtime chunk pool k hmem,
    fragKeyOK_inject_lost_and_found fs s ino2 size2 mtime2 chunk2 pool2
      k2 hmem2⟩

/-- Witness for C10 at concrete inputs: the fragments created for
directories 5 and lost+found by the two injection operations both carry
the default selector. -/
theorem injection_uses_default_frag_only_witness :
    ((5, 0) ∈ (inject_with_backtrace noFail ⟨[], []⟩
        ⟨10, [⟨5, "f"⟩, ⟨1, "d"⟩]⟩ 100 7 4 2).2.frags.map Prod.fst) ∧
      ((4, 0) ∈ (inject_lost_and_found noFail ⟨[], []⟩ 42 100 7 4
        2).2.frags.map Prod.fst) ∧
      (((5, 0) ∈ (⟨[], []⟩ : Store).frags.map Prod.fst ∨
          (5, 0).2 = defaultFrag) ∧
        ((4, 0) ∈ (⟨[], []⟩ : Store).frags.map Prod.fst ∨
          (4, 0).2 = defaultFrag)) :=
  ⟨by decide, by decide,
    injection_uses_default_frag_only noFail ⟨[], []⟩
      ⟨10, [⟨5, "f"⟩, ⟨1, "d"⟩]⟩ 100 7 4 2 42 100 7 4 2 (5, 0) (4, 0)
      (by decide) (by decide)⟩

/-! ## Ancestor-chain reference lemmas -/

/-- The dentry for `name` in `d`'s default fragment exists and references
inode id `c`. -/
def dentRef (s : Store) (d : Nat) (n : String) (c : Nat) : Prop :=
  ∃ r : InodeRecord, dentAt s d defaultFrag n = some r ∧ r.ino = c

theorem pairify_pairs (l : List Backpointer) (x : Backpointer) :
    chainPairs (pairify (l ++ [x])) =
      l.map (fun a => (a.dirino, a.dname)) := by
  induction l with
  | nil => simp [pairify, chainPairs]
  | cons a l2 ih =>
    cases hl2 : l2 with
    | nil => simp [pairify, chainPairs]
    | cons z zs =>
      subst hl2
      have hstep : chainPairs (pairify ((a :: z :: zs) ++ [x])) =
          (a.dirino, a.dname) :: chainPairs (pairify ((z :: zs) ++ [x])) :=
        rfl
      rw [hstep, ih]
      simp

theorem pairify_mem_exists (l : List Backpointer) (x : Backpointer) :
    ∀ a ∈ l, ∃ c, (a, c) ∈ pairify (l ++ [x]) := by
  induction l with
  | nil => intro a h; simp at h
  | cons y l2 ih =>
    intro a ha
    cases hl2 : l2 with
    | nil =>
      subst hl2
      rcases List.mem_singleton.mp ha with rfl
      exact ⟨x.dirino, by simp [pairify]⟩
    | cons z zs =>
      subst hl2
      rcases List.mem_cons.mp ha with rfl | hmore
      · exact ⟨z.dirino, by simp [pairify]⟩
      · obtain ⟨c, hc⟩ := ih a hmore
        exact ⟨c, by simp only [List.cons_append, pairify,
          List.mem_cons]; right; simpa using hc⟩

theorem injectLeaf_preserves_dent (fs : FailSpec) (s : Store) (p : Nat)
    (n : String) (leaf : InodeRecord) (x : Nat) (m : String)
    (h : x ≠ p ∨ m ≠ n) :
    dentAt (injectLeaf fs s p n leaf).2 x defaultFrag m =
      dentAt s x defaultFrag m := by
  by_cases hfrag : fs.failFrag p
  · rw [injectLeaf_eq]
    simp [hfrag]
  · by_cases hino : fs.failIno leaf.ino
    · rw [injectLeaf_eq]
      simp only [hfrag, hino, if_false, if_true]
      exact dentAt_condCreate s p x m
    · have hf2 : fs.failFrag p = false := by simpa using hfrag
      have hi2 : fs.failIno leaf.ino = false := by simpa using hino
      rw [injectLeaf_ok fs s p n leaf hf2 hi2]
      simp only
      rw [dentAt_setDent_ne _ _ _ _ _ _ h, dentAt_setInode]
      exact dentAt_condCreate s p x m

theorem injectLeaf_fragSelf (s : Store) (p : Nat) (n : String)
    (leaf : InodeRecord) :
    fragExists (injectLeaf noFail s p n leaf).2 p := by
  rw [injectLeaf_eq]
  simp only [noFail, Bool.false_eq_true, if_false]
  exact fragExists_setDent_self _ _ _ _

theorem processAncestor_ref (s : Store) (d : Nat) (n : String) (c : Nat)
    (pool : Int)
    (hcompat : dentAt s d defaultFrag n = none ∨ dentRef s d n c) :
    dentRef (processAncestor noFail s d n c pool).2 d n c := by
  rw [processAncestor_eq]
  simp only [noFail, Bool.false_eq_true, if_false]
  rcases hcompat with hnone | ⟨r, hr, hino⟩
  · have h1 : dentAt (if alistGet s.frags (d, defaultFrag) = none
        then createFrag s d else s) d defaultFrag n = none := by
      rw [dentAt_condCreate]
      exact hnone
    simp only [h1]
    exact ⟨unlinkedRecord c dirMode pool, dentAt_setDent_self _ _ _ _, rfl⟩
  · have hfragp : ¬ alistGet s.frags (d, defaultFrag) = none := by
      intro habs
      unfold dentAt at hr
      rw [habs] at hr
      cases hr
    rw [if_neg hfragp]
    simp only [hr]
    exact ⟨r, hr, hino⟩

theorem injectChain_refs (pool : Int) (ch : List (Backpointer × Nat)) :
    ∀ s : Store, (chainPairs ch).Nodup →
      (∀ p ∈ ch, dentAt s p.1.dirino defaultFrag p.1.dname = none ∨
        dentRef s p.1.dirino p.1.dname p.2) →
      ∀ p ∈ ch, dentRef (injectChain noFail pool s ch).2
        p.1.dirino p.1.dname p.2 := by
  induction ch with
  | nil => intro s _ _ p hp; simp at hp
  | cons e more ih =>
    intro s hnodup hcompat p hp
    obtain ⟨a, c⟩ := e
    have hcp : chainPairs ((a, c) :: more) =
        (a.dirino, a.dname) :: chainPairs more := rfl
    rw [hcp] at hnodup
    have hnodup2 := List.nodup_cons.mp hnodup
    have hret := processAncestor_ret s a.dirino a.dname c pool
    cases hpc : processAncestor noFail s a.dirino a.dname c pool with
    | mk r s1 =>
      rw [hpc] at hret
      simp only at hret
      subst hret
      simp only [injectChain, hpc, ne_eq, not_true_eq_false, reduceIte]
      have href1 : dentRef s1 a.dirino a.dname c := by
        have h0 := processAncestor_ref s a.dirino a.dname c pool
          (hcompat (a, c) (List.mem_cons_self _ _))
        rw [hpc] at h0
        exact h0
      rcases List.mem_cons.mp hp with heq | hmore
      · subst heq
        have hnotin : (a.dirino, a.dname) ∉ chainPairs more := hnodup2.1
        have hpres := injectChain_preserves_dent noFail pool more s1
          a.dirino a.dname hnotin
        obtain ⟨r, hr, hino⟩ := href1
        exact ⟨r, by rw [hpres]; exact hr, hino⟩
      · have hcompat1 : ∀ q ∈ more,
            dentAt s1 q.1.dirino defaultFrag q.1.dname = none ∨
              dentRef s1 q.1.dirino q.1.dname q.2 := by
          intro q hq
          have hqa : q.1.dirino ≠ a.dirino ∨ q.1.dname ≠ a.dname := by
            by_cases hd : q.1.dirino = a.dirino
            · right
              intro hn
              apply hnodup2.1
              have : (q.1.dirino, q.1.dname) ∈ chainPairs more := by
                unfold chainPairs
                exact List.mem_map.mpr ⟨q, hq, rfl⟩
              rw [hd, hn] at this
              exact this
            · left; exact hd
          have hpres := processAncestor_preserves_dent noFail s a.dirino
            a.dname c pool q.1.dirino q.1.dname hqa
          rw [hpc] at hpres
          simp only at hpres
          rcases hcompat q (List.mem_cons_of_mem _ hq) with hq0 | hq0
          · left
            rw [hpres]
            exact hq0
          · right
            obtain ⟨r, hr, hino⟩ := hq0
            exact ⟨r, by rw [hpres]; exact hr, hino⟩
        exact ih s1 hnodup2.2 hcompat1 p hmore

/-- C2 counterexample: a pre-existing dentry ("x" under the root,
pointing at inode 99) causes the walk to skip the interior link, yet the
injection of a backtrace expecting ancestor 5 at that slot still
succeeds — afterwards the chain dentry references 99, not the next
inode id 5, and no inode record for ancestor 5 exists.  So the claim as
stated (over every store on which the call succeeds) is false. -/
theorem inject_with_backtrace_chain_counterexample :
    (inject_with_backtrace noFail
        ⟨[], [((1, 0), ⟨0, [("x", unlinkedRecord 99 dirMode 2)]⟩)]⟩
        ⟨10, [⟨5, "f"⟩, ⟨1, "x"⟩]⟩ 100 7 4 2).1 = 0 ∧
      (dentAt (inject_with_backtrace noFail
          ⟨[], [((1, 0), ⟨0, [("x", unlinkedRecord 99 dirMode 2)]⟩)]⟩
          ⟨10, [⟨5, "f"⟩, ⟨1, "x"⟩]⟩ 100 7 4 2).2
          1 defaultFrag "x").map InodeRecord.ino = some 99 ∧
      ¬ ((dentAt (inject_with_backtrace noFail
          ⟨[], [((1, 0), ⟨0, [("x", unlinkedRecord 99 dirMode 2)]⟩)]⟩
          ⟨10, [⟨5, "f"⟩, ⟨1, "x"⟩]⟩ 100 7 4 2).2
          1 defaultFrag "x").map InodeRecord.ino = some 5) ∧
      alistGet (inject_with_backtrace noFail
          ⟨[], [((1, 0), ⟨0, [("x", unlinkedRecord 99 dirMode 2)]⟩)]⟩
          ⟨10, [⟨5, "f"⟩, ⟨1, "x"⟩]⟩ 100 7 4 2).2.inodes 5 = none := by
  decide

/-- C2 amended: ancestor-before-child — provided the backtrace's
(directory, name) pairs are pairwise distinct and no interior chain
dentry pre-exists with a conflicting target (each is initially absent or
already references the expected next inode id), a failure-free
`inject_with_backtrace` succeeds, the walk runs from the outermost
ancestor record inward, and afterwards every ancestor directory named in
the backtrace has its dirfrag present, every interior chain dentry
references the next inode id, and the leaf dentry holds exactly the
refreshed leaf record.  (Without the no-conflict proviso the walk leaves
a pre-existing conflicting dentry in place, see the counterexample.) -/
theorem inject_with_backtrace_ancestor_chain (s : Store) (bt : Backtrace)
    (size : Nat) (mtime : Int) (chunk : Nat) (pool : Int)
    (a0 : Backpointer) (rest : List Backpointer)
    (hanc : bt.ancestors = a0 :: rest)
    (hnodup : ((a0 :: rest).map (fun a => (a.dirino, a.dname))).Nodup)
    (hcompat : ∀ p ∈ mkChain (a0 :: rest),
      dentAt s p.1.dirino defaultFrag p.1.dname = none ∨
        dentRef s p.1.dirino p.1.dname p.2) :
    (inject_with_backtrace noFail s bt size mtime chunk pool).1 = 0 ∧
      (∀ a ∈ bt.ancestors,
        fragExists (inject_with_backtrace noFail s bt size mtime chunk
          pool).2 a.dirino) ∧
      (∀ p ∈ mkChain (a0 :: rest),
        dentRef (inject_with_backtrace noFail s bt size mtime chunk
          pool).2 p.1.dirino p.1.dname p.2) ∧
      dentAt (inject_with_backtrace noFail s bt size mtime chunk pool).2
          a0.dirino defaultFrag a0.dname =
        some (leafRecord bt.ino size mtime chunk pool) := by
  have hchainpairs : chainPairs (mkChain (a0 :: rest)) =
      (rest.map (fun a => (a.dirino, a.dname))).reverse := by
    rw [mkChain, List.reverse_cons, pairify_pairs, List.map_reverse]
  simp only [List.map_cons, List.nodup_cons] at hnodup
  have hchnodup : (chainPairs (mkChain (a0 :: rest))).Nodup := by
    rw [hchainpairs]
    exact List.nodup_reverse.mpr hnodup.2
  have ha0notin : (a0.dirino, a0.dname) ∉ chainPairs (mkChain (a0 :: rest)) := by
    rw [hchainpairs]
    rw [List.mem_reverse]
    exact hnodup.1
  cases hc : injectChain noFail pool s (mkChain (a0 :: rest)) with
  | mk r1 s1 =>
    have hr1 : r1 = 0 := by
      have h0 := injectChain_ret pool (mkChain (a0 :: rest)) s
      rw [hc] at h0
      exact h0
    subst hr1
    have hstep : inject_with_backtrace noFail s bt size mtime chunk pool =
        injectLeaf noFail s1 a0.dirino a0.dname
          (leafRecord bt.ino size mtime chunk pool) := by
      simp [inject_with_backtrace, hanc, hc]
    rw [hstep]
    refine ⟨injectLeaf_ret _ _ _ _, ?_, ?_, injectLeaf_writes _ _ _ _⟩
    · intro a ha
      rw [hanc] at ha
      rcases List.mem_cons.mp ha with rfl | hrest
      · exact injectLeaf_fragSelf s1 _ _ _
      · obtain ⟨c, hcmem⟩ := pairify_mem_exists rest.reverse a0 a
          (List.mem_reverse.mpr hrest)
        have hest := injectChain_establishes pool (mkChain (a0 :: rest))
          s a c (by rw [mkChain, List.reverse_cons]; exact hcmem)
        rw [hc] at hest
        exact injectLeaf_fragExists _ _ _ _ _ _ hest.1
    · intro p hp
      have href := injectChain_refs pool (mkChain (a0 :: rest)) s
        hchnodup hcompat p hp
      rw [hc] at href
      obtain ⟨r, hr, hino⟩ := href
      have hne : p.1.dirino ≠ a0.dirino ∨ p.1.dname ≠ a0.dname := by
        by_cases hd : p.1.dirino = a0.dirino
        · right
          intro hn
          apply ha0notin
          have hmem : (p.1.dirino, p.1.dname) ∈
              chainPairs (mkChain (a0 :: rest)) := by
            unfold chainPairs
            exact List.mem_map.mpr ⟨p, hp, rfl⟩
          rw [hd, hn] at hmem
          exact hmem
        · left; exact hd
      exact ⟨r, by
        rw [injectLeaf_preserves_dent noFail s1 a0.dirino a0.dname _
          p.1.dirino p.1.dname hne]
        exact hr, hino⟩

/-- Witness for the amended C2 at concrete inputs: injecting a two-level
backtrace into the empty store (all chain dentries initially absent). -/
theorem inject_with_backtrace_ancestor_chain_witness :
    ((⟨10, [⟨5, "f"⟩, ⟨1, "d"⟩]⟩ : Backtrace).ancestors =
        ⟨5, "f"⟩ :: [⟨1, "d"⟩]) ∧
      (((⟨5, "f"⟩ :: [⟨1, "d"⟩]).map
        (fun a : Backpointer => (a.dirino, a.dname))).Nodup) ∧
      ((inject_with_backtrace noFail ⟨[], []⟩
          ⟨10, [⟨5, "f"⟩, ⟨1, "d"⟩]⟩ 100 7 4 2).1 = 0 ∧
        (∀ a ∈ (⟨10, [⟨5, "f"⟩, ⟨1, "d"⟩]⟩ : Backtrace).ancestors,
          fragExists (inject_with_backtrace noFail ⟨[], []⟩
            ⟨10, [⟨5, "f"⟩, ⟨1, "d"⟩]⟩ 100 7 4 2).2 a.dirino) ∧
        (∀ p ∈ mkChain (⟨5, "f"⟩ :: [⟨1, "d"⟩]),
          dentRef (inject_with_backtrace noFail ⟨[], []⟩
            ⟨10, [⟨5, "f"⟩, ⟨1, "d"⟩]⟩ 100 7 4 2).2
            p.1.dirino p.1.dname p.2) ∧
        dentAt (inject_with_backtrace noFail ⟨[], []⟩
            ⟨10, [⟨5, "f"⟩, ⟨1, "d"⟩]⟩ 100 7 4 2).2
            5 defaultFrag "f" =
          some (leafRecord 10 100 7 4 2)) :=
  ⟨rfl, by decide,
    inject_with_backtrace_ancestor_chain ⟨[], []⟩
      ⟨10, [⟨5, "f"⟩, ⟨1, "d"⟩]⟩ 100 7 4 2 ⟨5, "f"⟩ [⟨1, "d"⟩]
      rfl (by decide) (fun p _ => Or.inl rfl)⟩

/-! ## Concurrent-create convergence lemmas -/

theorem processAncestor_preserves_some (fs : FailSpec) (s : Store)
    (d : Nat) (n : String) (c : Nat) (pool : Int) (x : Nat) (m : String)
    (r : InodeRecord) (h : dentAt s x defaultFrag m = some r) :
    dentAt (processAncestor fs s d n c pool).2 x defaultFrag m = some r := by
  by_cases hp : x = d ∧ m = n
  · obtain ⟨rfl, rfl⟩ := hp
    rw [processAncestor_eq]
    by_cases hfrag : fs.failFrag x
    · simpa [hfrag] using h
    · simp only [hfrag, if_false]
      have h1 : dentAt (if alistGet s.frags (x, defaultFrag) = none
          then createFrag s x else s) x defaultFrag m = some r := by
        rw [dentAt_condCreate]
        exact h
      simp only [h1]
      exact h1
  · rw [Decidable.not_and_iff_or_not] at hp
    rw [processAncestor_preserves_dent fs s d n c pool x m hp]
    exact h

theorem injectChain_preserves_some (fs : FailSpec) (pool : Int)
    (ch : List (Backpointer × Nat)) :
    ∀ (s : Store) (x : Nat) (m : String) (r : InodeRecord),
      dentAt s x defaultFrag m = some r →
      dentAt (injectChain fs pool s ch).2 x defaultFrag m = some r := by
  induction ch with
  | nil => intro s x m r h; simpa [injectChain] using h
  | cons e more ih =>
    intro s x m r h
    obtain ⟨a, c⟩ := e
    have h1 := processAncestor_preserves_some fs s a.dirino a.dname c
      pool x m r h
    cases hpc : processAncestor fs s a.dirino a.dname c pool with
    | mk r0 s1 =>
      rw [hpc] at h1
      by_cases hr : r0 = 0
      · subst hr
        simp only [injectChain, hpc, ne_eq, not_true_eq_false, reduceIte]
        exact ih s1 x m r h1
      · simp only [injectChain, hpc, ne_eq, hr, not_false_eq_true,
          reduceIte]
        exact h1

/-- Either the count of a dirfrag key is unchanged, or the operation
created the fragment (count went from zero to one). -/
def fragCountOK (k : Nat × Nat) (s t : Store) : Prop :=
  countKey t.frags k = countKey s.frags k ∨
    (countKey s.frags k = 0 ∧ countKey t.frags k = 1)

theorem fragCountOK_refl (k : Nat × Nat) (s : Store) : fragCountOK k s s :=
  Or.inl rfl

theorem fragCountOK_trans (k : Nat × Nat) (s t u : Store)
    (h1 : fragCountOK k s t) (h2 : fragCountOK k t u) :
    fragCountOK k s u := by
  rcases h1 with h1 | ⟨h1a, h1b⟩
  · rcases h2 with h2 | ⟨h2a, h2b⟩
    · exact Or.inl (by rw [h2, h1])
    · exact Or.inr ⟨by rw [← h1, h2a], h2b⟩
  · rcases h2 with h2 | ⟨h2a, h2b⟩
    · exact Or.inr ⟨h1a, by rw [h2, h1b]⟩
    · rw [h1b] at h2a
      cases h2a

theorem fragCountOK_setInode (k : Nat × Nat) (s : Store)
    (r : InodeRecord) : fragCountOK k s (setInode s r) :=
  Or.inl (by rw [frags_setInode])

theorem fragCountOK_createFrag (k : Nat × Nat) (s : Store) (d : Nat) :
    fragCountOK k s (createFrag s d) := by
  by_cases hk : k = (d, defaultFrag)
  · subst hk
    unfold fragCountOK createFrag
    simp only
    rw [countKey_set]
    by_cases hz : countKey s.frags (d, defaultFrag) = 0
    · exact Or.inr ⟨hz, by rw [if_pos hz]⟩
    · exact Or.inl (by rw [if_neg hz])
  · unfold fragCountOK createFrag
    simp only
    exact Or.inl (countKey_set_ne _ _ _ _ hk)

theorem fragCountOK_setDent (k : Nat × Nat) (s : Store) (d : Nat)
    (n : String) (c : InodeRecord) : fragCountOK k s (setDent s d n c) := by
  unfold setDent
  cases hf : alistGet s.frags (d, defaultFrag) with
  | some fr =>
    simp only
    by_cases hk : k = (d, defaultFrag)
    · subst hk
      unfold fragCountOK
      simp only
      rw [countKey_set]
      have hnz : countKey s.frags (d, defaultFrag) ≠ 0 := by
        intro h0
        rw [get_none_of_countKey_eq_zero _ _ h0] at hf
        cases hf
      exact Or.inl (by rw [if_neg hnz])
    · exact Or.inl (countKey_set_ne _ _ _ _ hk)
  | none =>
    simp only
    by_cases hk : k = (d, defaultFrag)
    · subst hk
      unfold fragCountOK
      simp only
      rw [countKey_set]
      have hz := countKey_eq_zero_of_get_none _ _ hf
      exact Or.inr ⟨hz, by rw [if_pos hz]⟩
    · exact Or.inl (countKey_set_ne _ _ _ _ hk)

theorem fragCountOK_condCreate (k : Nat × Nat) (s : Store) (d : Nat) :
    fragCountOK k s (if alistGet s.frags (d, defaultFrag) = none
      then createFrag s d else s) := by
  by_cases habs : alistGet s.frags (d, defaultFrag) = none
  · rw [if_pos habs]
    exact fragCountOK_createFrag k s d
  · rw [if_neg habs]
    exact fragCountOK_refl k s

theorem fragCountOK_processAncestor (fs : FailSpec) (s : Store) (d : Nat)
    (n : String) (c : Nat) (pool : Int) (k : Nat × Nat) :
    fragCountOK k s (processAncestor fs s d n c pool).2 := by
  rw [processAncestor_eq]
  by_cases hfrag : fs.failFrag d
  · simp only [hfrag, if_true]
    exact fragCountOK_refl k s
  · simp only [hfrag, if_false]
    cases hdent : dentAt (if alistGet s.frags (d, defaultFrag) = none
        then createFrag s d else s) d defaultFrag n with
    | some r =>
      simp only [hdent]
      exact fragCountOK_condCreate k s d
    | none =>
      by_cases hino : fs.failIno c
      · simp only [hdent, hino, if_true]
        exact fragCountOK_condCreate k s d
      · simp only [hdent, hino, if_false]
        have h1 := fragCountOK_condCreate k s d
        have h2 := fragCountOK_setInode k
          (if alistGet s.frags (d, defaultFrag) = none
            then createFrag s d else s) (unlinkedRecord c dirMode pool)
        have h3 := fragCountOK_setDent k
          (setInode (if alistGet s.frags (d, defaultFrag) = none
            then createFrag s d else s) (unlinkedRecord c dirMode pool))
          d n (unlinkedRecord c dirMode pool)
        exact fragCountOK_trans k _ _ _ (fragCountOK_trans k _ _ _ h1 h2) h3

theorem fragCountOK_injectChain (fs : FailSpec) (pool : Int)
    (ch : List (Backpointer × Nat)) :
    ∀ (s : Store) (k : Nat × Nat),
      fragCountOK k s (injectChain fs pool s ch).2 := by
  induction ch with
  | nil => intro s k; exact fragCountOK_refl k s
  | cons e more ih =>
    intro s k
    obtain ⟨a, c⟩ := e
    cases hpc : processAncestor fs s a.dirino a.dname c pool with
    | mk r s1 =>
      have h1 : fragCountOK k s s1 := by
        have h0 := fragCountOK_processAncestor fs s a.dirino a.dname c
          pool k
        rw [hpc] at h0
        exact h0
      by_cases hr : r = 0
      · subst hr
        simp only [injectChain, hpc, ne_eq, not_true_eq_false, reduceIte]
        exact fragCountOK_trans k s s1 _ h1 (ih s1 k)
      · simp only [injectChain, hpc, ne_eq, hr, not_false_eq_true,
          reduceIte]
        exact h1

theorem fragCountOK_injectLeaf (fs : FailSpec) (s : Store) (p : Nat)
    (n : String) (leaf : InodeRecord) (k : Nat × Nat) :
    fragCountOK k s (injectLeaf fs s p n leaf).2 := by
  rw [injectLeaf_eq]
  by_cases hfrag : fs.failFrag p
  · simp only [hfrag, if_true]
    exact fragCountOK_refl k s
  · by_cases hino : fs.failIno leaf.ino
    · simp only [hfrag, hino, if_false, if_true]
      exact fragCountOK_condCreate k s p
    · simp only [hfrag, hino, if_false]
      have h1 := fragCountOK_condCreate k s p
      have h2 := fragCountOK_setInode k
        (if alistGet s.frags (p, defaultFrag) = none
          then createFrag s p else s) leaf
      have h3 := fragCountOK_setDent k
        (setInode (if alistGet s.frags (p, defaultFrag) = none
          then createFrag s p else s) leaf) p n leaf
      exact fragCountOK_trans k _ _ _ (fragCountOK_trans k _ _ _ h1 h2) h3

theorem fragCountOK_inject (fs : FailSpec) (s : Store) (bt : Backtrace)
    (size : Nat) (mtime : Int) (chunk : Nat) (pool : Int) (k : Nat × Nat) :
    fragCountOK k s
      (inject_with_backtrace fs s bt size mtime chunk pool).2 := by
  cases hanc : bt.ancestors with
  | nil =>
    simp only [inject_with_backtrace, hanc]
    exact fragCountOK_refl k s
  | cons a0 rest =>
    cases hc : injectChain fs pool s (mkChain (a0 :: rest)) with
    | mk r s1 =>
      have h1 : fragCountOK k s s1 := by
        have h0 := fragCountOK_injectChain fs pool (mkChain (a0 :: rest))
          s k
        rw [hc] at h0
        exact h0
      by_cases hr : r = 0
      · subst hr
        have hstep : inject_with_backtrace fs s bt size mtime chunk pool =
            injectLeaf fs s1 a0.dirino a0.dname
              (leafRecord bt.ino size mtime chunk pool) := by
          simp [inject_with_backtrace, hanc, hc]
        rw [hstep]
        exact fragCountOK_trans k s s1 _ h1
          (fragCountOK_injectLeaf fs s1 _ _ _ k)
      · have hstep : inject_with_backtrace fs s bt size mtime chunk pool =
            (r, s1) := by
          simp [inject_with_backtrace, hanc, hc, hr]
        rw [hstep]
        exact h1

theorem inject_with_backtrace_ret (s : Store) (bt : Backtrace)
    (size : Nat) (mtime : Int) (chunk : Nat) (pool : Int)
    (a0 : Backpointer) (rest : List Backpointer)
    (hanc : bt.ancestors = a0 :: rest) :
    (inject_with_backtrace noFail s bt size mtime chunk pool).1 = 0 := by
  cases hc : injectChain noFail pool s (mkChain (a0 :: rest)) with
  | mk r s1 =>
    have hr : r = 0 := by
      have h0 := injectChain_ret pool (mkChain (a0 :: rest)) s
      rw [hc] at h0
      exact h0
    subst hr
    have hstep : inject_with_backtrace noFail s bt size mtime chunk pool =
        injectLeaf noFail s1 a0.dirino a0.dname
          (leafRecord bt.ino size mtime chunk pool) := by
      simp [inject_with_backtrace, hanc, hc]
    rw [hstep]
    exact injectLeaf_ret _ _ _ _

/-- The backtrace of a worker injecting file `i` named `n` under shared
parent `P`, itself named `np` under ancestor `R` (spec section 5
scenario: two files sharing a not-yet-created ancestor). -/
def workerBt (P : Nat) (n : String) (R : Nat) (np : String)
    (i : Nat) : Backtrace :=
  ⟨i, [⟨P, n⟩, ⟨R, np⟩]⟩

/-- Run two injections in sequence (one serialization of the two
workers); returns both statuses and the final store. -/
def runTwo (s : Store) (b1 b2 : Backtrace) (size1 size2 : Nat)
    (mt1 mt2 : Int) (ck1 ck2 : Nat) (pl : Int) : Int × Int × Store :=
  let o1 := inject_with_backtrace noFail s b1 size1 mt1 ck1 pl
  let o2 := inject_with_backtrace noFail o1.2 b2 size2 mt2 ck2 pl
  (o1.1, o2.1, o2.2)

theorem runTwo_converges (s : Store) (R P i1 i2 : Nat)
    (np n1 n2 : String) (size1 size2 : Nat) (mt1 mt2 : Int)
    (ck1 ck2 : Nat) (pl : Int)
    (hfragP : alistGet s.frags (P, defaultFrag) = none)
    (hn : n1 ≠ n2) :
    (runTwo s (workerBt P n1 R np i1) (workerBt P n2 R np i2)
        size1 size2 mt1 mt2 ck1 ck2 pl).1 = 0 ∧
      (runTwo s (workerBt P n1 R np i1) (workerBt P n2 R np i2)
        size1 size2 mt1 mt2 ck1 ck2 pl).2.1 = 0 ∧
      countKey (runTwo s (workerBt P n1 R np i1) (workerBt P n2 R np i2)
        size1 size2 mt1 mt2 ck1 ck2 pl).2.2.frags (P, defaultFrag) = 1 ∧
      dentAt (runTwo s (workerBt P n1 R np i1) (workerBt P n2 R np i2)
          size1 size2 mt1 mt2 ck1 ck2 pl).2.2 P defaultFrag n1 =
        some (leafRecord i1 size1 mt1 ck1 pl) ∧
      dentAt (runTwo s (workerBt P n1 R np i1) (workerBt P n2 R np i2)
          size1 size2 mt1 mt2 ck1 ck2 pl).2.2 P defaultFrag n2 =
        some (leafRecord i2 size2 mt2 ck2 pl) := by
  have hz : countKey s.frags (P, defaultFrag) = 0 :=
    countKey_eq_zero_of_get_none _ _ hfragP
  cases ho1 : inject_with_backtrace noFail s (workerBt P n1 R np i1)
      size1 mt1 ck1 pl with
  | mk r1 s1 =>
    have hr1 : r1 = 0 := by
      have h0 := inject_with_backtrace_ret s (workerBt P n1 R np i1)
        size1 mt1 ck1 pl ⟨P, n1⟩ [⟨R, np⟩] rfl
      rw [ho1] at h0
      exact h0
    subst hr1
    -- structure of the first call
    cases hc1 : injectChain noFail pl s (mkChain [⟨P, n1⟩, ⟨R, np⟩]) with
    | mk rc1 sc1 =>
      have hrc1 : rc1 = 0 := by
        have h0 := injectChain_ret pl (mkChain [⟨P, n1⟩, ⟨R, np⟩]) s
        rw [hc1] at h0
        exact h0
      subst hrc1
      have hstep1 : inject_with_backtrace noFail s (workerBt P n1 R np i1)
          size1 mt1 ck1 pl =
          injectLeaf noFail sc1 P n1 (leafRecord i1 size1 mt1 ck1 pl) := by
        simp [inject_with_backtrace, workerBt, hc1]
      rw [ho1] at hstep1
      have hd1 : dentAt s1 P defaultFrag n1 =
          some (leafRecord i1 size1 mt1 ck1 pl) := by
        rw [show s1 = (injectLeaf noFail sc1 P n1
          (leafRecord i1 size1 mt1 ck1 pl)).2 from by rw [← hstep1]]
        exact injectLeaf_writes _ _ _ _
      have hfe1 : fragExists s1 P := by
        rw [show s1 = (injectLeaf noFail sc1 P n1
          (leafRecord i1 size1 mt1 ck1 pl)).2 from by rw [← hstep1]]
        exact injectLeaf_fragSelf _ _ _ _
      have hcnt1 : countKey s1.frags (P, defaultFrag) = 1 := by
        have hok := fragCountOK_inject noFail s (workerBt P n1 R np i1)
          size1 mt1 ck1 pl (P, defaultFrag)
        rw [ho1] at hok
        have hnz : countKey s1.frags (P, defaultFrag) ≠ 0 := by
          intro h0
          exact hfe1 (get_none_of_countKey_eq_zero _ _ h0)
        rcases hok with hok | hok
        · rw [hz] at hok
          exact absurd hok hnz
        · exact hok.2
      -- second call
      cases ho2 : inject_with_backtrace noFail s1 (workerBt P n2 R np i2)
          size2 mt2 ck2 pl with
      | mk r2 s2 =>
        have hr2 : r2 = 0 := by
          have h0 := inject_with_backtrace_ret s1 (workerBt P n2 R np i2)
            size2 mt2 ck2 pl ⟨P, n2⟩ [⟨R, np⟩] rfl
          rw [ho2] at h0
          exact h0
        subst hr2
        cases hc2 : injectChain noFail pl s1
            (mkChain [⟨P, n2⟩, ⟨R, np⟩]) with
        | mk rc2 sc2 =>
          have hrc2 : rc2 = 0 := by
            have h0 := injectChain_ret pl (mkChain [⟨P, n2⟩, ⟨R, np⟩]) s1
            rw [hc2] at h0
            exact h0
          subst hrc2
          have hstep2 : inject_with_backtrace noFail s1
              (workerBt P n2 R np i2) size2 mt2 ck2 pl =
              injectLeaf noFail sc2 P n2
                (leafRecord i2 size2 mt2 ck2 pl) := by
            simp [inject_with_backtrace, workerBt, hc2]
          rw [ho2] at hstep2
          have hs2 : s2 = (injectLeaf noFail sc2 P n2
              (leafRecord i2 size2 mt2 ck2 pl)).2 := by rw [← hstep2]
          have hd2 : dentAt s2 P defaultFrag n2 =
              some (leafRecord i2 size2 mt2 ck2 pl) := by
            rw [hs2]
            exact injectLeaf_writes _ _ _ _
          have hd1' : dentAt s2 P defaultFrag n1 =
              some (leafRecord i1 size1 mt1 ck1 pl) := by
            have hmid : dentAt sc2 P defaultFrag n1 =
                some (leafRecord i1 size1 mt1 ck1 pl) := by
              have h0 := injectChain_preserves_some noFail pl
                (mkChain [⟨P, n2⟩, ⟨R, np⟩]) s1 P n1 _ hd1
              rw [hc2] at h0
              exact h0
            rw [hs2, injectLeaf_preserves_dent noFail sc2 P n2 _ P n1
              (Or.inr hn)]
            exact hmid
          have hcnt2 : countKey s2.frags (P, defaultFrag) = 1 := by
            have hok := fragCountOK_inject noFail s1
              (workerBt P n2 R np i2) size2 mt2 ck2 pl (P, defaultFrag)
            rw [ho2] at hok
            rcases hok with hok | hok
            · rw [hcnt1] at hok
              exact hok
            · rw [hcnt1] at hok
              exact absurd hok.1 (by decide)
          refine ⟨?_, ?_, ?_, ?_, ?_⟩ <;>
            simp only [runTwo, ho1, ho2]
          · exact hcnt2
          · exact hd1'
          · exact hd2

/-- C9: concurrent-create convergence — for any two workers injecting
two different files (distinct names) that share a not-yet-created
ancestor directory P, both injection calls succeed in either
serialization of the race, and afterwards exactly one dirfrag exists for
P, containing the dentries of both files; the worker that finds P's
fragment already created treats that as success and proceeds
(`find_or_create_dirfrag` returns success with created = false). -/
theorem concurrent_create_convergence (s : Store) (R P i1 i2 : Nat)
    (np n1 n2 : String) (size1 size2 : Nat) (mt1 mt2 : Int)
    (ck1 ck2 : Nat) (pl : Int)
    (hfragP : alistGet s.frags (P, defaultFrag) = none)
    (hn : n1 ≠ n2) :
    ((runTwo s (workerBt P n1 R np i1) (workerBt P n2 R np i2)
        size1 size2 mt1 mt2 ck1 ck2 pl).1 = 0 ∧
      (runTwo s (workerBt P n1 R np i1) (workerBt P n2 R np i2)
        size1 size2 mt1 mt2 ck1 ck2 pl).2.1 = 0 ∧
      countKey (runTwo s (workerBt P n1 R np i1) (workerBt P n2 R np i2)
        size1 size2 mt1 mt2 ck1 ck2 pl).2.2.frags (P, defaultFrag) = 1 ∧
      dentAt (runTwo s (workerBt P n1 R np i1) (workerBt P n2 R np i2)
          size1 size2 mt1 mt2 ck1 ck2 pl).2.2 P defaultFrag n1 =
        some (leafRecord i1 size1 mt1 ck1 pl) ∧
      dentAt (runTwo s (workerBt P n1 R np i1) (workerBt P n2 R np i2)
          size1 size2 mt1 mt2 ck1 ck2 pl).2.2 P defaultFrag n2 =
        some (leafRecord i2 size2 mt2 ck2 pl)) ∧
    ((runTwo s (workerBt P n2 R np i2) (workerBt P n1 R np i1)
        size2 size1 mt2 mt1 ck2 ck1 pl).1 = 0 ∧
      (runTwo s (workerBt P n2 R np i2) (workerBt P n1 R np i1)
        size2 size1 mt2 mt1 ck2 ck1 pl).2.1 = 0 ∧
      countKey (runTwo s (workerBt P n2 R np i2) (workerBt P n1 R np i1)
        size2 size1 mt2 mt1 ck2 ck1 pl).2.2.frags (P, defaultFrag) = 1 ∧
      dentAt (runTwo s (workerBt P n2 R np i2) (workerBt P n1 R np i1)
          size2 size1 mt2 mt1 ck2 ck1 pl).2.2 P defaultFrag n2 =
        some (leafRecord i2 size2 mt2 ck2 pl) ∧
      dentAt (runTwo s (workerBt P n2 R np i2) (workerBt P n1 R np i1)
          size2 size1 mt2 mt1 ck2 ck1 pl).2.2 P defaultFrag n1 =
        some (leafRecord i1 size1 mt1 ck1 pl)) :=
  ⟨runTwo_converges s R P i1 i2 np n1 n2 size1 size2 mt1 mt2 ck1 ck2 pl
      hfragP hn,
    runTwo_converges s R P i2 i1 np n2 n1 size2 size1 mt2 mt1 ck2 ck1 pl
      hfragP (Ne.symm hn)⟩

/-- Witness for C9 at concrete inputs: files 10 ("a") and 11 ("b") under
the uncreated shared directory 5 (named "d" under the root), injected in
both orders from the empty store. -/
theorem concurrent_create_convergence_witness :
    (alistGet (⟨[], []⟩ : Store).frags (5, defaultFrag) = none) ∧
      ("a" ≠ "b") ∧
      (((runTwo ⟨[], []⟩ (workerBt 5 "a" 1 "d" 10) (workerBt 5 "b" 1 "d" 11)
          100 200 7 8 4 4 2).1 = 0 ∧
        (runTwo ⟨[], []⟩ (workerBt 5 "a" 1 "d" 10) (workerBt 5 "b" 1 "d" 11)
          100 200 7 8 4 4 2).2.1 = 0 ∧
        countKey (runTwo ⟨[], []⟩ (workerBt 5 "a" 1 "d" 10)
          (workerBt 5 "b" 1 "d" 11) 100 200 7 8 4 4 2).2.2.frags
          (5, defaultFrag) = 1 ∧
        dentAt (runTwo ⟨[], []⟩ (workerBt 5 "a" 1 "d" 10)
            (workerBt 5 "b" 1 "d" 11) 100 200 7 8 4 4 2).2.2
            5 defaultFrag "a" = some (leafRecord 10 100 7 4 2) ∧
        dentAt (runTwo ⟨[], []⟩ (workerBt 5 "a" 1 "d" 10)
            (workerBt 5 "b" 1 "d" 11) 100 200 7 8 4 4 2).2.2
            5 defaultFrag "b" = some (leafRecord 11 200 8 4 2)) ∧
      ((runTwo ⟨[], []⟩ (workerBt 5 "b" 1 "d" 11) (workerBt 5 "a" 1 "d" 10)
          200 100 8 7 4 4 2).1 = 0 ∧
        (runTwo ⟨[], []⟩ (workerBt 5 "b" 1 "d" 11) (workerBt 5 "a" 1 "d" 10)
          200 100 8 7 4 4 2).2.1 = 0 ∧
        countKey (runTwo ⟨[], []⟩ (workerBt 5 "b" 1 "d" 11)
          (workerBt 5 "a" 1 "d" 10) 200 100 8 7 4 4 2).2.2.frags
          (5, defaultFrag) = 1 ∧
        dentAt (runTwo ⟨[], []⟩ (workerBt 5 "b" 1 "d" 11)
            (workerBt 5 "a" 1 "d" 10) 200 100 8 7 4 4 2).2.2
            5 defaultFrag "b" = some (leafRecord 11 200 8 4 2) ∧
        dentAt (runTwo ⟨[], []⟩ (workerBt 5 "b" 1 "d" 11)
            (workerBt 5 "a" 1 "d" 10) 200 100 8 7 4 4 2).2.2
            5 defaultFrag "a" = some (leafRecord 10 100 7 4 2))) :=
  ⟨rfl, by decide,
    concurrent_create_convergence ⟨[], []⟩ 1 5 10 11 "d" "a" "b"
      100 200 7 8 4 4 2 rfl (by decide)⟩

/-! ## LocalFileDriver model and hierarchy abstraction (spec section 4.3) -/

/-- The role a path plays in an ancestry assignment. -/
inductive PKind where
  | dir : PKind
  | file : PKind
deriving DecidableEq, Repr

/-- The local-file backend state: created directory paths and placeholder
files (path with recovered size and mtime), each path a component list. -/
structure LocalFS where
  dirs : List (List String)
  files : List (List String × (Nat × Int))
deriving DecidableEq, Repr

/-- Add a path to a set of paths if absent. -/
def addPath (ds : List (List String)) (p : List String) :
    List (List String) :=
  if memB ds p then ds else ds ++ [p]

/-- Add several paths. -/
def addPaths (ds : List (List String)) : List (List String) →
    List (List String)
  | [] => ds
  | p :: more => addPaths (addPath ds p) more

/-- The proper, nonempty ancestor prefixes of a path: for
`[a, b, c]` these are `[a]` and `[a, b]`. -/
def ancPaths : List String → List (List String)
  | [] => []
  | [_] => []
  | n :: rest => [n] :: (ancPaths rest).map (fun p => n :: p)

/-- The root-to-leaf component path recorded by a backtrace. -/
def pathOfBt (b : Backtrace) : List String :=
  (b.ancestors.reverse).map Backpointer.dname

/-- Modelled from the spec: `LocalFileDriver::inject_with_backtrace`
(body missing from the sources) — "ancestor creation becomes directory
creation, leaf injection becomes writing a placeholder file" (spec
section 4.3); chunk size and pool do not affect the local tree. -/
def local_inject_with_backtrace (l : LocalFS) (bt : Backtrace)
    (size : Nat) (mtime : Int) (_chunk : Nat) (_pool : Int) :
    Int × LocalFS :=
  match bt.ancestors with
  | [] => (retEINVAL, l)
  | _ :: _ =>
    (0, ⟨addPaths l.dirs (ancPaths (pathOfBt bt)),
      alistSet l.files (pathOfBt bt) (size, mtime)⟩)

/-- Modelled from the spec: `LocalFileDriver::inject_lost_and_found`
(body missing from the sources) — create the lost+found directory if
absent and write the placeholder file named by the inode number. -/
def local_inject_lost_and_found (l : LocalFS) (ino size : Nat)
    (mtime : Int) (_chunk : Nat) (_pool : Int) : Int × LocalFS :=
  (0, ⟨addPath l.dirs [lfName],
    alistSet l.files [lfName, Nat.repr ino] (size, mtime)⟩)

/-- One recovered input fact, as consumed by either backend. -/
inductive RFact where
  | bt (b : Backtrace) (size : Nat) (mtime : Int) (chunk : Nat)
      (pool : Int) : RFact
  | lf (ino size : Nat) (mtime : Int) (chunk : Nat) (pool : Int) : RFact

/-- Apply one fact to the metadata backend (failure-free run). -/
def runMDFact (s : Store) : RFact → Store
  | .bt b size mtime chunk pool =>
    (inject_with_backtrace noFail s b size mtime chunk pool).2
  | .lf ino size mtime chunk pool =>
    (inject_lost_and_found noFail s ino size mtime chunk pool).2

/-- Apply one fact to the local-file backend. -/
def runLFFact (l : LocalFS) : RFact → LocalFS
  | .bt b size mtime chunk pool =>
    (local_inject_with_backtrace l b size mtime chunk pool).2
  | .lf ino size mtime chunk pool =>
    (local_inject_lost_and_found l ino size mtime chunk pool).2

/-- Run a fact sequence against the metadata backend. -/
def runMD : Store → List RFact → Store
  | s, [] => s
  | s, f :: more => runMD (runMDFact s f) more

/-- Run a fact sequence against the local-file backend. -/
def runLF : LocalFS → List RFact → LocalFS
  | l, [] => l
  | l, f :: more => runLF (runLFFact l f) more

/-- Resolve a component path by following dentries from a starting inode;
returns the final record reached, if any. -/
def resolveRec (s : Store) : Nat → List String → Option InodeRecord
  | _, [] => none
  | i, n :: rest =>
    match dentAt s i defaultFrag n with
    | some r => if rest.isEmpty then some r else resolveRec s r.ino rest
    | none => none

/-- Starting point of resolution: lost+found paths resolve from the
lost+found inode, all others from the root. -/
def mdStart (p : List String) : Nat × List String :=
  if p.head? = some lfName then (lostFoundIno, p.tail) else (rootIno, p)

/-- A path denotes a directory in the metadata hierarchy: the root, the
lost+found directory (once its inode object exists), or any path
resolving to a record with directory mode. -/
def mdIsDir (s : Store) (p : List String) : Bool :=
  p.isEmpty ||
    (decide (p = [lfName]) && (alistGet s.inodes lostFoundIno).isSome) ||
    (match resolveRec s (mdStart p).1 (mdStart p).2 with
     | some r => decide (r.mode = dirMode)
     | none => false)

/-- A path denotes a file in the metadata hierarchy. -/
def mdIsFile (s : Store) (p : List String) : Bool :=
  match resolveRec s (mdStart p).1 (mdStart p).2 with
  | some r => decide (r.mode = fileMode)
  | none => false

/-- A path denotes a directory in the local tree. -/
def localIsDir (l : LocalFS) (p : List String) : Bool :=
  p.isEmpty || memB l.dirs p

/-- A path denotes a file in the local tree. -/
def localIsFile (l : LocalFS) (p : List String) : Bool :=
  (alistGet l.files p).isSome

theorem boolEq_of_iff (a b : Bool) (h : a = true ↔ b = true) : a = b := by
  cases a <;> cases b <;> simp_all

/-- C8 counterexample: the two backends are not structurally equivalent
for every input-fact sequence.  A single backtrace whose outermost
ancestor is not the filesystem root (here directory inode 5, never
linked from the root) makes the local backend create the file at path
"f" while the metadata hierarchy reachable from the root set contains no
such file (the injected dentry sits in an orphaned dirfrag). -/
theorem backend_equiv_counterexample :
    localIsFile (runLF ⟨[], []⟩
      [RFact.bt ⟨10, [⟨5, "f"⟩]⟩ 100 7 4 2]) ["f"] = true ∧
    mdIsFile (runMD ⟨[], []⟩
      [RFact.bt ⟨10, [⟨5, "f"⟩]⟩ 100 7 4 2]) ["f"] = false := by
  decide

/-! ## Consistent ancestry assignments (amended C8) -/

/-- A global ancestry assignment: maps an inode id to the unique path it
occupies in the recovered hierarchy and the role (directory or file) it
plays there.  Paths are assigned injectively; the root and lost+found
have their fixed paths. -/
structure SigmaOK (sg : Nat → Option (List String × PKind)) : Prop where
  root : sg rootIno = some ([], PKind.dir)
  lf : sg lostFoundIno = some ([lfName], PKind.dir)
  inj : ∀ a b p k k', sg a = some (p, k) → sg b = some (p, k') → a = b

/-- The ancestor records (outermost first), walked with the accumulated
path, agree with the assignment. -/
def chainConsistent (sg : Nat → Option (List String × PKind)) :
    List String → List Backpointer → Prop
  | _, [] => True
  | q, a :: more =>
    sg a.dirino = some (q, PKind.dir) ∧
      chainConsistent sg (q ++ [a.dname]) more

/-- A fact is consistent with the assignment: a backtrace is nonempty,
does not claim the lost+found name at the top level, walks paths as the
assignment dictates and assigns its leaf the file role at its full path;
a lost+found fact's inode is assigned its file path under lost+found. -/
def factOK (sg : Nat → Option (List String × PKind)) : RFact → Prop
  | .bt b _ _ _ _ =>
    b.ancestors ≠ [] ∧ (pathOfBt b).head? ≠ some lfName ∧
      chainConsistent sg [] b.ancestors.reverse ∧
      sg b.ino = some (pathOfBt b, PKind.file)
  | .lf ino _ _ _ _ =>
    sg ino = some ([lfName, Nat.repr ino], PKind.file)

/-- Every dentry in the store is placed where the assignment says: its
directory has the dir role at some path, and the dentry's target has the
matching role at that path extended by the dentry's name, with the mode
bits agreeing with the role. -/
def DentOK (sg : Nat → Option (List String × PKind)) (s : Store) : Prop :=
  ∀ (d : Nat) (n : String) (r : InodeRecord),
    dentAt s d defaultFrag n = some r →
    ∃ pd, sg d = some (pd, PKind.dir) ∧
      ((r.mode = dirMode ∧ sg r.ino = some (pd ++ [n], PKind.dir)) ∨
        (r.mode = fileMode ∧ sg r.ino = some (pd ++ [n], PKind.file)))

/-- Every directory holding a dentry is the root, lost+found, or itself
the target of some dentry (no orphaned interior directories). -/
def Conn (s : Store) : Prop :=
  ∀ (d : Nat) (n : String), dentAt s d defaultFrag n ≠ none →
    d = rootIno ∨ d = lostFoundIno ∨
      ∃ (d2 : Nat) (n2 : String) (r2 : InodeRecord),
        dentAt s d2 defaultFrag n2 = some r2 ∧ r2.ino = d

/-- The root directory carries no dentry named lost+found (that name is
reserved for the separate lost+found root object). -/
def NoRootLf (s : Store) : Prop :=
  dentAt s rootIno defaultFrag lfName = none

/-- The full simulation invariant between the two backends. -/
def InvC8 (sg : Nat → Option (List String × PKind)) (s : Store)
    (l : LocalFS) : Prop :=
  DentOK sg s ∧ Conn s ∧ NoRootLf s ∧
    (∀ p, localIsDir l p = mdIsDir s p) ∧
    (∀ p, localIsFile l p = mdIsFile s p)

/-! ## Resolution lemmas -/

theorem resolveRec_final (s : Store) :
    ∀ (p : List String) (i : Nat) (r : InodeRecord),
      resolveRec s i p = some r →
      ∃ (x : Nat) (m : String), dentAt s x defaultFrag m = some r := by
  intro p
  induction p with
  | nil => intro i r h; simp [resolveRec] at h
  | cons n rest ih =>
    intro i r h
    cases hd : dentAt s i defaultFrag n with
    | none => simp [resolveRec, hd] at h
    | some r0 =>
      simp only [resolveRec, hd] at h
      by_cases hrest : rest.isEmpty
      · rw [if_pos hrest] at h
        exact ⟨i, n, by rw [hd, Option.some_inj.mp h]⟩
      · rw [if_neg hrest] at h
        exact ih r0.ino r h

theorem resolveRec_mono (s t : Store)
    (hpres : ∀ (x : Nat) (m : String) (r : InodeRecord),
      dentAt s x defaultFrag m = some r →
      dentAt t x defaultFrag m = some r) :
    ∀ (p : List String) (i : Nat) (r : InodeRecord),
      resolveRec s i p = some r → resolveRec t i p = some r := by
  intro p
  induction p with
  | nil => intro i r h; simp [resolveRec] at h
  | cons n rest ih =>
    intro i r h
    cases hd : dentAt s i defaultFrag n with
    | none => simp [resolveRec, hd] at h
    | some r0 =>
      simp only [resolveRec, hd] at h
      simp only [resolveRec, hpres i n r0 hd]
      by_cases hrest : rest.isEmpty
      · rw [if_pos hrest] at h ⊢
        exact h
      · rw [if_neg hrest] at h ⊢
        exact ih r0.ino r h

theorem file_no_children (sg : Nat → Option (List String × PKind))
    (s : Store) (hd : DentOK sg s) (x : Nat) (px : List String)
    (hx : sg x = some (px, PKind.file)) (m : String) :
    dentAt s x defaultFrag m = none := by
  cases hdent : dentAt s x defaultFrag m with
  | none => rfl
  | some r =>
    obtain ⟨pd, hpd, _⟩ := hd x m r hdent
    rw [hx] at hpd
    cases hpd

theorem resolveRec_sigma (sg : Nat → Option (List String × PKind))
    (s : Store) (hd : DentOK sg s) :
    ∀ (p : List String) (i : Nat) (qi : List String) (r : InodeRecord),
      sg i = some (qi, PKind.dir) → resolveRec s i p = some r →
      (r.mode = dirMode ∧ sg r.ino = some (qi ++ p, PKind.dir)) ∨
        (r.mode = fileMode ∧ sg r.ino = some (qi ++ p, PKind.file)) := by
  intro p
  induction p with
  | nil => intro i qi r _ h; simp [resolveRec] at h
  | cons n rest ih =>
    intro i qi r hi h
    cases hdent : dentAt s i defaultFrag n with
    | none => simp [resolveRec, hdent] at h
    | some r0 =>
      simp only [resolveRec, hdent] at h
      obtain ⟨pd, hpd, hkinds⟩ := hd i n r0 hdent
      rw [hi] at hpd
      have hpdqi : pd = qi := (Prod.mk.injEq _ _ _ _ ▸
        Option.some_inj.mp hpd.symm).1
      subst hpdqi
      by_cases hrest : rest.isEmpty
      · rw [if_pos hrest] at h
        have hr0 : r0 = r := Option.some_inj.mp h
        subst hr0
        rw [List.isEmpty_iff] at hrest
        subst hrest
        exact hkinds
      · rw [if_neg hrest] at h
        rcases hkinds with ⟨_, hdirk⟩ | ⟨_, hfilek⟩
        · have hres := ih r0.ino (pd ++ [n]) r hdirk h
          rw [List.append_assoc] at hres
          simpa using hres
        · rw [List.isEmpty_iff] at hrest
          cases hrest2 : rest with
          | nil => exact absurd hrest2 hrest
          | cons m2 rest2 =>
            subst hrest2
            simp [resolveRec,
              file_no_children sg s hd r0.ino (pd ++ [n]) hfilek m2] at h

theorem resolveRec_append (s : Store) :
    ∀ (q : List String) (i d : Nat) (n : String) (v : InodeRecord),
      ((q = [] ∧ d = i) ∨
        ∃ r, resolveRec s i q = some r ∧ r.ino = d) →
      dentAt s d defaultFrag n = some v →
      resolveRec s i (q ++ [n]) = some v := by
  intro q
  induction q with
  | nil =>
    intro i d n v hreach hv
    rcases hreach with ⟨_, rfl⟩ | ⟨r, hr, _⟩
    · simp [resolveRec, hv]
    · simp [resolveRec] at hr
  | cons m q2 ih =>
    intro i d n v hreach hv
    rcases hreach with ⟨hcontra, _⟩ | ⟨r, hr, hrd⟩
    · cases hcontra
    · cases hdent : dentAt s i defaultFrag m with
      | none => simp [resolveRec, hdent] at hr
      | some r0 =>
        simp only [resolveRec, hdent] at hr
        by_cases hq2 : q2.isEmpty
        · rw [if_pos hq2] at hr
          have hr0 : r0 = r := Option.some_inj.mp hr
          subst hr0
          rw [List.isEmpty_iff] at hq2
          subst hq2
          simp only [List.nil_append, List.cons_append]
          simp only [resolveRec, hdent]
          rw [hrd]
          simp [resolveRec, hv]
        · rw [if_neg hq2] at hr
          have hstep := ih r0.ino d n v (Or.inr ⟨r, hr, hrd⟩) hv
          simp only [List.cons_append]
          simp only [resolveRec, hdent]
          have hne : ¬ (q2 ++ [n]).isEmpty := by
            rw [List.isEmpty_iff] at hq2 ⊢
            intro hc
            exact hq2 (List.append_eq_nil.mp hc).1
          rw [if_neg hne]
          exact hstep

theorem resolveRec_sim (s t : Store)
    (hsim : ∀ (x : Nat) (m : String) (r : InodeRecord),
      dentAt s x defaultFrag m = some r →
      ∃ r2, dentAt t x defaultFrag m = some r2 ∧ r2.ino = r.ino ∧
        r2.mode = r.mode) :
    ∀ (p : List String) (i : Nat) (r : InodeRecord),
      resolveRec s i p = some r →
      ∃ r2, resolveRec t i p = some r2 ∧ r2.ino = r.ino ∧
        r2.mode = r.mode := by
  intro p
  induction p with
  | nil => intro i r h; simp [resolveRec] at h
  | cons n rest ih =>
    intro i r h
    cases hd : dentAt s i defaultFrag n with
    | none => simp [resolveRec, hd] at h
    | some r0 =>
      simp only [resolveRec, hd] at h
      obtain ⟨r2, hr2, hrino, hrmode⟩ := hsim i n r0 hd
      by_cases hrest : rest.isEmpty
      · rw [if_pos hrest] at h
        have hr0 : r0 = r := Option.some_inj.mp h
        subst hr0
        exact ⟨r2, by simp [resolveRec, hr2, hrest], hrino, hrmode⟩
      · rw [if_neg hrest] at h
        obtain ⟨r3, hr3, hino3, hmode3⟩ := ih r0.ino r h
        rw [← hrino] at hr3
        exact ⟨r3, by simp only [resolveRec, hr2, hrest,
          Bool.false_eq_true, if_false]; exact hr3, hino3, hmode3⟩

theorem resolveRec_newDent (sg : Nat → Option (List String × PKind))
    (s t : Store) (hd : DentOK sg s)
    (d : Nat) (n : String) (q : List String) (u : InodeRecord) (ku : PKind)
    (hsd : sg d = some (q, PKind.dir))
    (hsu : sg u.ino = some (q ++ [n], ku))
    (hnew : dentAt t d defaultFrag n = some u)
    (hdiff : ∀ (x : Nat) (m : String), x ≠ d ∨ m ≠ n →
      dentAt t x defaultFrag m = dentAt s x defaultFrag m)
    (hunder : ∀ m2 : String, dentAt s u.ino defaultFrag m2 = none) :
    ∀ (p : List String) (i : Nat) (qi : List String) (r : InodeRecord),
      sg i = some (qi, PKind.dir) → resolveRec t i p = some r →
      (∃ r2, resolveRec s i p = some r2 ∧ r2.ino = r.ino ∧
        r2.mode = r.mode) ∨
        (r = u ∧ qi ++ p = q ++ [n]) := by
  have hud : u.ino ≠ d := by
    intro hc
    rw [hc, hsd] at hsu
    have := (Prod.mk.injEq _ _ _ _ ▸ Option.some_inj.mp hsu).1
    exact absurd this (by simp)
  intro p
  induction p with
  | nil => intro i qi r _ h; simp [resolveRec] at h
  | cons m rest ih =>
    intro i qi r hi h
    by_cases hpos : i = d ∧ m = n
    · obtain ⟨rfl, rfl⟩ := hpos
      simp only [resolveRec, hnew] at h
      have hqi : qi = q := by
        rw [hsd] at hi
        exact ((Prod.mk.injEq _ _ _ _ ▸ Option.some_inj.mp hi).1).symm
      subst hqi
      by_cases hrest : rest.isEmpty
      · rw [if_pos hrest] at h
        rw [List.isEmpty_iff] at hrest
        subst hrest
        exact Or.inr ⟨(Option.some_inj.mp h).symm, rfl⟩
      · rw [if_neg hrest] at h
        rw [List.isEmpty_iff] at hrest
        cases hrest2 : rest with
        | nil => exact absurd hrest2 hrest
        | cons m2 rest2 =>
          subst hrest2
          have hdead : dentAt t u.ino defaultFrag m2 = none := by
            rw [hdiff u.ino m2 (Or.inl hud)]
            exact hunder m2
          simp [resolveRec, hdead] at h
    · rw [Decidable.not_and_iff_or_not] at hpos
      have hsame := hdiff i m hpos
      cases hdold : dentAt s i defaultFrag m with
      | none =>
        rw [hdold] at hsame
        simp [resolveRec, hsame] at h
      | some r0 =>
        rw [hdold] at hsame
        simp only [resolveRec, hsame] at h
        obtain ⟨pd, hpd, hkinds⟩ := hd i m r0 hdold
        have hpdqi : pd = qi := by
          rw [hi] at hpd
          exact ((Prod.mk.injEq _ _ _ _ ▸ Option.some_inj.mp hpd).1).symm
        subst hpdqi
        by_cases hrest : rest.isEmpty
        · rw [if_pos hrest] at h
          have hr0 : r0 = r := Option.some_inj.mp h
          subst hr0
          exact Or.inl ⟨r0, by simp [resolveRec, hdold, hrest], rfl, rfl⟩
        · rw [if_neg hrest] at h
          rcases hkinds with ⟨_, hdirk⟩ | ⟨_, hfilek⟩
          · rcases ih r0.ino (pd ++ [m]) r hdirk h with
              ⟨r2, hr2, hino2, hmode2⟩ | ⟨hru, hpath⟩
            · refine Or.inl ⟨r2, ?_, hino2, hmode2⟩
              simp only [resolveRec, hdold, hrest, Bool.false_eq_true,
                if_false]
              exact hr2
            · refine Or.inr ⟨hru, ?_⟩
              rw [← hpath]
              simp [List.append_assoc]
          · rw [List.isEmpty_iff] at hrest
            cases hrest2 : rest with
            | nil => exact absurd hrest2 hrest
            | cons m2 rest2 =>
              subst hrest2
              have hr0d : r0.ino ≠ d := by
                intro hc
                rw [hc, hsd] at hfilek
                cases Option.some_inj.mp hfilek
              have hdead : dentAt t r0.ino defaultFrag m2 = none := by
                rw [hdiff r0.ino m2 (Or.inl hr0d)]
                exact file_no_children sg s hd r0.ino (pd ++ [m]) hfilek m2
              simp [resolveRec, hdead] at h

/-- Core invariant preservation for a single-dentry update: writing (or
value-compatibly overwriting) one dentry `(d, n) ↦ u` placed where the
assignment dictates preserves `DentOK`, `Conn` and `NoRootLf`, and old
dentries keep their target inode and mode. -/
theorem mdStepCore (sg : Nat → Option (List String × PKind))
    (s t : Store) (hd : DentOK sg s) (hconn : Conn s) (hnr : NoRootLf s)
    (d : Nat) (n : String) (q : List String) (u : InodeRecord) (ku : PKind)
    (hsd : sg d = some (q, PKind.dir))
    (hsu : sg u.ino = some (q ++ [n], ku))
    (humode : (ku = PKind.dir ∧ u.mode = dirMode) ∨
      (ku = PKind.file ∧ u.mode = fileMode))
    (hnew : dentAt t d defaultFrag n = some u)
    (hdiff : ∀ (x : Nat) (m : String), x ≠ d ∨ m ≠ n →
      dentAt t x defaultFrag m = dentAt s x defaultFrag m)
    (hold : dentAt s d defaultFrag n = none ∨
      ∃ r0, dentAt s d defaultFrag n = some r0 ∧ r0.ino = u.ino ∧
        r0.mode = u.mode)
    (hwitness : d = rootIno ∨ d = lostFoundIno ∨
      ∃ (d2 : Nat) (n2 : String) (r2 : InodeRecord),
        dentAt s d2 defaultFrag n2 = some r2 ∧ r2.ino = d)
    (hnlf : d = rootIno → n ≠ lfName) :
    DentOK sg t ∧ Conn t ∧ NoRootLf t ∧
      (∀ (x : Nat) (m : String) (r : InodeRecord),
        dentAt s x defaultFrag m = some r →
        ∃ r2, dentAt t x defaultFrag m = some r2 ∧ r2.ino = r.ino ∧
          r2.mode = r.mode) := by
  have hud : u.ino ≠ d := by
    intro hc
    rw [hc, hsd] at hsu
    have h1 := (Prod.mk.injEq _ _ _ _ ▸ Option.some_inj.mp hsu).1
    exact absurd h1 (by simp)
  have hsim : ∀ (x : Nat) (m : String) (r : InodeRecord),
      dentAt s x defaultFrag m = some r →
      ∃ r2, dentAt t x defaultFrag m = some r2 ∧ r2.ino = r.ino ∧
        r2.mode = r.mode := by
    intro x m r hr
    by_cases hp : x = d ∧ m = n
    · obtain ⟨rfl, rfl⟩ := hp
      rcases hold with hnone | ⟨r0, hr0, hino0, hmode0⟩
      · rw [hnone] at hr
        cases hr
      · rw [hr0] at hr
        have : r0 = r := Option.some_inj.mp hr
        subst this
        exact ⟨u, hnew, hino0.symm, hmode0.symm⟩
    · rw [Decidable.not_and_iff_or_not] at hp
      exact ⟨r, by rw [hdiff x m hp]; exact hr, rfl, rfl⟩
  refine ⟨?_, ?_, ?_, hsim⟩
  · intro x m r hr
    by_cases hp : x = d ∧ m = n
    · obtain ⟨rfl, rfl⟩ := hp
      rw [hnew] at hr
      have : u = r := Option.some_inj.mp hr
      subst this
      refine ⟨q, hsd, ?_⟩
      rcases humode with ⟨hk, hm⟩ | ⟨hk, hm⟩
      · exact Or.inl ⟨hm, by rw [hsu, hk]⟩
      · exact Or.inr ⟨hm, by rw [hsu, hk]⟩
    · rw [Decidable.not_and_iff_or_not] at hp
      rw [hdiff x m hp] at hr
      exact hd x m r hr
  · intro x m hxm
    by_cases hp : x = d ∧ m = n
    · obtain ⟨rfl, rfl⟩ := hp
      rcases hwitness with hw | hw | ⟨d2, n2, r2, hr2, hino2⟩
      · exact Or.inl hw
      · exact Or.inr (Or.inl hw)
      · refine Or.inr (Or.inr ?_)
        have hne : d2 ≠ x ∨ n2 ≠ m := by
          by_cases hd2 : d2 = x
          · subst hd2
            right
            intro hn2
            subst hn2
            rcases hold with hnone | ⟨r0, hr0, hino0, _⟩
            · rw [hnone] at hr2
              cases hr2
            · rw [hr0] at hr2
              have : r0 = r2 := Option.some_inj.mp hr2
              subst this
              rw [hino0] at hino2
              exact hud hino2
          · exact Or.inl hd2
        exact ⟨d2, n2, r2, by rw [hdiff d2 n2 hne]; exact hr2, hino2⟩
    · rw [Decidable.not_and_iff_or_not] at hp
      rw [hdiff x m hp] at hxm
      rcases hconn x m hxm with hw | hw | ⟨d2, n2, r2, hr2, hino2⟩
      · exact Or.inl hw
      · exact Or.inr (Or.inl hw)
      · obtain ⟨r3, hr3, hino3, _⟩ := hsim d2 n2 r2 hr2
        exact Or.inr (Or.inr ⟨d2, n2, r3, hr3, by rw [hino3, hino2]⟩)
  · unfold NoRootLf at hnr ⊢
    by_cases hp : rootIno = d ∧ lfName = n
    · obtain ⟨hpd, hpn⟩ := hp
      exact absurd hpn.symm (hnlf hpd.symm)
    · rw [Decidable.not_and_iff_or_not] at hp
      rw [hdiff rootIno lfName hp]
      exact hnr

theorem mdIsFile_iff (s : Store) (p : List String) :
    mdIsFile s p = true ↔
      ∃ r, resolveRec s (mdStart p).1 (mdStart p).2 = some r ∧
        r.mode = fileMode := by
  unfold mdIsFile
  cases hres : resolveRec s (mdStart p).1 (mdStart p).2 with
  | none => simp
  | some r => simp

theorem mdIsDir_iff (s : Store) (p : List String) :
    mdIsDir s p = true ↔
      (p = [] ∨
        (p = [lfName] ∧ (alistGet s.inodes lostFoundIno).isSome = true) ∨
        ∃ r, resolveRec s (mdStart p).1 (mdStart p).2 = some r ∧
          r.mode = dirMode) := by
  unfold mdIsDir
  cases hres : resolveRec s (mdStart p).1 (mdStart p).2 with
  | none =>
    simp [List.isEmpty_iff, Bool.or_eq_true, Bool.and_eq_true]
  | some r =>
    simp only [List.isEmpty_iff, Bool.or_eq_true, Bool.and_eq_true,
      decide_eq_true_eq, Option.some_inj]
    constructor
    · rintro ((h | h) | h)
      · exact Or.inl h
      · exact Or.inr (Or.inl h)
      · exact Or.inr (Or.inr ⟨r, rfl, h⟩)
    · rintro (h | h | ⟨r2, hr2, h⟩)
      · exact Or.inl (Or.inl h)
      · exact Or.inl (Or.inr h)
      · cases hr2
        exact Or.inr h

theorem mdStart_not_lf (p : List String) (h : p.head? ≠ some lfName) :
    mdStart p = (rootIno, p) := by
  unfold mdStart
  rw [if_neg h]

theorem mdStart_lf (tl : List String) :
    mdStart (lfName :: tl) = (lostFoundIno, tl) := by
  unfold mdStart
  simp

/-- How a single placed dentry update changes the abstract hierarchy,
for a path whose top-level name is not lost+found. -/
theorem mdAbs_step_nonlf (sg : Nat → Option (List String × PKind))
    (s t : Store) (hd : DentOK sg s) (hsg : SigmaOK sg)
    (d : Nat) (n : String) (q : List String) (u : InodeRecord) (ku : PKind)
    (hsd : sg d = some (q, PKind.dir))
    (hsu : sg u.ino = some (q ++ [n], ku))
    (humode : (ku = PKind.dir ∧ u.mode = dirMode) ∨
      (ku = PKind.file ∧ u.mode = fileMode))
    (hnew : dentAt t d defaultFrag n = some u)
    (hdiff : ∀ (x : Nat) (m : String), x ≠ d ∨ m ≠ n →
      dentAt t x defaultFrag m = dentAt s x defaultFrag m)
    (hunder : ∀ m2 : String, dentAt s u.ino defaultFrag m2 = none)
    (hsim : ∀ (x : Nat) (m : String) (r : InodeRecord),
      dentAt s x defaultFrag m = some r →
      ∃ r2, dentAt t x defaultFrag m = some r2 ∧ r2.ino = r.ino ∧
        r2.mode = r.mode)
    (hLF : (alistGet t.inodes lostFoundIno).isSome =
      (alistGet s.inodes lostFoundIno).isSome)
    (hhead : (q ++ [n]).head? ≠ some lfName)
    (hreach : (q = [] ∧ d = rootIno) ∨
      ∃ rr, resolveRec s rootIno q = some rr ∧ rr.ino = d) :
    (∀ p, mdIsDir t p = true ↔
      (mdIsDir s p = true ∨ (ku = PKind.dir ∧ p = q ++ [n]))) ∧
    (∀ p, mdIsFile t p = true ↔
      (mdIsFile s p = true ∨ (ku = PKind.file ∧ p = q ++ [n]))) := by
  have hB := resolveRec_newDent sg s t hd d n q u ku hsd hsu hnew hdiff
    hunder
  have hSIM := resolveRec_sim s t hsim
  have hreach_t : resolveRec t rootIno (q ++ [n]) = some u := by
    apply resolveRec_append t q rootIno d n u _ hnew
    rcases hreach with ⟨hq, hdr⟩ | ⟨rr, hrr, hrrino⟩
    · exact Or.inl ⟨hq, hdr⟩
    · obtain ⟨rr2, hrr2, hino2, _⟩ := hSIM q rootIno rr hrr
      exact Or.inr ⟨rr2, hrr2, by rw [hino2, hrrino]⟩
  have hmode_ne : dirMode ≠ fileMode := by decide
  constructor
  · intro p
    rw [mdIsDir_iff, mdIsDir_iff]
    cases hp : p with
    | nil => simp
    | cons h0 tl =>
      by_cases hlf0 : h0 = lfName
      · subst hlf0
        cases htl : tl with
        | nil =>
          have hne : ([lfName] : List String) ≠ q ++ [n] := by
            intro hc
            apply hhead
            rw [← hc]
            rfl
          rw [mdStart_lf]
          simp only [resolveRec, hLF]
          constructor
          · rintro (hc | ⟨hc1, hc2⟩ | ⟨r, hr, _⟩)
            · cases hc
            · exact Or.inl (Or.inr (Or.inl ⟨hc1, hc2⟩))
            · cases hr
          · rintro ((hc | ⟨hc1, hc2⟩ | ⟨r, hr, _⟩) | ⟨_, hc⟩)
            · cases hc
            · exact Or.inr (Or.inl ⟨hc1, hc2⟩)
            · cases hr
            · exact absurd hc hne
        | cons t0 ts =>
          have hnlf2 : (lfName :: t0 :: ts) ≠ [lfName] := by simp
          have hnq : (lfName :: t0 :: ts) ≠ q ++ [n] := by
            intro hc
            apply hhead
            rw [← hc]
            rfl
          rw [mdStart_lf]
          simp only [hnlf2, false_and, false_or]
          constructor
          · rintro (hc | ⟨r, hr, hrmode⟩)
            · cases hc
            · rcases hB (t0 :: ts) lostFoundIno [lfName] r hsg.lf hr with
                ⟨r2, hr2, _, hmode2⟩ | ⟨_, hpath⟩
              · exact Or.inl (Or.inr ⟨r2, hr2, by rw [hmode2, hrmode]⟩)
              · exfalso
                apply hhead
                rw [← hpath]
                rfl
          · rintro ((hc | ⟨r, hr, hrmode⟩) | ⟨_, hc⟩)
            · cases hc
            · obtain ⟨r2, hr2, _, hmode2⟩ := hSIM (t0 :: ts)
                lostFoundIno r hr
              exact Or.inr ⟨r2, hr2, by rw [hmode2, hrmode]⟩
            · exact absurd hc.symm (by intro hc2; exact hnq hc2.symm)
      · have hh : (h0 :: tl).head? ≠ some lfName := by
          simp [hlf0]
        have hnlf2 : (h0 :: tl) ≠ [lfName] := by
          intro hc
          exact hlf0 (List.cons.injEq .. ▸ hc).1
        rw [mdStart_not_lf _ hh]
        simp only [hnlf2, false_and, false_or]
        constructor
        · rintro (hc | ⟨r, hr, hrmode⟩)
          · cases hc
          · rcases hB (h0 :: tl) rootIno [] r hsg.root hr with
              ⟨r2, hr2, _, hmode2⟩ | ⟨hru, hpath⟩
            · exact Or.inl (Or.inr ⟨r2, hr2, by rw [hmode2, hrmode]⟩)
            · subst hru
              rw [List.nil_append] at hpath
              rcases humode with ⟨hk, _⟩ | ⟨_, hm⟩
              · exact Or.inr ⟨hk, hpath⟩
              · rw [hm] at hrmode
                exact absurd hrmode.symm hmode_ne
        · rintro ((hc | ⟨r, hr, hrmode⟩) | ⟨hk, hpq⟩)
          · cases hc
          · obtain ⟨r2, hr2, _, hmode2⟩ := hSIM (h0 :: tl) rootIno r hr
            exact Or.inr ⟨r2, hr2, by rw [hmode2, hrmode]⟩
          · refine Or.inr ⟨u, by rw [hpq]; exact hreach_t, ?_⟩
            rcases humode with ⟨_, hm⟩ | ⟨hk2, _⟩
            · exact hm
            · rw [hk2] at hk
              cases hk
  · intro p
    rw [mdIsFile_iff, mdIsFile_iff]
    cases hp : p with
    | nil =>
      unfold mdStart
      simp [resolveRec]
    | cons h0 tl =>
      by_cases hlf0 : h0 = lfName
      · subst hlf0
        have hnq : (lfName :: tl) ≠ q ++ [n] := by
          intro hc
          apply hhead
          rw [← hc]
          rfl
        rw [mdStart_lf]
        constructor
        · rintro ⟨r, hr, hrmode⟩
          cases htl : tl with
          | nil =>
            subst htl
            cases hr
          | cons t0 ts =>
            subst htl
            rcases hB (t0 :: ts) lostFoundIno [lfName] r hsg.lf hr with
              ⟨r2, hr2, _, hmode2⟩ | ⟨_, hpath⟩
            · exact Or.inl ⟨r2, hr2, by rw [hmode2, hrmode]⟩
            · exfalso
              apply hhead
              rw [← hpath]
              rfl
        · rintro (⟨r, hr, hrmode⟩ | ⟨_, hc⟩)
          · obtain ⟨r2, hr2, _, hmode2⟩ := hSIM tl lostFoundIno r hr
            exact ⟨r2, hr2, by rw [hmode2, hrmode]⟩
          · exact absurd hc.symm (by intro hc2; exact hnq hc2.symm)
      · have hh : (h0 :: tl).head? ≠ some lfName := by
          simp [hlf0]
        rw [mdStart_not_lf _ hh]
        constructor
        · rintro ⟨r, hr, hrmode⟩
          rcases hB (h0 :: tl) rootIno [] r hsg.root hr with
            ⟨r2, hr2, _, hmode2⟩ | ⟨hru, hpath⟩
          · exact Or.inl ⟨r2, hr2, by rw [hmode2, hrmode]⟩
          · subst hru
            rw [List.nil_append] at hpath
            rcases humode with ⟨_, hm⟩ | ⟨hk, _⟩
            · rw [hm] at hrmode
              exact absurd hrmode hmode_ne
            · exact Or.inr ⟨hk, hpath⟩
        · rintro (⟨r, hr, hrmode⟩ | ⟨hk, hpq⟩)
          · obtain ⟨r2, hr2, _, hmode2⟩ := hSIM (h0 :: tl) rootIno r hr
            exact ⟨r2, hr2, by rw [hmode2, hrmode]⟩
          · refine ⟨u, by rw [hpq]; exact hreach_t, ?_⟩
            rcases humode with ⟨hk2, _⟩ | ⟨_, hm⟩
            · rw [hk2] at hk
              cases hk
            · exact hm

/-- How the lost+found injection's dentry update changes the abstract
hierarchy: lost+found itself becomes (or stays) a directory, and the
stringified-inode path under it becomes a file; nothing else changes. -/
theorem mdAbs_step_lf (sg : Nat → Option (List String × PKind))
    (s t : Store) (hd : DentOK sg s) (hsg : SigmaOK sg)
    (nm : String) (u : InodeRecord)
    (hsu : sg u.ino = some ([lfName, nm], PKind.file))
    (humode : u.mode = fileMode)
    (hnew : dentAt t lostFoundIno defaultFrag nm = some u)
    (hdiff : ∀ (x : Nat) (m : String), x ≠ lostFoundIno ∨ m ≠ nm →
      dentAt t x defaultFrag m = dentAt s x defaultFrag m)
    (hunder : ∀ m2 : String, dentAt s u.ino defaultFrag m2 = none)
    (hsim : ∀ (x : Nat) (m : String) (r : InodeRecord),
      dentAt s x defaultFrag m = some r →
      ∃ r2, dentAt t x defaultFrag m = some r2 ∧ r2.ino = r.ino ∧
        r2.mode = r.mode)
    (hLFt : (alistGet t.inodes lostFoundIno).isSome = true) :
    (∀ p, mdIsDir t p = true ↔
      (mdIsDir s p = true ∨ p = [lfName])) ∧
    (∀ p, mdIsFile t p = true ↔
      (mdIsFile s p = true ∨ p = [lfName, nm])) := by
  have hsulf : sg u.ino = some (([lfName] : List String) ++ [nm],
      PKind.file) := hsu
  have hB := resolveRec_newDent sg s t hd lostFoundIno nm [lfName] u
    PKind.file hsg.lf hsulf hnew hdiff hunder
  have hSIM := resolveRec_sim s t hsim
  have hmode_ne : dirMode ≠ fileMode := by decide
  constructor
  · intro p
    rw [mdIsDir_iff, mdIsDir_iff]
    cases hp : p with
    | nil => simp
    | cons h0 tl =>
      by_cases hlf0 : h0 = lfName
      · subst hlf0
        cases htl : tl with
        | nil =>
          constructor
          · intro _
            exact Or.inr rfl
          · intro _
            exact Or.inr (Or.inl ⟨rfl, hLFt⟩)
        | cons t0 ts =>
          have hnlf2 : (lfName :: t0 :: ts) ≠ [lfName] := by simp
          rw [mdStart_lf]
          simp only [hnlf2, false_and, false_or]
          constructor
          · rintro (hc | ⟨r, hr, hrmode⟩)
            · cases hc
            · rcases hB (t0 :: ts) lostFoundIno [lfName] r hsg.lf hr with
                ⟨r2, hr2, _, hmode2⟩ | ⟨hru, _⟩
              · exact Or.inl (Or.inr ⟨r2, hr2, by rw [hmode2, hrmode]⟩)
              · subst hru
                rw [humode] at hrmode
                exact absurd hrmode.symm hmode_ne
          · rintro ((hc | ⟨r, hr, hrmode⟩) | hc)
            · cases hc
            · obtain ⟨r2, hr2, _, hmode2⟩ := hSIM (t0 :: ts)
                lostFoundIno r hr
              exact Or.inr ⟨r2, hr2, by rw [hmode2, hrmode]⟩
            · exact hc.elim
      · have hh : (h0 :: tl).head? ≠ some lfName := by
          simp [hlf0]
        have hnlf2 : (h0 :: tl) ≠ [lfName] := by
          intro hc
          exact hlf0 (List.cons.injEq .. ▸ hc).1
        have hnlf3 : (h0 :: tl) ≠ [lfName] ++ [nm] := by
          intro hc
          exact hlf0 (List.cons.injEq .. ▸ hc).1
        rw [mdStart_not_lf _ hh]
        simp only [hnlf2, false_and, false_or]
        constructor
        · rintro (hc | ⟨r, hr, hrmode⟩)
          · cases hc
          · rcases hB (h0 :: tl) rootIno [] r hsg.root hr with
              ⟨r2, hr2, _, hmode2⟩ | ⟨_, hpath⟩
            · exact Or.inl (Or.inr ⟨r2, hr2, by rw [hmode2, hrmode]⟩)
            · rw [List.nil_append] at hpath
              exact absurd hpath hnlf3
        · rintro ((hc | ⟨r, hr, hrmode⟩) | hc)
          · cases hc
          · obtain ⟨r2, hr2, _, hmode2⟩ := hSIM (h0 :: tl) rootIno r hr
            exact Or.inr ⟨r2, hr2, by rw [hmode2, hrmode]⟩
          · exact hc.elim
  · intro p
    rw [mdIsFile_iff, mdIsFile_iff]
    cases hp : p with
    | nil =>
      unfold mdStart
      simp [resolveRec]
    | cons h0 tl =>
      by_cases hlf0 : h0 = lfName
      · subst hlf0
        rw [mdStart_lf]
        constructor
        · rintro ⟨r, hr, hrmode⟩
          cases htl : tl with
          | nil =>
            subst htl
            cases hr
          | cons t0 ts =>
            subst htl
            rcases hB (t0 :: ts) lostFoundIno [lfName] r hsg.lf hr with
              ⟨r2, hr2, _, hmode2⟩ | ⟨hru, hpath⟩
            · exact Or.inl ⟨r2, hr2, by rw [hmode2, hrmode]⟩
            · refine Or.inr ?_
              have : t0 :: ts = [nm] := by
                have h1 := List.cons.injEq .. ▸ hpath
                exact h1.2
              rw [this]
        · rintro (⟨r, hr, hrmode⟩ | hc)
          · obtain ⟨r2, hr2, _, hmode2⟩ := hSIM tl lostFoundIno r hr
            exact ⟨r2, hr2, by rw [hmode2, hrmode]⟩
          · have htl : tl = [nm] := (List.cons.injEq .. ▸ hc).2
            subst htl
            exact ⟨u, by simp [resolveRec, hnew], humode⟩
      · have hh : (h0 :: tl).head? ≠ some lfName := by
          simp [hlf0]
        have hnlf3 : (h0 :: tl) ≠ [lfName, nm] := by
          intro hc
          exact hlf0 (List.cons.injEq .. ▸ hc).1
        rw [mdStart_not_lf _ hh]
        constructor
        · rintro ⟨r, hr, hrmode⟩
          rcases hB (h0 :: tl) rootIno [] r hsg.root hr with
            ⟨r2, hr2, _, hmode2⟩ | ⟨_, hpath⟩
          · exact Or.inl ⟨r2, hr2, by rw [hmode2, hrmode]⟩
          · rw [List.nil_append] at hpath
            exact absurd hpath (by simpa using hnlf3)
        · rintro (⟨r, hr, hrmode⟩ | hc)
          · obtain ⟨r2, hr2, _, hmode2⟩ := hSIM (h0 :: tl) rootIno r hr
            exact ⟨r2, hr2, by rw [hmode2, hrmode]⟩
          · exact absurd hc hnlf3

theorem append_singleton_inj {α : Type} (l1 l2 : List α) (a b : α)
    (h : l1 ++ [a] = l2 ++ [b]) : l1 = l2 ∧ a = b := by
  have h2 : (l1 ++ [a]).reverse = (l2 ++ [b]).reverse := by rw [h]
  simp only [List.reverse_append, List.reverse_cons, List.reverse_nil,
    List.nil_append, List.cons_append, List.cons.injEq] at h2
  exact ⟨by
    have := h2.2
    have h3 : l1.reverse.reverse = l2.reverse.reverse := by
      rw [h2.2]
    simpa using h3, h2.1⟩

/-- If the dentry that should link a directory is still absent, the
directory has no dentries of its own yet (it was never linked, and by
connectivity dentries only live under linked directories). -/
theorem no_children_fresh (sg : Nat → Option (List String × PKind))
    (s : Store) (hsg : SigmaOK sg) (hd : DentOK sg s) (hconn : Conn s)
    (d : Nat) (n : String) (c : Nat) (q : List String)
    (hsd : sg d = some (q, PKind.dir))
    (hsc : sg c = some (q ++ [n], PKind.dir))
    (hhead : (q ++ [n]).head? ≠ some lfName)
    (habsent : dentAt s d defaultFrag n = none) :
    ∀ m2 : String, dentAt s c defaultFrag m2 = none := by
  intro m2
  cases hdent : dentAt s c defaultFrag m2 with
  | none => rfl
  | some r2 =>
    exfalso
    rcases hconn c m2 (by rw [hdent]; simp) with hroot | hlf | hwit
    · subst hroot
      rw [hsg.root] at hsc
      have h1 := (Prod.mk.injEq _ _ _ _ ▸ Option.some_inj.mp hsc).1
      exact absurd h1 (by simp)
    · subst hlf
      rw [hsg.lf] at hsc
      have h1 := (Prod.mk.injEq _ _ _ _ ▸ Option.some_inj.mp hsc).1
      apply hhead
      rw [← h1]
      rfl
    · obtain ⟨d2, n2, r3, hr3, hino3⟩ := hwit
      obtain ⟨p2, hp2, hkinds⟩ := hd d2 n2 r3 hr3
      have hsc2 : sg r3.ino = some (q ++ [n], PKind.dir) := by
        rw [hino3, hsc]
      rcases hkinds with ⟨_, hk⟩ | ⟨_, hk⟩
      · rw [hsc2] at hk
        have hpair := Option.some_inj.mp hk
        have hpq : p2 ++ [n2] = q ++ [n] :=
          ((Prod.mk.injEq _ _ _ _ ▸ hpair).1).symm
        obtain ⟨hp2q, hn2n⟩ := append_singleton_inj p2 q n2 n hpq
        subst hp2q
        subst hn2n
        have hd2d : d2 = d := hsg.inj d2 d p2 PKind.dir PKind.dir hp2 hsd
        subst hd2d
        rw [habsent] at hr3
        cases hr3
      · rw [hsc2] at hk
        have hpair := Option.some_inj.mp hk
        exact PKind.noConfusion (Prod.mk.injEq _ _ _ _ ▸ hpair).2

/-- Full effect of one failure-free ancestor-walk step on the invariant
and the abstract hierarchy. -/
theorem walkStep_abs (sg : Nat → Option (List String × PKind))
    (s : Store) (hsg : SigmaOK sg) (hd : DentOK sg s) (hconn : Conn s)
    (hnr : NoRootLf s)
    (d : Nat) (n : String) (c : Nat) (pool : Int) (q : List String)
    (hsd : sg d = some (q, PKind.dir))
    (hsc : sg c = some (q ++ [n], PKind.dir))
    (hhead : (q ++ [n]).head? ≠ some lfName)
    (hreach : (q = [] ∧ d = rootIno) ∨
      ∃ rr, resolveRec s rootIno q = some rr ∧ rr.ino = d) :
    DentOK sg (processAncestor noFail s d n c pool).2 ∧
      Conn (processAncestor noFail s d n c pool).2 ∧
      NoRootLf (processAncestor noFail s d n c pool).2 ∧
      (∀ p, mdIsDir (processAncestor noFail s d n c pool).2 p = true ↔
        (mdIsDir s p = true ∨ p = q ++ [n])) ∧
      (∀ p, mdIsFile (processAncestor noFail s d n c pool).2 p =
        mdIsFile s p) ∧
      (∃ rr, resolveRec (processAncestor noFail s d n c pool).2 rootIno
        (q ++ [n]) = some rr ∧ rr.ino = c) := by
  cases hdent : dentAt s d defaultFrag n with
  | some r0 =>
    -- the dentry already exists; the step is a no-op and the target is
    -- forced by the assignment
    have hr0 : r0.ino = c ∧ r0.mode = dirMode := by
      obtain ⟨pd, hpd, hkinds⟩ := hd d n r0 hdent
      have hpdq : pd = q := by
        rw [hsd] at hpd
        exact ((Prod.mk.injEq _ _ _ _ ▸ Option.some_inj.mp hpd).1).symm
      subst hpdq
      rcases hkinds with ⟨hm, hk⟩ | ⟨hm, hk⟩
      · exact ⟨hsg.inj r0.ino c (pd ++ [n]) PKind.dir PKind.dir hk hsc, hm⟩
      · exfalso
        have hcr : r0.ino = c :=
          hsg.inj r0.ino c (pd ++ [n]) PKind.file PKind.dir hk hsc
        rw [hcr, hsc] at hk
        exact PKind.noConfusion (Prod.mk.injEq _ _ _ _ ▸
          Option.some_inj.mp hk).2
    have hnoop : processAncestor noFail s d n c pool = (0, s) := by
      apply processAncestor_noop
      · intro hc
        unfold dentAt at hdent
        rw [hc] at hdent
        cases hdent
      · intro hc
        rw [hdent] at hc
        cases hc
    rw [hnoop]
    have hres : resolveRec s rootIno (q ++ [n]) = some r0 :=
      resolveRec_append s q rootIno d n r0 hreach hdent
    have hmd : mdIsDir s (q ++ [n]) = true := by
      rw [mdIsDir_iff]
      refine Or.inr (Or.inr ?_)
      rw [mdStart_not_lf _ hhead]
      exact ⟨r0, hres, hr0.2⟩
    refine ⟨hd, hconn, hnr, ?_, fun p => rfl, ⟨r0, hres, hr0.1⟩⟩
    intro p
    constructor
    · exact fun h => Or.inl h
    · rintro (h | h)
      · exact h
      · rw [h]
        exact hmd
  | none =>
    have hstep : processAncestor noFail s d n c pool =
        (0, setDent (setInode (if alistGet s.frags (d, defaultFrag) = none
          then createFrag s d else s) (unlinkedRecord c dirMode pool))
          d n (unlinkedRecord c dirMode pool)) := by
      rw [processAncestor_eq]
      simp only [noFail, Bool.false_eq_true, if_false]
      have h1 : dentAt (if alistGet s.frags (d, defaultFrag) = none
          then createFrag s d else s) d defaultFrag n = none := by
        rw [dentAt_condCreate]
        exact hdent
      simp only [h1]
    rw [hstep]
    simp only
    set u := unlinkedRecord c dirMode pool with hu
    set t := setDent (setInode (if alistGet s.frags (d, defaultFrag) = none
      then createFrag s d else s) u) d n u with ht
    have huino : u.ino = c := rfl
    have humode : u.mode = dirMode := rfl
    have hsu : sg u.ino = some (q ++ [n], PKind.dir) := by
      rw [huino]
      exact hsc
    have hnew : dentAt t d defaultFrag n = some u :=
      dentAt_setDent_self _ _ _ _
    have hdiff : ∀ (x : Nat) (m : String), x ≠ d ∨ m ≠ n →
        dentAt t x defaultFrag m = dentAt s x defaultFrag m := by
      intro x m hxm
      rw [ht, dentAt_setDent_ne _ _ _ _ _ _ hxm, dentAt_setInode,
        dentAt_condCreate]
    have hunder : ∀ m2 : String, dentAt s u.ino defaultFrag m2 = none := by
      rw [huino]
      exact no_children_fresh sg s hsg hd hconn d n c q hsd hsc hhead hdent
    have hwitness : d = rootIno ∨ d = lostFoundIno ∨
        ∃ (d2 : Nat) (n2 : String) (r2 : InodeRecord),
          dentAt s d2 defaultFrag n2 = some r2 ∧ r2.ino = d := by
      rcases hreach with ⟨_, hdr⟩ | ⟨rr, hrr, hrino⟩
      · exact Or.inl hdr
      · obtain ⟨x, m, hxm⟩ := resolveRec_final s q rootIno rr hrr
        exact Or.inr (Or.inr ⟨x, m, rr, hxm, hrino⟩)
    have hnlf : d = rootIno → n ≠ lfName := by
      intro hdr hn
      apply hhead
      rw [hdr, hsg.root] at hsd
      have hq : q = [] :=
        ((Prod.mk.injEq _ _ _ _ ▸ Option.some_inj.mp hsd).1).symm
      rw [hq, hn]
      rfl
    obtain ⟨hd2, hconn2, hnr2, hsim⟩ := mdStepCore sg s t hd hconn hnr
      d n q u PKind.dir hsd hsu (Or.inl ⟨rfl, humode⟩) hnew hdiff
      (Or.inl hdent) hwitness hnlf
    have hLF : (alistGet t.inodes lostFoundIno).isSome =
        (alistGet s.inodes lostFoundIno).isSome := by
      have hclf : c ≠ lostFoundIno := by
        intro hc
        rw [hc, hsg.lf] at hsc
        have h1 := (Prod.mk.injEq _ _ _ _ ▸ Option.some_inj.mp hsc).1
        apply hhead
        rw [← h1]
        rfl
      rw [ht, inodes_setDent]
      unfold setInode
      simp only
      rw [inodes_condCreate]
      have : (unlinkedRecord c dirMode pool).ino = c := rfl
      rw [this, alistGet_set_ne _ _ _ _ (fun h2 => hclf h2.symm)]
    obtain ⟨hdirs, hfiles⟩ := mdAbs_step_nonlf sg s t hd hsg d n q u
      PKind.dir hsd hsu (Or.inl ⟨rfl, humode⟩) hnew hdiff hunder hsim
      hLF hhead hreach
    refine ⟨hd2, hconn2, hnr2, ?_, ?_, ?_⟩
    · intro p
      rw [hdirs p]
      constructor
      · rintro (h | ⟨_, h⟩)
        · exact Or.inl h
        · exact Or.inr h
      · rintro (h | h)
        · exact Or.inl h
        · exact Or.inr ⟨rfl, h⟩
    · intro p
      apply boolEq_of_iff
      rw [hfiles p]
      constructor
      · rintro (h | ⟨hk, _⟩)
        · exact h
        · exact PKind.noConfusion hk
      · exact fun h => Or.inl h
    · refine ⟨u, ?_, huino⟩
      apply resolveRec_append t q rootIno d n u _ hnew
      rcases hreach with ⟨hq, hdr⟩ | ⟨rr, hrr, hrino⟩
      · exact Or.inl ⟨hq, hdr⟩
      · obtain ⟨rr2, hrr2, hino2, _⟩ := resolveRec_sim s t hsim q
          rootIno rr hrr
        exact Or.inr ⟨rr2, hrr2, by rw [hino2, hrino]⟩

/-- Full effect of the failure-free leaf step on the invariant and the
abstract hierarchy: only the leaf's file path is added. -/
theorem leafStep_abs (sg : Nat → Option (List String × PKind))
    (s : Store) (hsg : SigmaOK sg) (hd : DentOK sg s) (hconn : Conn s)
    (hnr : NoRootLf s)
    (d : Nat) (nm : String) (leaf : InodeRecord) (q : List String)
    (hlmode : leaf.mode = fileMode)
    (hsd : sg d = some (q, PKind.dir))
    (hsl : sg leaf.ino = some (q ++ [nm], PKind.file))
    (hhead : (q ++ [nm]).head? ≠ some lfName)
    (hreach : (q = [] ∧ d = rootIno) ∨
      ∃ rr, resolveRec s rootIno q = some rr ∧ rr.ino = d) :
    DentOK sg (injectLeaf noFail s d nm leaf).2 ∧
      Conn (injectLeaf noFail s d nm leaf).2 ∧
      NoRootLf (injectLeaf noFail s d nm leaf).2 ∧
      (∀ p, mdIsDir (injectLeaf noFail s d nm leaf).2 p = mdIsDir s p) ∧
      (∀ p, mdIsFile (injectLeaf noFail s d nm leaf).2 p = true ↔
        (mdIsFile s p = true ∨ p = q ++ [nm])) := by
  have hstep : injectLeaf noFail s d nm leaf =
      (0, setDent (setInode (if alistGet s.frags (d, defaultFrag) = none
        then createFrag s d else s) leaf) d nm leaf) := by
    rw [injectLeaf_eq]
    simp [noFail]
  rw [hstep]
  simp only
  set t := setDent (setInode (if alistGet s.frags (d, defaultFrag) = none
    then createFrag s d else s) leaf) d nm leaf with ht
  have hnew : dentAt t d defaultFrag nm = some leaf :=
    dentAt_setDent_self _ _ _ _
  have hdiff : ∀ (x : Nat) (m : String), x ≠ d ∨ m ≠ nm →
      dentAt t x defaultFrag m = dentAt s x defaultFrag m := by
    intro x m hxm
    rw [ht, dentAt_setDent_ne _ _ _ _ _ _ hxm, dentAt_setInode,
      dentAt_condCreate]
  have hold : dentAt s d defaultFrag nm = none ∨
      ∃ r0, dentAt s d defaultFrag nm = some r0 ∧ r0.ino = leaf.ino ∧
        r0.mode = leaf.mode := by
    cases hdent0 : dentAt s d defaultFrag nm with
    | none => exact Or.inl rfl
    | some r0 =>
      refine Or.inr ⟨r0, rfl, ?_⟩
      obtain ⟨pd, hpd, hkinds⟩ := hd d nm r0 hdent0
      have hpdq : pd = q := by
        rw [hsd] at hpd
        exact ((Prod.mk.injEq _ _ _ _ ▸ Option.some_inj.mp hpd).1).symm
      subst hpdq
      rcases hkinds with ⟨hm, hk⟩ | ⟨hm, hk⟩
      · exfalso
        have hio : r0.ino = leaf.ino :=
          hsg.inj r0.ino leaf.ino (pd ++ [nm]) PKind.dir PKind.file hk hsl
        rw [hio, hsl] at hk
        exact PKind.noConfusion (Prod.mk.injEq _ _ _ _ ▸
          Option.some_inj.mp hk).2
      · have hio : r0.ino = leaf.ino :=
          hsg.inj r0.ino leaf.ino (pd ++ [nm]) PKind.file PKind.file hk hsl
        exact ⟨hio, by rw [hm, hlmode]⟩
  have hunder : ∀ m2 : String, dentAt s leaf.ino defaultFrag m2 = none :=
    file_no_children sg s hd leaf.ino (q ++ [nm]) hsl
  have hwitness : d = rootIno ∨ d = lostFoundIno ∨
      ∃ (d2 : Nat) (n2 : String) (r2 : InodeRecord),
        dentAt s d2 defaultFrag n2 = some r2 ∧ r2.ino = d := by
    rcases hreach with ⟨_, hdr⟩ | ⟨rr, hrr, hrino⟩
    · exact Or.inl hdr
    · obtain ⟨x, m, hxm⟩ := resolveRec_final s q rootIno rr hrr
      exact Or.inr (Or.inr ⟨x, m, rr, hxm, hrino⟩)
  have hnlf : d = rootIno → nm ≠ lfName := by
    intro hdr hn
    apply hhead
    rw [hdr, hsg.root] at hsd
    have hq : q = [] :=
      ((Prod.mk.injEq _ _ _ _ ▸ Option.some_inj.mp hsd).1).symm
    rw [hq, hn]
    rfl
  obtain ⟨hd2, hconn2, hnr2, hsim⟩ := mdStepCore sg s t hd hconn hnr
    d nm q leaf PKind.file hsd hsl (Or.inr ⟨rfl, hlmode⟩) hnew hdiff
    hold hwitness hnlf
  have hLF : (alistGet t.inodes lostFoundIno).isSome =
      (alistGet s.inodes lostFoundIno).isSome := by
    have hllf : leaf.ino ≠ lostFoundIno := by
      intro hc
      rw [hc, hsg.lf] at hsl
      exact PKind.noConfusion (Prod.mk.injEq _ _ _ _ ▸
        Option.some_inj.mp hsl).2
    rw [ht, inodes_setDent]
    unfold setInode
    simp only
    rw [inodes_condCreate]
    rw [alistGet_set_ne _ _ _ _ (fun h2 => hllf h2.symm)]
  obtain ⟨hdirs, hfiles⟩ := mdAbs_step_nonlf sg s t hd hsg d nm q leaf
    PKind.file hsd hsl (Or.inr ⟨rfl, hlmode⟩) hnew hdiff hunder hsim
    hLF hhead hreach
  refine ⟨hd2, hconn2, hnr2, ?_, ?_⟩
  · intro p
    apply boolEq_of_iff
    rw [hdirs p]
    constructor
    · rintro (h | ⟨hk, _⟩)
      · exact h
      · exact PKind.noConfusion hk
    · exact fun h => Or.inl h
  · intro p
    rw [hfiles p]
    constructor
    · rintro (h | ⟨_, h⟩)
      · exact Or.inl h
      · exact Or.inr h
    · rintro (h | h)
      · exact Or.inl h
      · exact Or.inr ⟨rfl, h⟩

/-- Interior directory paths written by the ancestor walk of a chain,
relative to an accumulated path prefix. -/
def wpaths : List String → List Backpointer → List (List String)
  | _, [] => []
  | _, [_] => []
  | q, b :: b2 :: rest =>
    (q ++ [b.dname]) :: wpaths (q ++ [b.dname]) (b2 :: rest)

theorem wpaths_eq : ∀ (bs : List Backpointer) (q : List String),
    wpaths q bs = (ancPaths (bs.map Backpointer.dname)).map
      (fun p => q ++ p) := by
  intro bs
  induction bs with
  | nil => intro q; simp [wpaths, ancPaths]
  | cons b rest ih =>
    intro q
    cases rest with
    | nil => simp [wpaths, ancPaths]
    | cons b2 rest2 =>
      have hwp : wpaths q (b :: b2 :: rest2) =
          (q ++ [b.dname]) :: wpaths (q ++ [b.dname]) (b2 :: rest2) := rfl
      rw [hwp, ih (q ++ [b.dname])]
      have hap : ancPaths ((b :: b2 :: rest2).map Backpointer.dname) =
          [b.dname] :: (ancPaths ((b2 :: rest2).map Backpointer.dname)).map
            (fun p => b.dname :: p) := rfl
      rw [hap]
      simp only [List.map_cons, List.map_map]
      congr 1
      apply List.map_congr_left
      intro p _
      simp [Function.comp]

/-- The combined ancestor walk and leaf link of one backtrace, as a
single recursion over the outermost-first ancestor list. -/
def runWalkLeaf (pool : Int) (leaf : InodeRecord) :
    Store → List Backpointer → Store
  | s, [] => s
  | s, [b] => (injectLeaf noFail s b.dirino b.dname leaf).2
  | s, b :: b2 :: rest =>
    runWalkLeaf pool leaf
      (processAncestor noFail s b.dirino b.dname b2.dirino pool).2
      (b2 :: rest)

theorem runWalkLeaf_eq (pool : Int) (leaf : InodeRecord) :
    ∀ (bs : List Backpointer) (s : Store) (b0 : Backpointer),
      bs.getLast? = some b0 →
      runWalkLeaf pool leaf s bs =
        (injectLeaf noFail (injectChain noFail pool s (pairify bs)).2
          b0.dirino b0.dname leaf).2 := by
  intro bs
  induction bs with
  | nil => intro s b0 h; cases h
  | cons b rest ih =>
    intro s b0 h
    cases rest with
    | nil =>
      have hb : b0 = b := by
        rw [List.getLast?_singleton] at h
        exact (Option.some_inj.mp h).symm
      subst hb
      show (injectLeaf noFail s b0.dirino b0.dname leaf).2 = _
      have hch : injectChain noFail pool s (pairify [b0]) = (0, s) := rfl
      rw [hch]
    | cons b2 rest2 =>
      have h2 : (b2 :: rest2).getLast? = some b0 := by
        rwa [List.getLast?_cons_cons] at h
      have hr := processAncestor_ret s b.dirino b.dname b2.dirino pool
      show runWalkLeaf pool leaf
        (processAncestor noFail s b.dirino b.dname b2.dirino pool).2
        (b2 :: rest2) = _
      rw [ih _ b0 h2]
      have hch : injectChain noFail pool s (pairify (b :: b2 :: rest2)) =
          injectChain noFail pool
            (processAncestor noFail s b.dirino b.dname b2.dirino pool).2
            (pairify (b2 :: rest2)) := by
        cases hpa : processAncestor noFail s b.dirino b.dname b2.dirino
            pool with
        | mk r s1 =>
          have hr0 : r = 0 := by rw [hpa] at hr; exact hr
          subst hr0
          show injectChain noFail pool s
            ((b, b2.dirino) :: pairify (b2 :: rest2)) = _
          simp [injectChain, hpa]
      rw [hch]

/-- Convert path-level reachability to inode-level reachability, using
the assignment's injectivity. -/
theorem reachD (sg : Nat → Option (List String × PKind)) (hsg : SigmaOK sg)
    (s : Store) (q : List String) (d : Nat)
    (hsd : sg d = some (q, PKind.dir))
    (hreach : q = [] ∨ ∃ rr, resolveRec s rootIno q = some rr ∧
      sg rr.ino = some (q, PKind.dir)) :
    (q = [] ∧ d = rootIno) ∨
      ∃ rr, resolveRec s rootIno q = some rr ∧ rr.ino = d := by
  rcases hreach with hq | ⟨rr, hrr, hsr⟩
  · subst hq
    exact Or.inl ⟨rfl, hsg.inj d rootIno [] PKind.dir PKind.dir hsd
      hsg.root⟩
  · exact Or.inr ⟨rr, hrr, hsg.inj rr.ino d q PKind.dir PKind.dir hsr hsd⟩

theorem head_append_cons (q : List String) (a : String)
    (y z : List String) :
    (q ++ (a :: y)).head? = (q ++ (a :: z)).head? := by
  cases q <;> rfl

/-- Full effect of a failure-free backtrace run (ancestor walk plus leaf
link) on the invariant and the abstract hierarchy: the interior ancestor
paths become directories and the leaf path becomes a file. -/
theorem btRun_abs (sg : Nat → Option (List String × PKind))
    (pool : Int) (leaf : InodeRecord) (hlmode : leaf.mode = fileMode)
    (hsg : SigmaOK sg) :
    ∀ (bs : List Backpointer) (q : List String) (s : Store),
      DentOK sg s → Conn s → NoRootLf s →
      chainConsistent sg q bs →
      sg leaf.ino = some (q ++ bs.map Backpointer.dname, PKind.file) →
      (q ++ bs.map Backpointer.dname).head? ≠ some lfName →
      (q = [] ∨ ∃ rr, resolveRec s rootIno q = some rr ∧
        sg rr.ino = some (q, PKind.dir)) →
      bs ≠ [] →
      DentOK sg (runWalkLeaf pool leaf s bs) ∧
        Conn (runWalkLeaf pool leaf s bs) ∧
        NoRootLf (runWalkLeaf pool leaf s bs) ∧
        (∀ p, mdIsDir (runWalkLeaf pool leaf s bs) p = true ↔
          (mdIsDir s p = true ∨ p ∈ wpaths q bs)) ∧
        (∀ p, mdIsFile (runWalkLeaf pool leaf s bs) p = true ↔
          (mdIsFile s p = true ∨ p = q ++ bs.map Backpointer.dname)) := by
  intro bs
  induction bs with
  | nil => intro q s _ _ _ _ _ _ _ hne; exact absurd rfl hne
  | cons b rest ih =>
    intro q s hd hconn hnr hcc hsl hhead hreach _
    cases rest with
    | nil =>
      obtain ⟨hbd, -⟩ := hcc
      have hsl1 : sg leaf.ino = some (q ++ [b.dname], PKind.file) := by
        simpa using hsl
      have hhead1 : (q ++ [b.dname]).head? ≠ some lfName := by
        simpa using hhead
      have hre := reachD sg hsg s q b.dirino hbd hreach
      obtain ⟨hd2, hc2, hn2, hdirs, hfiles⟩ :=
        leafStep_abs sg s hsg hd hconn hnr b.dirino b.dname leaf q
          hlmode hbd hsl1 hhead1 hre
      refine ⟨hd2, hc2, hn2, ?_, ?_⟩
      · intro p
        show mdIsDir (injectLeaf noFail s b.dirino b.dname leaf).2 p =
          true ↔ _
        rw [hdirs p]
        simp [wpaths]
      · intro p
        show mdIsFile (injectLeaf noFail s b.dirino b.dname leaf).2 p =
          true ↔ _
        rw [hfiles p]
        simp
    | cons b2 rest2 =>
      obtain ⟨hbd, hcc2⟩ := hcc
      have hb2 : sg b2.dirino = some (q ++ [b.dname], PKind.dir) := hcc2.1
      have hps : (q ++ [b.dname]) ++ (b2 :: rest2).map Backpointer.dname =
          q ++ (b :: b2 :: rest2).map Backpointer.dname := by
        simp
      have hslr : sg leaf.ino = some ((q ++ [b.dname]) ++
          (b2 :: rest2).map Backpointer.dname, PKind.file) := by
        rw [hps]
        exact hsl
      have hheadstep : (q ++ [b.dname]).head? ≠ some lfName := by
        rw [show q ++ [b.dname] = q ++ (b.dname :: ([] : List String))
            from rfl,
          head_append_cons q b.dname []
            ((b2 :: rest2).map Backpointer.dname)]
        simpa using hhead
      have hheadr : ((q ++ [b.dname]) ++
          (b2 :: rest2).map Backpointer.dname).head? ≠ some lfName := by
        rw [hps]
        exact hhead
      have hre := reachD sg hsg s q b.dirino hbd hreach
      obtain ⟨hd1, hc1, hn1, hdirs1, hfiles1, rr, hres, hrc⟩ :=
        walkStep_abs sg s hsg hd hconn hnr b.dirino b.dname b2.dirino
          pool q hbd hb2 hheadstep hre
      have hreach2 : (q ++ [b.dname]) = [] ∨
          ∃ rr2, resolveRec
            (processAncestor noFail s b.dirino b.dname b2.dirino pool).2
            rootIno (q ++ [b.dname]) = some rr2 ∧
            sg rr2.ino = some (q ++ [b.dname], PKind.dir) := by
        refine Or.inr ⟨rr, hres, ?_⟩
        rw [hrc]
        exact hb2
      obtain ⟨hdF, hcF, hnF, hdirsF, hfilesF⟩ :=
        ih (q ++ [b.dname])
          (processAncestor noFail s b.dirino b.dname b2.dirino pool).2
          hd1 hc1 hn1 hcc2 hslr hheadr hreach2 (by simp)
      have hrw : runWalkLeaf pool leaf s (b :: b2 :: rest2) =
          runWalkLeaf pool leaf
            (processAncestor noFail s b.dirino b.dname b2.dirino pool).2
            (b2 :: rest2) := rfl
      rw [hrw]
      refine ⟨hdF, hcF, hnF, ?_, ?_⟩
      · intro p
        rw [hdirsF p, hdirs1 p]
        have hwp : wpaths q (b :: b2 :: rest2) =
            (q ++ [b.dname]) :: wpaths (q ++ [b.dname]) (b2 :: rest2) :=
          rfl
        rw [hwp, List.mem_cons]
        tauto
      · intro p
        rw [hfilesF p, hfiles1 p, hps]

theorem inject_bt_eq (s : Store) (b : Backtrace) (size : Nat)
    (mtime : Int) (chunk : Nat) (pool : Int) (a0 : Backpointer)
    (rest : List Backpointer) (hanc : b.ancestors = a0 :: rest) :
    (inject_with_backtrace noFail s b size mtime chunk pool).2 =
      runWalkLeaf pool (leafRecord b.ino size mtime chunk pool) s
        b.ancestors.reverse := by
  cases hc : injectChain noFail pool s (mkChain (a0 :: rest)) with
  | mk r s1 =>
    have hr : r = 0 := by
      have h0 := injectChain_ret pool (mkChain (a0 :: rest)) s
      rw [hc] at h0
      exact h0
    subst hr
    have hstep : inject_with_backtrace noFail s b size mtime chunk pool =
        injectLeaf noFail s1 a0.dirino a0.dname
          (leafRecord b.ino size mtime chunk pool) := by
      simp [inject_with_backtrace, hanc, hc]
    have hlast : b.ancestors.reverse.getLast? = some a0 := by
      rw [hanc, List.getLast?_reverse]
      rfl
    have hL := runWalkLeaf_eq pool (leafRecord b.ino size mtime chunk pool)
      b.ancestors.reverse s a0 hlast
    rw [hstep, hL]
    have hmk : pairify b.ancestors.reverse = mkChain (a0 :: rest) := by
      rw [hanc]
      rfl
    rw [hmk, hc]

/-- Effect of one consistent backtrace fact on the metadata backend: the
invariant is preserved, the backtrace's proper ancestor paths become
directories, and its full path becomes a file. -/
theorem btFact_abs (sg : Nat → Option (List String × PKind))
    (hsg : SigmaOK sg) (s : Store) (b : Backtrace) (size : Nat)
    (mtime : Int) (chunk : Nat) (pool : Int)
    (hd : DentOK sg s) (hconn : Conn s) (hnr : NoRootLf s)
    (hok : factOK sg (RFact.bt b size mtime chunk pool)) :
    DentOK sg (runMDFact s (RFact.bt b size mtime chunk pool)) ∧
      Conn (runMDFact s (RFact.bt b size mtime chunk pool)) ∧
      NoRootLf (runMDFact s (RFact.bt b size mtime chunk pool)) ∧
      (∀ p, mdIsDir (runMDFact s (RFact.bt b size mtime chunk pool)) p =
        true ↔ (mdIsDir s p = true ∨ p ∈ ancPaths (pathOfBt b))) ∧
      (∀ p, mdIsFile (runMDFact s (RFact.bt b size mtime chunk pool)) p =
        true ↔ (mdIsFile s p = true ∨ p = pathOfBt b)) := by
  obtain ⟨hne, hheadok, hcc, hsl⟩ := hok
  cases hanc : b.ancestors with
  | nil => exact absurd hanc hne
  | cons a0 rest =>
    have heq : runMDFact s (RFact.bt b size mtime chunk pool) =
        runWalkLeaf pool (leafRecord b.ino size mtime chunk pool) s
          b.ancestors.reverse := by
      show (inject_with_backtrace noFail s b size mtime chunk pool).2 = _
      exact inject_bt_eq s b size mtime chunk pool a0 rest hanc
    have hsl2 : sg (leafRecord b.ino size mtime chunk pool).ino =
        some (([] : List String) ++
          b.ancestors.reverse.map Backpointer.dname, PKind.file) := by
      show sg b.ino = _
      rw [List.nil_append]
      exact hsl
    have hhead2 : (([] : List String) ++
        b.ancestors.reverse.map Backpointer.dname).head? ≠ some lfName := by
      rw [List.nil_append]
      exact hheadok
    have hne2 : b.ancestors.reverse ≠ [] := by
      rw [hanc]
      simp
    obtain ⟨h1, h2, h3, h4, h5⟩ :=
      btRun_abs sg pool (leafRecord b.ino size mtime chunk pool) rfl hsg
        b.ancestors.reverse [] s hd hconn hnr hcc hsl2 hhead2
        (Or.inl rfl) hne2
    rw [heq]
    refine ⟨h1, h2, h3, ?_, ?_⟩
    · intro p
      rw [h4 p, wpaths_eq]
      have hmap : (ancPaths (b.ancestors.reverse.map
          Backpointer.dname)).map (fun p => ([] : List String) ++ p) =
          ancPaths (pathOfBt b) := by
        simp [pathOfBt]
      rw [hmap]
    · intro p
      rw [h5 p, List.nil_append]
      rfl

theorem resolveRec_congr (s1 s2 : Store)
    (h : ∀ (x : Nat) (m : String),
      dentAt s1 x defaultFrag m = dentAt s2 x defaultFrag m) :
    ∀ (p : List String) (i : Nat), resolveRec s1 i p = resolveRec s2 i p := by
  intro p
  induction p with
  | nil => intro i; rfl
  | cons n rest ih =>
    intro i
    simp only [resolveRec, h i n]
    cases hdent : dentAt s2 i defaultFrag n with
    | none => rfl
    | some r =>
      by_cases hr : rest.isEmpty
      · simp [hr]
      · simp [hr, ih r.ino]

/-- A pre-existing dentry at the spot where a file leaf is about to be
written is forced by the assignment to carry the same inode and mode. -/
theorem forced_overwrite (sg : Nat → Option (List String × PKind))
    (hsg : SigmaOK sg) (s : Store) (hd : DentOK sg s)
    (d : Nat) (nm : String) (leaf : InodeRecord) (q : List String)
    (hlmode : leaf.mode = fileMode)
    (hsd : sg d = some (q, PKind.dir))
    (hsl : sg leaf.ino = some (q ++ [nm], PKind.file)) :
    dentAt s d defaultFrag nm = none ∨
      ∃ r0, dentAt s d defaultFrag nm = some r0 ∧ r0.ino = leaf.ino ∧
        r0.mode = leaf.mode := by
  cases hdent0 : dentAt s d defaultFrag nm with
  | none => exact Or.inl rfl
  | some r0 =>
    refine Or.inr ⟨r0, rfl, ?_⟩
    obtain ⟨pd, hpd, hkinds⟩ := hd d nm r0 hdent0
    have hpdq : pd = q := by
      rw [hsd] at hpd
      exact ((Prod.mk.injEq _ _ _ _ ▸ Option.some_inj.mp hpd).1).symm
    subst hpdq
    rcases hkinds with ⟨hm, hk⟩ | ⟨hm, hk⟩
    · exfalso
      have hio : r0.ino = leaf.ino :=
        hsg.inj r0.ino leaf.ino (pd ++ [nm]) PKind.dir PKind.file hk hsl
      rw [hio, hsl] at hk
      exact PKind.noConfusion (Prod.mk.injEq _ _ _ _ ▸
        Option.some_inj.mp hk).2
    · have hio : r0.ino = leaf.ino :=
        hsg.inj r0.ino leaf.ino (pd ++ [nm]) PKind.file PKind.file hk hsl
      exact ⟨hio, by rw [hm, hlmode]⟩

/-- Effect of the failure-free lost+found leaf step (from a state that
already holds the lost+found inode object): the stringified-inode path
under lost+found becomes a file, and lost+found itself reads as a
directory. -/
theorem lfLeafStep_abs (sg : Nat → Option (List String × PKind))
    (hsg : SigmaOK sg) (s1 : Store) (ino size : Nat) (mtime : Int)
    (chunk : Nat) (pool : Int)
    (hd1 : DentOK sg s1) (hconn1 : Conn s1) (hnr1 : NoRootLf s1)
    (hLF1 : (alistGet s1.inodes lostFoundIno).isSome = true)
    (hok : sg ino = some ([lfName, Nat.repr ino], PKind.file)) :
    DentOK sg (injectLeaf noFail s1 lostFoundIno (Nat.repr ino)
        (leafRecord ino size mtime chunk pool)).2 ∧
      Conn (injectLeaf noFail s1 lostFoundIno (Nat.repr ino)
        (leafRecord ino size mtime chunk pool)).2 ∧
      NoRootLf (injectLeaf noFail s1 lostFoundIno (Nat.repr ino)
        (leafRecord ino size mtime chunk pool)).2 ∧
      (∀ p, mdIsDir (injectLeaf noFail s1 lostFoundIno (Nat.repr ino)
          (leafRecord ino size mtime chunk pool)).2 p = true ↔
        (mdIsDir s1 p = true ∨ p = [lfName])) ∧
      (∀ p, mdIsFile (injectLeaf noFail s1 lostFoundIno (Nat.repr ino)
          (leafRecord ino size mtime chunk pool)).2 p = true ↔
        (mdIsFile s1 p = true ∨ p = [lfName, Nat.repr ino])) := by
  have hsl : sg (leafRecord ino size mtime chunk pool).ino =
      some (([lfName] : List String) ++ [Nat.repr ino], PKind.file) := hok
  have hstep : injectLeaf noFail s1 lostFoundIno (Nat.repr ino)
      (leafRecord ino size mtime chunk pool) =
      (0, setDent (setInode (if alistGet s1.frags
          (lostFoundIno, defaultFrag) = none
        then createFrag s1 lostFoundIno else s1)
        (leafRecord ino size mtime chunk pool))
        lostFoundIno (Nat.repr ino)
        (leafRecord ino size mtime chunk pool)) := by
    rw [injectLeaf_eq]
    simp [noFail]
  rw [hstep]
  simp only
  set leaf := leafRecord ino size mtime chunk pool with hleaf
  set t := setDent (setInode (if alistGet s1.frags
      (lostFoundIno, defaultFrag) = none
    then createFrag s1 lostFoundIno else s1) leaf)
    lostFoundIno (Nat.repr ino) leaf with ht
  have hnew : dentAt t lostFoundIno defaultFrag (Nat.repr ino) =
      some leaf := dentAt_setDent_self _ _ _ _
  have hdiff : ∀ (x : Nat) (m : String),
      x ≠ lostFoundIno ∨ m ≠ Nat.repr ino →
      dentAt t x defaultFrag m = dentAt s1 x defaultFrag m := by
    intro x m hxm
    rw [ht, dentAt_setDent_ne _ _ _ _ _ _ hxm, dentAt_setInode,
      dentAt_condCreate]
  have hold := forced_overwrite sg hsg s1 hd1 lostFoundIno (Nat.repr ino)
    leaf [lfName] rfl hsg.lf hsl
  have hunder : ∀ m2 : String,
      dentAt s1 leaf.ino defaultFrag m2 = none :=
    file_no_children sg s1 hd1 leaf.ino ([lfName] ++ [Nat.repr ino]) hsl
  have hwitness : lostFoundIno = rootIno ∨ lostFoundIno = lostFoundIno ∨
      ∃ (d2 : Nat) (n2 : String) (r2 : InodeRecord),
        dentAt s1 d2 defaultFrag n2 = some r2 ∧ r2.ino = lostFoundIno :=
    Or.inr (Or.inl rfl)
  have hnlf : lostFoundIno = rootIno → Nat.repr ino ≠ lfName :=
    fun h => absurd h (by decide)
  obtain ⟨hd2, hc2, hn2, hsim⟩ := mdStepCore sg s1 t hd1 hconn1 hnr1
    lostFoundIno (Nat.repr ino) [lfName] leaf PKind.file hsg.lf hsl
    (Or.inr ⟨rfl, rfl⟩) hnew hdiff hold hwitness hnlf
  have hinoLF : leaf.ino ≠ lostFoundIno := by
    intro hc
    rw [hc, hsg.lf] at hsl
    exact PKind.noConfusion (Prod.mk.injEq _ _ _ _ ▸
      Option.some_inj.mp hsl).2
  have hLFt : (alistGet t.inodes lostFoundIno).isSome = true := by
    rw [ht, inodes_setDent]
    unfold setInode
    simp only
    rw [inodes_condCreate]
    rw [alistGet_set_ne _ _ _ _ (fun h2 => hinoLF h2.symm)]
    exact hLF1
  obtain ⟨hdirsT, hfilesT⟩ := mdAbs_step_lf sg s1 t hd1 hsg
    (Nat.repr ino) leaf hok rfl hnew hdiff hunder hsim hLFt
  exact ⟨hd2, hc2, hn2, hdirsT, hfilesT⟩

/-- Effect of one consistent lost+found fact on the metadata backend:
the invariant is preserved, lost+found reads as a directory, and the
stringified-inode path under it becomes a file. -/
theorem lfFact_abs (sg : Nat → Option (List String × PKind))
    (hsg : SigmaOK sg) (s : Store) (ino size : Nat) (mtime : Int)
    (chunk : Nat) (pool : Int)
    (hd : DentOK sg s) (hconn : Conn s) (hnr : NoRootLf s)
    (hok : factOK sg (RFact.lf ino size mtime chunk pool)) :
    DentOK sg (runMDFact s (RFact.lf ino size mtime chunk pool)) ∧
      Conn (runMDFact s (RFact.lf ino size mtime chunk pool)) ∧
      NoRootLf (runMDFact s (RFact.lf ino size mtime chunk pool)) ∧
      (∀ p, mdIsDir (runMDFact s (RFact.lf ino size mtime chunk pool)) p =
        true ↔ (mdIsDir s p = true ∨ p = [lfName])) ∧
      (∀ p, mdIsFile (runMDFact s (RFact.lf ino size mtime chunk pool)) p =
        true ↔ (mdIsFile s p = true ∨ p = [lfName, Nat.repr ino])) := by
  have hok2 : sg ino = some ([lfName, Nat.repr ino], PKind.file) := hok
  by_cases hex : (alistGet s.inodes lostFoundIno).isSome = true
  · have hstep : runMDFact s (RFact.lf ino size mtime chunk pool) =
        (injectLeaf noFail s lostFoundIno (Nat.repr ino)
          (leafRecord ino size mtime chunk pool)).2 := by
      show (inject_lost_and_found noFail s ino size mtime chunk pool).2 = _
      simp [inject_lost_and_found, root_exists, hex, retOK, noFail]
    rw [hstep]
    exact lfLeafStep_abs sg hsg s ino size mtime chunk pool hd hconn hnr
      hex hok2
  · have hstep : runMDFact s (RFact.lf ino size mtime chunk pool) =
        (injectLeaf noFail (setInode s (unlinkedRecord lostFoundIno
          dirMode pool)) lostFoundIno (Nat.repr ino)
          (leafRecord ino size mtime chunk pool)).2 := by
      show (inject_lost_and_found noFail s ino size mtime chunk pool).2 = _
      simp [inject_lost_and_found, root_exists, hex, retOK, noFail,
        inject_unlinked_inode]
    rw [hstep]
    set s1 := setInode s (unlinkedRecord lostFoundIno dirMode pool)
      with hs1
    have hdent1 : ∀ (x : Nat) (m : String),
        dentAt s1 x defaultFrag m = dentAt s x defaultFrag m := by
      intro x m
      rw [hs1, dentAt_setInode]
    have hd1 : DentOK sg s1 := by
      intro d n r h
      rw [hdent1] at h
      exact hd d n r h
    have hconn1 : Conn s1 := by
      intro d n hne
      rw [hdent1] at hne
      rcases hconn d n hne with h | h | ⟨d2, n2, r2, hr2, hi⟩
      · exact Or.inl h
      · exact Or.inr (Or.inl h)
      · exact Or.inr (Or.inr ⟨d2, n2, r2, by rw [hdent1]; exact hr2, hi⟩)
    have hnr1 : NoRootLf s1 := by
      unfold NoRootLf
      rw [hdent1]
      exact hnr
    have hLF1 : (alistGet s1.inodes lostFoundIno).isSome = true := by
      rw [hs1]
      exact inodes_isSome_setInode_self s _
    obtain ⟨hd2, hc2, hn2, hdirsT, hfilesT⟩ :=
      lfLeafStep_abs sg hsg s1 ino size mtime chunk pool hd1 hconn1 hnr1
        hLF1 hok2
    have hres : ∀ (p : List String) (i : Nat),
        resolveRec s1 i p = resolveRec s i p :=
      resolveRec_congr s1 s hdent1
    have hfile1 : ∀ p, mdIsFile s1 p = mdIsFile s p := by
      intro p
      unfold mdIsFile
      rw [hres]
    refine ⟨hd2, hc2, hn2, ?_, ?_⟩
    · intro p
      rw [hdirsT p, mdIsDir_iff, mdIsDir_iff, hres]
      constructor
      · rintro ((h | ⟨hp, _⟩ | h) | hp)
        · exact Or.inl (Or.inl h)
        · exact Or.inr hp
        · exact Or.inl (Or.inr (Or.inr h))
        · exact Or.inr hp
      · rintro ((h | ⟨hp, _⟩ | h) | hp)
        · exact Or.inl (Or.inl h)
        · exact Or.inr hp
        · exact Or.inl (Or.inr (Or.inr h))
        · exact Or.inr hp
    · intro p
      rw [hfilesT p, hfile1 p]

theorem memB_addPath (ds : List (List String)) (p0 p : List String) :
    memB (addPath ds p0) p = true ↔ (memB ds p = true ∨ p = p0) := by
  unfold addPath
  by_cases h : memB ds p0 = true
  · rw [if_pos h]
    constructor
    · exact fun hm => Or.inl hm
    · rintro (hm | rfl)
      · exact hm
      · exact h
  · rw [if_neg h, memB_iff, List.mem_append, List.mem_singleton,
      ← memB_iff]

theorem memB_addPaths : ∀ (ps ds : List (List String)) (p : List String),
    memB (addPaths ds ps) p = true ↔ (memB ds p = true ∨ p ∈ ps) := by
  intro ps
  induction ps with
  | nil => intro ds p; simp [addPaths]
  | cons p0 more ih =>
    intro ds p
    show memB (addPaths (addPath ds p0) more) p = true ↔ _
    rw [ih, memB_addPath, List.mem_cons]
    tauto

theorem isSome_alistSet {α β : Type} [DecidableEq α]
    (l : List (α × β)) (k : α) (v : β) (j : α) :
    (alistGet (alistSet l k v) j).isSome = true ↔
      ((alistGet l j).isSome = true ∨ j = k) := by
  by_cases h : j = k
  · subst h
    simp [alistGet_set_self]
  · rw [alistGet_set_ne _ _ _ _ h]
    simp [h]

/-- Effect of one backtrace fact on the local-file backend. -/
theorem localBtFact_abs (l : LocalFS) (b : Backtrace) (size : Nat)
    (mtime : Int) (chunk : Nat) (pool : Int) (a0 : Backpointer)
    (rest : List Backpointer) (hanc : b.ancestors = a0 :: rest) :
    (∀ p, localIsDir (runLFFact l (RFact.bt b size mtime chunk pool)) p =
      true ↔ (localIsDir l p = true ∨ p ∈ ancPaths (pathOfBt b))) ∧
    (∀ p, localIsFile (runLFFact l (RFact.bt b size mtime chunk pool)) p =
      true ↔ (localIsFile l p = true ∨ p = pathOfBt b)) := by
  have hstep : runLFFact l (RFact.bt b size mtime chunk pool) =
      ⟨addPaths l.dirs (ancPaths (pathOfBt b)),
        alistSet l.files (pathOfBt b) (size, mtime)⟩ := by
    show (local_inject_with_backtrace l b size mtime chunk pool).2 = _
    simp [local_inject_with_backtrace, hanc]
  rw [hstep]
  constructor
  · intro p
    unfold localIsDir
    simp only [Bool.or_eq_true, memB_addPaths]
    tauto
  · intro p
    unfold localIsFile
    rw [isSome_alistSet]

/-- Effect of one lost+found fact on the local-file backend. -/
theorem localLfFact_abs (l : LocalFS) (ino size : Nat) (mtime : Int)
    (chunk : Nat) (pool : Int) :
    (∀ p, localIsDir (runLFFact l (RFact.lf ino size mtime chunk pool)) p =
      true ↔ (localIsDir l p = true ∨ p = [lfName])) ∧
    (∀ p, localIsFile (runLFFact l (RFact.lf ino size mtime chunk
        pool)) p = true ↔
      (localIsFile l p = true ∨ p = [lfName, Nat.repr ino])) := by
  have hstep : runLFFact l (RFact.lf ino size mtime chunk pool) =
      ⟨addPath l.dirs [lfName],
        alistSet l.files [lfName, Nat.repr ino] (size, mtime)⟩ := rfl
  rw [hstep]
  constructor
  · intro p
    unfold localIsDir
    simp only [Bool.or_eq_true, memB_addPath]
    tauto
  · intro p
    unfold localIsFile
    rw [isSome_alistSet]

/-- One consistent fact keeps the two backends in lockstep. -/
theorem invC8_step (sg : Nat → Option (List String × PKind))
    (hsg : SigmaOK sg) (s : Store) (l : LocalFS) (f : RFact)
    (hinv : InvC8 sg s l) (hok : factOK sg f) :
    InvC8 sg (runMDFact s f) (runLFFact l f) := by
  obtain ⟨hd, hconn, hnr, hdirs, hfiles⟩ := hinv
  cases f with
  | bt b size mtime chunk pool =>
    obtain ⟨hdM, hcM, hnM, hdirsM, hfilesM⟩ :=
      btFact_abs sg hsg s b size mtime chunk pool hd hconn hnr hok
    cases hanc : b.ancestors with
    | nil => exact absurd hanc hok.1
    | cons a0 rest =>
      obtain ⟨hdirsL, hfilesL⟩ :=
        localBtFact_abs l b size mtime chunk pool a0 rest hanc
      refine ⟨hdM, hcM, hnM, ?_, ?_⟩
      · intro p
        apply boolEq_of_iff
        rw [hdirsL p, hdirsM p, hdirs p]
      · intro p
        apply boolEq_of_iff
        rw [hfilesL p, hfilesM p, hfiles p]
  | lf ino size mtime chunk pool =>
    obtain ⟨hdM, hcM, hnM, hdirsM, hfilesM⟩ :=
      lfFact_abs sg hsg s ino size mtime chunk pool hd hconn hnr hok
    obtain ⟨hdirsL, hfilesL⟩ :=
      localLfFact_abs l ino size mtime chunk pool
    refine ⟨hdM, hcM, hnM, ?_, ?_⟩
    · intro p
      apply boolEq_of_iff
      rw [hdirsL p, hdirsM p, hdirs p]
    · intro p
      apply boolEq_of_iff
      rw [hfilesL p, hfilesM p, hfiles p]

theorem invC8_run (sg : Nat → Option (List String × PKind))
    (hsg : SigmaOK sg) :
    ∀ (facts : List RFact) (s : Store) (l : LocalFS),
      InvC8 sg s l → (∀ f ∈ facts, factOK sg f) →
      InvC8 sg (runMD s facts) (runLF l facts) := by
  intro facts
  induction facts with
  | nil => intro s l hinv _; exact hinv
  | cons f more ih =>
    intro s l hinv hall
    show InvC8 sg (runMD (runMDFact s f) more)
      (runLF (runLFFact l f) more)
    exact ih _ _
      (invC8_step sg hsg s l f hinv (hall f (List.mem_cons_self f more)))
      (fun g hg => hall g (List.mem_cons_of_mem f hg))

theorem resolveRec_empty : ∀ (q : List String) (i : Nat),
    resolveRec ⟨[], []⟩ i q = none := by
  intro q i
  cases q with
  | nil => rfl
  | cons n rest =>
    have hdent : dentAt (⟨[], []⟩ : Store) i defaultFrag n = none := rfl
    simp [resolveRec, hdent]

/-- The two backends start out equivalent: both empty. -/
theorem invC8_empty (sg : Nat → Option (List String × PKind)) :
    InvC8 sg ⟨[], []⟩ ⟨[], []⟩ := by
  have hdent : ∀ (d : Nat) (n : String),
      dentAt (⟨[], []⟩ : Store) d defaultFrag n = none := fun d n => rfl
  refine ⟨?_, ?_, rfl, ?_, ?_⟩
  · intro d n r h
    rw [hdent] at h
    cases h
  · intro d n hne
    exact absurd (hdent d n) hne
  · intro p
    unfold localIsDir mdIsDir
    rw [resolveRec_empty]
    cases p <;> simp [memB]
  · intro p
    unfold localIsFile mdIsFile
    rw [resolveRec_empty]
    rfl

/-- C8 (amended): backend substitutability for consistent fact sequences.
For every sequence of input facts that is mutually consistent with one
injective ancestry assignment rooted at the filesystem root — each
backtrace nonempty, not claiming the reserved lost+found name at the top
level, walking directory paths as the assignment dictates, with its leaf
assigned the file role at its full path; each lost+found fact's inode
assigned its stringified-name path under lost+found — running the
sequence once against the metadata backend and once against the
local-file backend produces structurally equivalent hierarchies: every
component path reads as a directory in one exactly when it does in the
other, and likewise as a file. -/
theorem backend_substitutability
    (sg : Nat → Option (List String × PKind)) (facts : List RFact)
    (hsg : SigmaOK sg) (hfacts : ∀ f ∈ facts, factOK sg f) :
    ∀ p, localIsDir (runLF ⟨[], []⟩ facts) p =
        mdIsDir (runMD ⟨[], []⟩ facts) p ∧
      localIsFile (runLF ⟨[], []⟩ facts) p =
        mdIsFile (runMD ⟨[], []⟩ facts) p := by
  obtain ⟨-, -, -, hdirs, hfiles⟩ :=
    invC8_run sg hsg facts ⟨[], []⟩ ⟨[], []⟩ (invC8_empty sg) hfacts
  exact fun p => ⟨hdirs p, hfiles p⟩

/-- A concrete ancestry assignment for the witness scenario: directory
"d" is inode 5, file "d/f" is inode 10, orphan file 42 sits under
lost+found. -/
def sgW : Nat → Option (List String × PKind) := fun i =>
  if i = 1 then some ([], PKind.dir)
  else if i = 4 then some ([lfName], PKind.dir)
  else if i = 5 then some (["d"], PKind.dir)
  else if i = 10 then some (["d", "f"], PKind.file)
  else if i = 42 then some ([lfName, "42"], PKind.file)
  else none

/-- The witness fact sequence: one backtrace, one lost+found orphan. -/
def wfacts : List RFact :=
  [RFact.bt ⟨10, [⟨5, "f"⟩, ⟨1, "d"⟩]⟩ 100 7 4 2,
    RFact.lf 42 50 3 4 2]

theorem sgW_dom : ∀ (a : Nat) (p : List String) (k : PKind),
    sgW a = some (p, k) →
      (a = 1 ∧ p = []) ∨ (a = 4 ∧ p = [lfName]) ∨ (a = 5 ∧ p = ["d"]) ∨
        (a = 10 ∧ p = ["d", "f"]) ∨ (a = 42 ∧ p = [lfName, "42"]) := by
  intro a p k h
  unfold sgW at h
  by_cases h1 : a = 1
  · rw [if_pos h1] at h
    exact Or.inl ⟨h1, ((Prod.mk.injEq _ _ _ _ ▸
      Option.some_inj.mp h).1).symm⟩
  · rw [if_neg h1] at h
    by_cases h4 : a = 4
    · rw [if_pos h4] at h
      exact Or.inr (Or.inl ⟨h4, ((Prod.mk.injEq _ _ _ _ ▸
        Option.some_inj.mp h).1).symm⟩)
    · rw [if_neg h4] at h
      by_cases h5 : a = 5
      · rw [if_pos h5] at h
        exact Or.inr (Or.inr (Or.inl ⟨h5, ((Prod.mk.injEq _ _ _ _ ▸
          Option.some_inj.mp h).1).symm⟩))
      · rw [if_neg h5] at h
        by_cases h10 : a = 10
        · rw [if_pos h10] at h
          exact Or.inr (Or.inr (Or.inr (Or.inl ⟨h10,
            ((Prod.mk.injEq _ _ _ _ ▸ Option.some_inj.mp h).1).symm⟩)))
        · rw [if_neg h10] at h
          by_cases h42 : a = 42
          · rw [if_pos h42] at h
            exact Or.inr (Or.inr (Or.inr (Or.inr ⟨h42,
              ((Prod.mk.injEq _ _ _ _ ▸ Option.some_inj.mp h).1).symm⟩)))
          · rw [if_neg h42] at h
            cases h

theorem sgW_ok : SigmaOK sgW := by
  refine ⟨rfl, rfl, ?_⟩
  intro a b p k k' ha hb
  rcases sgW_dom a p k ha with ⟨ha1, hp⟩ | ⟨ha1, hp⟩ | ⟨ha1, hp⟩ |
      ⟨ha1, hp⟩ | ⟨ha1, hp⟩ <;>
    rcases sgW_dom b p k' hb with ⟨hb1, hq⟩ | ⟨hb1, hq⟩ | ⟨hb1, hq⟩ |
      ⟨hb1, hq⟩ | ⟨hb1, hq⟩ <;>
    subst ha1 <;> subst hb1 <;> subst hp <;>
    first
      | rfl
      | exact absurd hq (by decide)

theorem wfacts_ok : ∀ f ∈ wfacts, factOK sgW f := by
  intro f hf
  simp only [wfacts, List.mem_cons, List.not_mem_nil, or_false] at hf
  rcases hf with rfl | rfl
  · exact ⟨by decide, by decide, ⟨rfl, rfl, trivial⟩, rfl⟩
  · show sgW 42 = some ([lfName, Nat.repr 42], PKind.file)
    decide

/-- Witness for the amended C8 at concrete inputs: the witness
assignment is consistent, both witness facts respect it, and after the
two-fact run both backends agree on the witness paths — which are
actually populated ("d" is a directory, "d/f" and "lost+found/42" are
files in both hierarchies). -/
theorem backend_substitutability_witness :
    SigmaOK sgW ∧ (∀ f ∈ wfacts, factOK sgW f) ∧
      (localIsDir (runLF ⟨[], []⟩ wfacts) ["d"] =
          mdIsDir (runMD ⟨[], []⟩ wfacts) ["d"] ∧
        localIsFile (runLF ⟨[], []⟩ wfacts) ["d", "f"] =
          mdIsFile (runMD ⟨[], []⟩ wfacts) ["d", "f"] ∧
        localIsFile (runLF ⟨[], []⟩ wfacts) [lfName, "42"] =
          mdIsFile (runMD ⟨[], []⟩ wfacts) [lfName, "42"]) ∧
      localIsDir (runLF ⟨[], []⟩ wfacts) ["d"] = true ∧
      localIsFile (runLF ⟨[], []⟩ wfacts) ["d", "f"] = true ∧
      localIsFile (runLF ⟨[], []⟩ wfacts) [lfName, "42"] = true :=
  ⟨sgW_ok, wfacts_ok,
    ⟨(backend_substitutability sgW wfacts sgW_ok wfacts_ok ["d"]).1,
      (backend_substitutability sgW wfacts sgW_ok wfacts_ok
        ["d", "f"]).2,
      (backend_substitutability sgW wfacts sgW_ok wfacts_ok
        [lfName, "42"]).2⟩,
    by decide, by decide, by decide⟩
